import Mathlib

/-!
Verification of the diagram engine in `VisualizadorDiagrama` (files
`LogicaNodal.py` and `server.py`).  The Python classes `Nodo` and `Diagrama`
are embedded shallowly: the registry `Diagrama.nodos` becomes an association
list from ids to nodes, object references become ids, Python sets become
`Finset`s, and the recursive procedures (`eliminarNodo`, `_creaCiclo`,
`_propagarRestricciones`) are given an explicit fuel argument returning
`none` when the recursion depth exceeds the fuel (mirroring nontermination
of the Python recursion, which carries no visited set except in the cycle
guard).
-/

set_option maxHeartbeats 1000000

namespace VisualizadorDiagrama

/-- Embedding of the Python class `Nodo` (LogicaNodal.py, lines 3-13).
Children and parents are stored as lists of ids (the registry resolves
them), Python sets become `Finset`s. -/
structure Nodo where
  id : Nat
  nombre : String
  hijos : List Nat
  padres : List Nat
  restricciones_propias : Finset String
  restricciones_heredadas : List (Finset String)
  homologos : Finset Nat
  contenido : String
  gitURL : String
deriving DecidableEq

/-- `Nodo.__init__`: all fields empty/default (the caller then sets `id` and
`nombre`). -/
def nuevoNodo (id : Nat) (nombre : String) : Nodo :=
  { id := id, nombre := nombre, hijos := [], padres := [],
    restricciones_propias := ∅, restricciones_heredadas := [],
    homologos := ∅, contenido := "", gitURL := "" }

/-- The Python property `Nodo.restricciones`: the inherited layers with the
own-constraint set appended as the final layer. -/
def Nodo.restricciones (n : Nodo) : List (Finset String) :=
  n.restricciones_heredadas ++ [n.restricciones_propias]

/-- Embedding of the Python class `Diagrama` (LogicaNodal.py, lines 44-53).
The dict `self.nodos` becomes an association list (insertion-ordered, like a
Python dict). -/
structure Diagrama where
  nombre : String
  nodos : List (Nat × Nodo)
  siguiente_id : Nat
  nodo_raiz_id : Option Nat
deriving DecidableEq

/-- Registry lookup (`id in self.nodos` / `self.nodos[id]`). -/
def lookupN (st : Diagrama) (id : Nat) : Option Nodo :=
  (st.nodos.find? (fun p => p.1 == id)).map (·.2)

/-- The registry's key list (`self.nodos.keys()`). -/
def claves (st : Diagrama) : List Nat := st.nodos.map (·.1)

/-- In-place update of the node registered at `id` (a Python attribute
assignment on the object `self.nodos[id]`); identity when `id` is absent. -/
def modifyReg (st : Diagrama) (id : Nat) (f : Nodo → Nodo) : Diagrama :=
  { st with nodos := st.nodos.map (fun p => if p.1 == id then (p.1, f p.2) else p) }

/-- `del self.nodos[id]`. -/
def borrarReg (st : Diagrama) (id : Nat) : Diagrama :=
  { st with nodos := st.nodos.filter (fun p => p.1 != id) }

/-- `Diagrama.__init__` together with `_crear_nodo_raiz` (lines 45-62): the
root node gets id 1 and the diagram's name, and the counter moves to 2. -/
def crearDiagrama (nombre : String) : Diagrama :=
  { nombre := nombre, nodos := [(1, nuevoNodo 1 nombre)],
    siguiente_id := 2, nodo_raiz_id := some 1 }

/-- `Diagrama.actualizarHomologos` (lines 64-76): rebuilds the homolog set of
node `id` as all other registered nodes with the given name, and adds `id`
into each of their homolog sets. -/
def actualizarHomologos (st : Diagrama) (id : Nat) (nombre : String) : Diagrama :=
  if (lookupN st id).isSome then
    let hs : Finset Nat :=
      ((st.nodos.filter (fun p => p.2.nombre == nombre && p.2.id != id)).map
        (fun p => p.2.id)).toFinset
    let st1 : Diagrama :=
      { st with nodos := st.nodos.map (fun p =>
          if p.2.nombre == nombre && p.2.id != id then
            (p.1, { p.2 with homologos := insert id p.2.homologos })
          else p) }
    modifyReg st1 id (fun n => { n with homologos := hs })
  else st

/-- `Diagrama.anadirNodo` (lines 78-109).  Returns the updated diagram and
the id of the created node.  `num_hijo` is an `Int` because the Python
argument may be negative (in which case the bound check fails and the new
child is appended). -/
def anadirNodo (st : Diagrama) (nombre : String)
    (id_padre : Option Nat) (num_hijo : Option Int) : Diagrama × Nat :=
  let id := st.siguiente_id
  let base := nuevoNodo id nombre
  match id_padre with
  | some pid =>
    match lookupN st pid with
    | some padre =>
      let nodo := { base with
        padres := [pid], restricciones_heredadas := padre.restricciones }
      let st1 := modifyReg st pid (fun p =>
        { p with hijos :=
            match num_hijo with
            | some k =>
              if 0 ≤ k ∧ k ≤ (p.hijos.length : Int)
              then p.hijos.insertIdx k.toNat id
              else p.hijos ++ [id]
            | none => p.hijos ++ [id] })
      let st2 := { st1 with nodos := st1.nodos ++ [(id, nodo)], siguiente_id := id + 1 }
      (actualizarHomologos st2 id nombre, id)
    | none =>
      let st2 := { st with nodos := st.nodos ++ [(id, base)], siguiente_id := id + 1 }
      (actualizarHomologos st2 id nombre, id)
  | none =>
    let st2 := { st with nodos := st.nodos ++ [(id, base)], siguiente_id := id + 1 }
    (actualizarHomologos st2 id nombre, id)

/-- The homolog-cleanup loop at the end of `eliminarNodo` (lines 136-138):
discard `id` from the homolog set of every registered node whose id was in
the deleted node's homolog set. -/
def limpiarHomologos (st : Diagrama) (hs : Finset Nat) (id : Nat) : Diagrama :=
  { st with nodos := st.nodos.map (fun p =>
      if p.1 ∈ hs then (p.1, { p.2 with homologos := p.2.homologos.erase id })
      else p) }

/-- `Diagrama.eliminarNodo` (lines 111-140), with fuel bounding the
recursion depth (`none` = the Python recursion would not return at this
depth).  Children are deleted first (the fold mirrors the loop
`for hijo in hijos_copia: self.eliminarNodo(hijo.id)`), then the node is
removed from its parents' child lists, the registry, and its homologs'
homolog sets. -/
def eliminarNodo : Nat → Diagrama → Nat → Option (Diagrama × Bool)
  | 0, _, _ => none
  | fuel + 1, st, id =>
    match lookupN st id with
    | none => some (st, false)
    | some nodo =>
      match nodo.hijos.foldl
          (fun acc h => acc.bind fun s1 => (eliminarNodo fuel s1 h).map (·.1))
          (some st) with
      | none => none
      | some st1 =>
        match lookupN st1 id with
        | none => none
        | some nodo1 =>
          let st2 := nodo1.padres.foldl (fun s pid =>
            if (lookupN s pid).isSome then
              modifyReg s pid (fun p =>
                { p with hijos := p.hijos.filter (fun h => h != id) })
            else s) st1
          let st3 := borrarReg st2 id
          let st4 := limpiarHomologos st3 nodo1.homologos id
          some (st4, true)

/-- The child-deletion loop of `eliminarNodo`, as a standalone function
(definitionally the fold appearing inside `eliminarNodo`). -/
def eliminarLista (fuel : Nat) (st : Diagrama) (l : List Nat) : Option Diagrama :=
  l.foldl (fun acc h => acc.bind fun s1 => (eliminarNodo fuel s1 h).map (·.1))
    (some st)

/-- The closure `tiene_descendiente` of `Diagrama._creaCiclo`
(lines 184-196): depth-first search from `n` for `objetivo`, threading the
shared visited set; the fold over the children realises the loop
`for hijo in self.nodos[nodo_id].hijos` with its early exit on a hit. -/
def tieneDesc : Nat → Diagrama → Nat → Finset Nat → Nat → Option (Bool × Finset Nat)
  | 0, _, _, _, _ => none
  | fuel + 1, st, objetivo, vis, n =>
    if n = objetivo then some (true, vis)
    else if n ∈ vis then some (false, vis)
    else
      let vis1 := insert n vis
      match lookupN st n with
      | none => some (false, vis1)
      | some nodo =>
        nodo.hijos.foldl
          (fun acc h => acc.bind fun bv =>
            if bv.1 then some bv else tieneDesc fuel st objetivo bv.2 h)
          (some (false, vis1))

/-- The child loop of `tiene_descendiente`, as a standalone function
(definitionally the fold appearing inside `tieneDesc`). -/
def tieneDescLista (fuel : Nat) (st : Diagrama) (objetivo : Nat)
    (vis : Finset Nat) (l : List Nat) : Option (Bool × Finset Nat) :=
  l.foldl
    (fun acc h => acc.bind fun bv =>
      if bv.1 then some bv else tieneDesc fuel st objetivo bv.2 h)
    (some (false, vis))

/-- `Diagrama._creaCiclo` (lines 180-198): true iff `id_padre` is found by
the DFS from `id_hijo` (an empty visited set to start). -/
def creaCiclo (fuel : Nat) (st : Diagrama) (id_padre id_hijo : Nat) : Option Bool :=
  (tieneDesc fuel st id_padre ∅ id_hijo).map (·.1)

/-- The list comprehension `[a | b for a, b in zip_longest(xs, ys,
fillvalue=set())]` used in `enlazarNodos` and `_propagarRestricciones`:
element-wise union, length the max of the two lengths. -/
def unionZip : List (Finset String) → List (Finset String) → List (Finset String)
  | [], ys => ys
  | xs, [] => xs
  | x :: xs, y :: ys => (x ∪ y) :: unionZip xs ys

/-- `Diagrama._propagarRestricciones` (lines 200-221), fuel-bounded: merge
this node's full constraint stack into each child's inherited layers and
recurse (no visited set: a node is re-visited once per path).
`nodo.restricciones` is re-read from the current state at every loop
iteration, as the Python attribute access does. -/
def propagarRestricciones : Nat → Diagrama → Nat → Option Diagrama
  | 0, _, _ => none
  | fuel + 1, st, id_nodo =>
    match lookupN st id_nodo with
    | none => some st
    | some nodo =>
      nodo.hijos.foldl
        (fun acc h => acc.bind fun s =>
          match lookupN s id_nodo with
          | none => some s
          | some nodoAct =>
            propagarRestricciones fuel
              (modifyReg s h (fun hn =>
                { hn with restricciones_heredadas :=
                    unionZip nodoAct.restricciones hn.restricciones_heredadas }))
              h)
        (some st)

/-- The child loop of `_propagarRestricciones`, as a standalone function
(definitionally the fold appearing inside `propagarRestricciones`). -/
def propagarLista (fuel : Nat) (st : Diagrama) (id_nodo : Nat) (l : List Nat) :
    Option Diagrama :=
  l.foldl
    (fun acc h => acc.bind fun s =>
      match lookupN s id_nodo with
      | none => some s
      | some nodoAct =>
        propagarRestricciones fuel
          (modifyReg s h (fun hn =>
            { hn with restricciones_heredadas :=
                unionZip nodoAct.restricciones hn.restricciones_heredadas }))
          h)
    (some st)

/-- `Diagrama.enlazarNodos` (lines 142-178), fuel-bounded through the cycle
guard and the propagation. -/
def enlazarNodos (fuel : Nat) (st : Diagrama) (id_padre id_hijo : Nat) :
    Option (Diagrama × Bool) :=
  match lookupN st id_padre, lookupN st id_hijo with
  | some padre, some hijo =>
    if id_hijo ∈ padre.hijos then some (st, false)
    else
      match creaCiclo fuel st id_padre id_hijo with
      | none => none
      | some true => some (st, false)
      | some false =>
        let st1 := modifyReg st id_padre (fun p => { p with hijos := p.hijos ++ [id_hijo] })
        let st2 := modifyReg st1 id_hijo (fun h => { h with padres := h.padres ++ [id_padre] })
        let st3 := modifyReg st2 id_hijo (fun h =>
          { h with restricciones_heredadas :=
              unionZip padre.restricciones hijo.restricciones_heredadas })
        match propagarRestricciones fuel st3 id_hijo with
        | none => none
        | some st4 => some (st4, true)
  | _, _ => some (st, false)

/-- The rename branch of the endpoint `actualizar_nodo` (server.py, lines
212-229): 404 (`none`) when the id is unknown; otherwise set the name and
refresh homologs. -/
def renombrarNodo (st : Diagrama) (id : Nat) (nombre : String) : Option Diagrama :=
  if (lookupN st id).isSome then
    some (actualizarHomologos (modifyReg st id (fun n => { n with nombre := nombre })) id nombre)
  else none

/-- The endpoint `eliminar_enlace` (server.py, lines 252-263): 404 (`none`)
when either id is unknown; otherwise remove the edge from both sides when
present and report success. -/
def eliminarEnlace (st : Diagrama) (id_padre id_hijo : Nat) : Option Diagrama :=
  match lookupN st id_padre, lookupN st id_hijo with
  | some padre, some _ =>
    let st1 := if id_hijo ∈ padre.hijos then
        modifyReg st id_padre (fun p => { p with hijos := p.hijos.erase id_hijo })
      else st
    let st2 := match lookupN st1 id_hijo with
      | some hijo1 =>
        if id_padre ∈ hijo1.padres then
          modifyReg st1 id_hijo (fun h => { h with padres := h.padres.erase id_padre })
        else st1
      | none => st1
    some st2
  | _, _ => none

/-- The content branch of the endpoint `actualizar_nodo` (server.py, lines
224-227): 404 (`none`) when the id is unknown, otherwise update `contenido`
and/or `gitURL`. -/
def actualizarContenido (st : Diagrama) (id : Nat)
    (contenido gitURL : Option String) : Option Diagrama :=
  if (lookupN st id).isSome then
    some (modifyReg st id (fun n =>
      { n with contenido := contenido.getD n.contenido,
               gitURL := gitURL.getD n.gitURL }))
  else none

/-- The node registered at `id`, with a dummy default (used only to state
facts about ids that are known to be registered). -/
def nodoEn (st : Diagrama) (id : Nat) : Nodo :=
  (lookupN st id).getD (nuevoNodo 0 "")

/-- The diagram states reachable through the core operations.  The flag `r`
permits rename steps and the flag `u` permits unlink steps, so
`Alcanzable true true` is the full reachable-state predicate while
`Alcanzable false u` / `Alcanzable r false` restrict the operation set.
Fuel-carrying operations contribute a step whenever they return (any fuel
that makes them terminate yields the same final state in the Python
program). -/
inductive Alcanzable : Bool → Bool → Diagrama → Prop
  | crear (r u : Bool) (nombre : String) : Alcanzable r u (crearDiagrama nombre)
  | agregar {r u : Bool} {st : Diagrama} (nombre : String)
      (id_padre : Option Nat) (num_hijo : Option Int) :
      Alcanzable r u st → Alcanzable r u (anadirNodo st nombre id_padre num_hijo).1
  | eliminar {r u : Bool} {st st' : Diagrama} {fuel id : Nat} {b : Bool} :
      Alcanzable r u st → eliminarNodo fuel st id = some (st', b) →
      Alcanzable r u st'
  | enlazar {r u : Bool} {st st' : Diagrama} {fuel p c : Nat} {b : Bool} :
      Alcanzable r u st → enlazarNodos fuel st p c = some (st', b) →
      Alcanzable r u st'
  | renombrar {u : Bool} {st st' : Diagrama} {id : Nat} {nombre : String} :
      Alcanzable true u st → renombrarNodo st id nombre = some st' →
      Alcanzable true u st'
  | desenlazar {r : Bool} {st st' : Diagrama} {p c : Nat} :
      Alcanzable r true st → eliminarEnlace st p c = some st' →
      Alcanzable r true st'
  | contenido {r u : Bool} {st st' : Diagrama} {id : Nat}
      {contenido gitURL : Option String} :
      Alcanzable r u st →
      actualizarContenido st id contenido gitURL = some st' →
      Alcanzable r u st'

/-- The child relation induced by the registry: `Arista st a b` holds when
the node registered at `a` lists `b` among its children. -/
def Arista (st : Diagrama) (a b : Nat) : Prop :=
  ∃ n, lookupN st a = some n ∧ b ∈ n.hijos

/-- Acyclicity: no registered node reaches itself through one or more
children edges. -/
def Aciclico (st : Diagrama) : Prop :=
  ∀ a, ¬ Relation.TransGen (Arista st) a a

/-- The data the specification says the inherited layers are derivable
from: the edge structure and each node's own constraints. -/
def entradaDeriv (st : Diagrama) : List (Nat × List Nat × List Nat × Finset String) :=
  st.nodos.map (fun p => (p.1, p.2.hijos, p.2.padres, p.2.restricciones_propias))

section Escenarios

/-- Fresh diagram named `D`: a single root node with id 1. -/
def escBase : Diagrama := crearDiagrama "D"

/-- `escBase` plus a parentless node `X` (id 2). -/
def escX1 : Diagrama := (anadirNodo escBase "X" none none).1

/-- `escX1` plus a second parentless node `X` (id 3); 2 and 3 are mutual
homologs here. -/
def escX2 : Diagrama := (anadirNodo escX1 "X" none none).1

/-- `escX2` after renaming node 3 to `Y`. -/
def escRen : Diagrama := (renombrarNodo escX2 3 "Y").getD escBase

/-- Deletion of the second `X` node (id 3) from `escX2` (no rename
involved). -/
def escDelX : Diagrama × Bool := (eliminarNodo 10 escX2 3).getD (escBase, false)

/-- `escRen` after deleting node 3. -/
def escDel : Diagrama := (eliminarNodo 10 escRen 3).getD (escBase, false) |>.1

/-- `escBase` plus node `A` (id 2) linked under the root. -/
def escHijo : Diagrama := (anadirNodo escBase "A" (some 1) none).1

/-- `escBase` plus a parentless node `A` (id 2): no edges at all. -/
def escSuelto : Diagrama := (anadirNodo escBase "A" none none).1

/-- `escHijo` after unlinking the root from node 2: the same edge structure
as `escSuelto` but node 2 keeps one (empty) inherited layer. -/
def escDesen : Diagrama := (eliminarEnlace escHijo 1 2).getD escBase

/-- `escSuelto` after linking the root to node 2 (a successful `Link`). -/
def escEnl : Diagrama := ((enlazarNodos 10 escSuelto 1 2).getD (escBase, false)).1

end Escenarios

/-- Pointwise inclusion of constraint-layer lists: every layer of `xs` is a
subset of the corresponding layer of `ys` (a missing layer counts as the
empty set). -/
def pwLE (xs ys : List (Finset String)) : Prop :=
  ∀ i, xs.getD i ∅ ⊆ ys.getD i ∅

instance decPwLE (xs ys : List (Finset String)) : Decidable (pwLE xs ys) :=
  decidable_of_iff (∀ i < xs.length, xs.getD i ∅ ⊆ ys.getD i ∅) (by
    constructor
    · intro h i
      by_cases hi : i < xs.length
      · exact h i hi
      · have : xs.getD i ∅ = ∅ := List.getD_eq_default _ _ (le_of_not_lt hi)
        rw [this]
        exact Finset.empty_subset _
    · intro h i _
      exact h i)

/-- Layer-list order: pointwise inclusion together with a length bound.
`unionZip` is the join for this order, which is antisymmetric. -/
def cLE (xs ys : List (Finset String)) : Prop :=
  xs.length ≤ ys.length ∧ pwLE xs ys

/-- Modelled from the spec ("layer *i* equals the union, over the node's
current parents, of layer *i* of that parent's full stack"): the layer list
derived from the current edge set and the parents' constraint stacks. -/
def capasDerivadas (st : Diagrama) (padres : List Nat) : List (Finset String) :=
  padres.foldr (fun q acc =>
    match lookupN st q with
    | some m => unionZip m.restricciones acc
    | none => acc) []

/-- Invariant: every registered node's inherited layers coincide with the
layers derived from its current parents. -/
def CapasCorrectas (st : Diagrama) : Prop :=
  ∀ p ∈ st.nodos, p.2.restricciones_heredadas = capasDerivadas st p.2.padres

/-- A node with its homolog set cleared (used to state that an operation
touches only homolog sets). -/
def Nodo.sinHomologos (n : Nodo) : Nodo := { n with homologos := ∅ }

/-- A node with its inherited layers cleared (used to state that constraint
propagation touches only inherited layers). -/
def Nodo.sinCapas (n : Nodo) : Nodo := { n with restricciones_heredadas := [] }

/-- The inherited layers of the node registered at `k` (`[]` when absent). -/
def capasEn (st : Diagrama) (k : Nat) : List (Finset String) :=
  (nodoEn st k).restricciones_heredadas

/-- The purely graph-shaped data of a node: id, children, parents. -/
def Nodo.grafoDe (n : Nodo) : Nat × List Nat × List Nat := (n.id, n.hijos, n.padres)

/-- Everything an execution of `_propagarRestricciones` can relate: only the
inherited layers change, and they only grow. -/
def SoloCrecen (s s' : Diagrama) : Prop :=
  (∀ k, (lookupN s' k).map Nodo.sinCapas = (lookupN s k).map Nodo.sinCapas) ∧
  (∀ k, cLE (capasEn s k) (capasEn s' k)) ∧
  claves s' = claves s ∧
  s'.siguiente_id = s.siguiente_id ∧
  s'.nombre = s.nombre ∧
  s'.nodo_raiz_id = s.nodo_raiz_id

/-- The layer lower bounds the code maintains: every registered parent's
full constraint stack is pointwise contained in each registered child's
inherited layers. -/
def CotasInferiores (st : Diagrama) : Prop :=
  ∀ p ∈ st.nodos, ∀ c ∈ p.2.hijos, ∀ nc, lookupN st c = some nc →
    cLE p.2.restricciones nc.restricciones_heredadas

/-- The propagation postcondition: below the start vertex, every edge
already satisfies the parent-stack lower bound. -/
def CotasDesde (st : Diagrama) (v : Nat) : Prop :=
  ∀ u, Relation.ReflTransGen (Arista st) v u →
    ∀ nu, lookupN st u = some nu → ∀ d ∈ nu.hijos,
      ∀ nd, lookupN st d = some nd →
        cLE nu.restricciones nd.restricciones_heredadas

/-- Structural well-formedness of a diagram: keys are unique and below the
counter, the stored `id` field matches the key, parent/child lists are
duplicate-free and mutually consistent, and the children relation is
acyclic. -/
structure BuenaForma (st : Diagrama) : Prop where
  clavesNodup : (claves st).Nodup
  idCoincide : ∀ p ∈ st.nodos, p.2.id = p.1
  clavesLt : ∀ p ∈ st.nodos, p.1 < st.siguiente_id
  hijosBidir : ∀ p ∈ st.nodos, ∀ c ∈ p.2.hijos,
    ∃ m, lookupN st c = some m ∧ p.1 ∈ m.padres
  padresBidir : ∀ p ∈ st.nodos, ∀ q ∈ p.2.padres,
    ∃ m, lookupN st q = some m ∧ p.1 ∈ m.hijos
  hijosNodup : ∀ p ∈ st.nodos, p.2.hijos.Nodup
  padresNodup : ∀ p ∈ st.nodos, p.2.padres.Nodup
  aciclico : Aciclico st

/-- Exact homolog bookkeeping: a registered node's homolog set contains only
registered ids, and contains exactly the other registered nodes carrying the
same name. -/
def HomologosExactos (st : Diagrama) : Prop :=
  (∀ p ∈ st.nodos, ∀ h ∈ p.2.homologos, (lookupN st h).isSome) ∧
  (∀ p ∈ st.nodos, ∀ q ∈ st.nodos,
    (q.1 ∈ p.2.homologos ↔ (p.2.nombre = q.2.nombre ∧ p.1 ≠ q.1)))

/-- What a (cascade of) deletions can do to the registry: keys only
disappear, the counter is untouched, and a surviving node keeps its name,
parents and constraint data while its child list only loses entries. -/
def ElimInv (st st' : Diagrama) : Prop :=
  (∀ k, k ∈ claves st' → k ∈ claves st) ∧
  st'.siguiente_id = st.siguiente_id ∧
  (∀ k nk nk', lookupN st k = some nk → lookupN st' k = some nk' →
    (∀ x ∈ nk'.hijos, x ∈ nk.hijos) ∧ nk'.padres = nk.padres ∧
    nk'.nombre = nk.nombre ∧
    nk'.restricciones_heredadas = nk.restricciones_heredadas ∧
    nk'.restricciones_propias = nk.restricciones_propias)

section LemasRegistro

variable {st : Diagrama} {k id : Nat} {n : Nodo} {f : Nodo → Nodo}

theorem find?_clave_map {l : List (Nat × Nodo)} {g : Nat × Nodo → Nat × Nodo}
    (hg : ∀ p, (g p).1 = p.1) (k : Nat) :
    (l.map g).find? (fun p => p.1 == k) = (l.find? (fun p => p.1 == k)).map g := by
  induction l with
  | nil => rfl
  | cons a t ih =>
    by_cases h : a.1 = k
    · rw [List.map_cons, List.find?_cons_of_pos _ (by simpa [hg] using h),
        List.find?_cons_of_pos _ (by simpa using h)]
      rfl
    · rw [List.map_cons, List.find?_cons_of_neg _ (by simpa [hg] using h),
        List.find?_cons_of_neg _ (by simpa using h), ih]

theorem lookupN_mem (h : lookupN st k = some n) : (k, n) ∈ st.nodos := by
  unfold lookupN at h
  cases hf : st.nodos.find? (fun p => p.1 == k) with
  | none => simp [hf] at h
  | some p =>
    have hp : p.1 = k := by simpa using List.find?_some hf
    have hm := List.mem_of_find?_eq_some hf
    simp only [hf] at h
    have hn : n = p.2 := by
      cases h
      rfl
    rw [hn, ← hp]
    exact hm

theorem lookupN_isSome_iff : (lookupN st k).isSome ↔ k ∈ claves st := by
  unfold lookupN claves
  constructor
  · intro h
    cases hf : st.nodos.find? (fun p => p.1 == k) with
    | none => rw [hf] at h; simp at h
    | some p =>
      have hp : p.1 = k := by simpa using List.find?_some hf
      exact List.mem_map.mpr ⟨p, List.mem_of_find?_eq_some hf, hp⟩
  · intro h
    rcases List.mem_map.mp h with ⟨p, hp, hk⟩
    cases hf : st.nodos.find? (fun p => p.1 == k) with
    | none =>
      have := List.find?_eq_none.mp hf p hp
      simp [hk] at this
    | some q => rfl

theorem lookupN_eq_none_iff : lookupN st k = none ↔ k ∉ claves st := by
  rw [← lookupN_isSome_iff]
  cases lookupN st k <;> simp

theorem lookupN_of_mem (hnd : (claves st).Nodup) (h : (k, n) ∈ st.nodos) :
    lookupN st k = some n := by
  unfold lookupN
  rcases st with ⟨nom, l, sig, raiz⟩
  simp only [claves] at hnd
  simp only at h ⊢
  induction l with
  | nil => simp at h
  | cons a t ih =>
    rcases List.nodup_cons.mp hnd with ⟨ha, hndt⟩
    rcases List.mem_cons.mp h with h | h
    · rw [← h, List.find?_cons_of_pos _ (by simp)]
      rfl
    · have hak : ¬ a.1 = k := by
        intro hak
        apply ha
        show a.1 ∈ List.map (fun x => x.1) t
        rw [hak]
        exact List.mem_map.mpr ⟨(k, n), h, rfl⟩
      rw [List.find?_cons_of_neg _ (by simpa using hak)]
      exact ih hndt h

theorem lookupN_modifyReg (st : Diagrama) (id : Nat) (f : Nodo → Nodo) (k : Nat) :
    lookupN (modifyReg st id f) k =
      if k = id then (lookupN st k).map f else lookupN st k := by
  unfold lookupN modifyReg
  simp only
  rw [show (fun p : Nat × Nodo => if p.1 == id then (p.1, f p.2) else p) =
      (fun p : Nat × Nodo => if p.1 = id then (p.1, f p.2) else p) by
    funext p; simp]
  rw [find?_clave_map (g := fun p => if p.1 = id then (p.1, f p.2) else p)
    (by intro p; by_cases h : p.1 = id <;> simp [h]) k]
  cases hf : st.nodos.find? (fun p => p.1 == k) with
  | none => simp
  | some p =>
    have hp : p.1 = k := by simpa using List.find?_some hf
    by_cases h : k = id
    · subst h
      simp [hp]
    · simp [hp, h]

theorem claves_modifyReg (st : Diagrama) (id : Nat) (f : Nodo → Nodo) :
    claves (modifyReg st id f) = claves st := by
  unfold claves modifyReg
  simp only [List.map_map]
  apply List.map_congr_left
  intro p _
  by_cases h : p.1 = id <;> simp [h]

theorem siguiente_modifyReg (st : Diagrama) (id : Nat) (f : Nodo → Nodo) :
    (modifyReg st id f).siguiente_id = st.siguiente_id := rfl

theorem lookupN_borrarReg (st : Diagrama) (id k : Nat) :
    lookupN (borrarReg st id) k = if k = id then none else lookupN st k := by
  unfold lookupN borrarReg
  simp only
  by_cases h : k = id
  · subst h
    rw [if_pos rfl]
    cases hf : (st.nodos.filter (fun p => p.1 != k)).find? (fun p => p.1 == k) with
    | none => simp
    | some p =>
      have hp : p.1 = k := by simpa using List.find?_some hf
      have hm := List.mem_of_find?_eq_some hf
      have := List.of_mem_filter hm
      simp [hp] at this
  · rw [if_neg h]
    congr 1
    induction st.nodos with
    | nil => rfl
    | cons a t ih =>
      rw [List.filter_cons]
      by_cases hak : a.1 = k
      · have hpos : (a.1 != id) = true := by
          simp only [bne_iff_ne, ne_eq]
          intro hh
          rw [hak] at hh
          exact h hh
        rw [if_pos hpos,
          List.find?_cons_of_pos _ (by simpa using hak),
          List.find?_cons_of_pos _ (by simpa using hak)]
      · by_cases hai : a.1 = id
        · rw [if_neg (by simp [hai]), ih,
            List.find?_cons_of_neg _ (by simpa using hak)]
        · rw [if_pos (by simp [hai]),
            List.find?_cons_of_neg _ (by simpa using hak),
            List.find?_cons_of_neg _ (by simpa using hak), ih]

theorem claves_borrarReg (st : Diagrama) (id : Nat) :
    claves (borrarReg st id) = (claves st).filter (fun x => x != id) := by
  unfold claves borrarReg
  simp only
  induction st.nodos with
  | nil => rfl
  | cons a t ih =>
    by_cases h : a.1 = id
    · rw [List.filter_cons, if_neg (by simp [h]), List.map_cons,
        List.filter_cons, if_neg (by simp [h]), ih]
    · rw [List.filter_cons, if_pos (by simp [h]), List.map_cons, List.map_cons,
        List.filter_cons, if_pos (by simp [h]), ih]

end LemasRegistro


section LemasMapaCondicional

/-- Looking up after a key-preserving conditional rewrite of the registry
values. -/
theorem find?_map_cond {l : List (Nat × Nodo)} {k : Nat}
    (c : Nat × Nodo → Prop) [DecidablePred c] (g : Nat × Nodo → Nodo) :
    ((l.map (fun p => if c p then (p.1, g p) else p)).find?
        (fun p => p.1 == k)).map (·.2)
    = (l.find? (fun p => p.1 == k)).map (fun p => if c p then g p else p.2) := by
  rw [find?_clave_map (g := fun p => if c p then (p.1, g p) else p)
    (by intro p; by_cases h : c p <;> simp [h]) k]
  cases hf : l.find? (fun p => p.1 == k) with
  | none => rfl
  | some p =>
    by_cases h : c p <;> simp [h]

theorem claves_map_cond {st : Diagrama}
    (c : Nat × Nodo → Prop) [DecidablePred c] (g : Nat × Nodo → Nodo) :
    claves { st with nodos := st.nodos.map (fun p => if c p then (p.1, g p) else p) }
      = claves st := by
  unfold claves
  simp only [List.map_map]
  apply List.map_congr_left
  intro p _
  by_cases h : c p <;> simp [h]

theorem lookupN_actHom_general (st : Diagrama) (i : Nat) (nm : String) (k : Nat) :
    lookupN (actualizarHomologos st i nm) k
    = if (lookupN st i).isSome then
        (if k = i then
          ((lookupN st k).map (fun n =>
            if n.nombre == nm && n.id != i then
              { n with homologos := insert i n.homologos } else n)).map
            (fun n => { n with homologos :=
              ((st.nodos.filter (fun p => p.2.nombre == nm && p.2.id != i)).map
                (fun p => p.2.id)).toFinset })
        else
          (lookupN st k).map (fun n =>
            if n.nombre == nm && n.id != i then
              { n with homologos := insert i n.homologos } else n))
      else lookupN st k := by
  unfold actualizarHomologos
  by_cases hi : (lookupN st i).isSome
  · rw [if_pos hi, if_pos hi]
    rw [lookupN_modifyReg]
    have hbase : ∀ m : Nat,
        lookupN { st with nodos := st.nodos.map (fun p =>
          if p.2.nombre == nm && p.2.id != i then
            (p.1, { p.2 with homologos := insert i p.2.homologos })
          else p) } m
        = (lookupN st m).map (fun n =>
            if n.nombre == nm && n.id != i then
              { n with homologos := insert i n.homologos } else n) := by
      intro m
      show ((st.nodos.map (fun p =>
          if p.2.nombre == nm && p.2.id != i then
            (p.1, { p.2 with homologos := insert i p.2.homologos })
          else p)).find? (fun p => p.1 == m)).map (·.2) = _
      have := find?_map_cond (l := st.nodos) (k := m)
        (fun p => (p.2.nombre == nm && p.2.id != i) = true)
        (fun p => { p.2 with homologos := insert i p.2.homologos })
      simp only at this
      rw [show (fun p : Nat × Nodo =>
          if (p.2.nombre == nm && p.2.id != i) = true then
            (p.1, { p.2 with homologos := insert i p.2.homologos })
          else p)
        = (fun p : Nat × Nodo =>
          if p.2.nombre == nm && p.2.id != i then
            (p.1, { p.2 with homologos := insert i p.2.homologos })
          else p) by funext p; rfl] at this
      rw [this]
      unfold lookupN
      cases st.nodos.find? (fun p => p.1 == m) with
      | none => rfl
      | some p =>
        by_cases h : (p.2.nombre == nm && p.2.id != i) = true <;> simp [h]
    by_cases hk : k = i
    · rw [if_pos hk, if_pos hk, hbase]
    · rw [if_neg hk, if_neg hk, hbase]
  · rw [if_neg hi, if_neg hi]

theorem claves_actHom (st : Diagrama) (i : Nat) (nm : String) :
    claves (actualizarHomologos st i nm) = claves st := by
  unfold actualizarHomologos
  by_cases hi : (lookupN st i).isSome
  · rw [if_pos hi]
    rw [claves_modifyReg]
    exact claves_map_cond
      (fun p => (p.2.nombre == nm && p.2.id != i) = true)
      (fun p => { p.2 with homologos := insert i p.2.homologos })
  · rw [if_neg hi]

theorem siguiente_actHom (st : Diagrama) (i : Nat) (nm : String) :
    (actualizarHomologos st i nm).siguiente_id = st.siguiente_id := by
  unfold actualizarHomologos
  by_cases hi : (lookupN st i).isSome
  · rw [if_pos hi]; rfl
  · rw [if_neg hi]

/-- `actualizarHomologos` changes only homolog sets. -/
theorem sinHom_actHom (st : Diagrama) (i : Nat) (nm : String) (k : Nat) :
    (lookupN (actualizarHomologos st i nm) k).map Nodo.sinHomologos
    = (lookupN st k).map Nodo.sinHomologos := by
  rw [lookupN_actHom_general]
  by_cases hi : (lookupN st i).isSome
  · rw [if_pos hi]
    by_cases hk : k = i
    · rw [if_pos hk]
      cases lookupN st k with
      | none => rfl
      | some n =>
        simp only [Option.map_map, Option.map]
        congr 1
        by_cases h : (n.nombre == nm && n.id != i) = true <;>
          simp [h, Nodo.sinHomologos]
    · rw [if_neg hk]
      cases lookupN st k with
      | none => rfl
      | some n =>
        simp only [Option.map_map, Option.map]
        congr 1
        by_cases h : (n.nombre == nm && n.id != i) = true <;>
          simp [h, Nodo.sinHomologos]
  · rw [if_neg hi]

theorem lookupN_limpiarHomologos (st : Diagrama) (hs : Finset Nat) (i k : Nat) :
    lookupN (limpiarHomologos st hs i) k
    = (lookupN st k).map (fun n =>
        if k ∈ hs then { n with homologos := n.homologos.erase i } else n) := by
  unfold limpiarHomologos
  show ((st.nodos.map (fun p =>
      if p.1 ∈ hs then (p.1, { p.2 with homologos := p.2.homologos.erase i })
      else p)).find? (fun p => p.1 == k)).map (·.2) = _
  have := find?_map_cond (l := st.nodos) (k := k)
    (fun p => p.1 ∈ hs)
    (fun p => { p.2 with homologos := p.2.homologos.erase i })
  rw [this]
  unfold lookupN
  cases hf : st.nodos.find? (fun p => p.1 == k) with
  | none => rfl
  | some p =>
    have hp : p.1 = k := by simpa using List.find?_some hf
    show some (if p.1 ∈ hs then
        { p.2 with homologos := p.2.homologos.erase i } else p.2)
      = some (if k ∈ hs then
        { p.2 with homologos := p.2.homologos.erase i } else p.2)
    rw [hp]

theorem claves_limpiarHomologos (st : Diagrama) (hs : Finset Nat) (i : Nat) :
    claves (limpiarHomologos st hs i) = claves st := by
  unfold limpiarHomologos
  exact claves_map_cond (fun p => p.1 ∈ hs)
    (fun p => { p.2 with homologos := p.2.homologos.erase i })

theorem sinHom_limpiarHomologos (st : Diagrama) (hs : Finset Nat) (i k : Nat) :
    (lookupN (limpiarHomologos st hs i) k).map Nodo.sinHomologos
    = (lookupN st k).map Nodo.sinHomologos := by
  rw [lookupN_limpiarHomologos]
  cases lookupN st k with
  | none => rfl
  | some n =>
    simp only [Option.map_map, Option.map]
    congr 1
    by_cases h : k ∈ hs <;> simp [h, Nodo.sinHomologos]

end LemasMapaCondicional

section LemasPliegues

variable {α β : Type}

theorem foldl_bind_none (f : α → β → Option α) (l : List β) :
    l.foldl (fun acc h => acc.bind fun s => f s h) none = none := by
  induction l with
  | nil => rfl
  | cons h t ih => simpa using ih

theorem foldl_bind_cons (f : α → β → Option α) (st : α) (h : β) (t : List β) :
    (h :: t).foldl (fun acc x => acc.bind fun s => f s x) (some st)
    = (f st h).bind (fun s' =>
        t.foldl (fun acc x => acc.bind fun s => f s x) (some s')) := by
  rw [List.foldl_cons]
  cases hf : f st h with
  | none => simpa [hf] using foldl_bind_none f t
  | some s' => simp [hf]

theorem eliminarLista_nil (fuel : Nat) (st : Diagrama) :
    eliminarLista fuel st [] = some st := rfl

theorem eliminarLista_cons (fuel : Nat) (st : Diagrama) (h : Nat) (t : List Nat) :
    eliminarLista fuel st (h :: t)
    = (eliminarNodo fuel st h).bind (fun r => eliminarLista fuel r.1 t) := by
  unfold eliminarLista
  rw [foldl_bind_cons (fun s1 x => (eliminarNodo fuel s1 x).map (·.1))]
  cases eliminarNodo fuel st h with
  | none => rfl
  | some r => rfl

theorem eliminarNodo_succ (fuel : Nat) (st : Diagrama) (id : Nat) :
    eliminarNodo (fuel + 1) st id
    = match lookupN st id with
      | none => some (st, false)
      | some nodo =>
        match eliminarLista fuel st nodo.hijos with
        | none => none
        | some st1 =>
          match lookupN st1 id with
          | none => none
          | some nodo1 =>
            let st2 := nodo1.padres.foldl (fun s pid =>
              if (lookupN s pid).isSome then
                modifyReg s pid (fun p =>
                  { p with hijos := p.hijos.filter (fun h => h != id) })
              else s) st1
            some (limpiarHomologos (borrarReg st2 id) nodo1.homologos id, true) := by
  rfl

theorem tieneDescLista_nil (fuel : Nat) (st : Diagrama) (objetivo : Nat)
    (vis : Finset Nat) : tieneDescLista fuel st objetivo vis [] = some (false, vis) := rfl

theorem tieneDescLista_cons (fuel : Nat) (st : Diagrama) (objetivo : Nat)
    (vis : Finset Nat) (h : Nat) (t : List Nat) :
    tieneDescLista fuel st objetivo vis (h :: t)
    = (tieneDesc fuel st objetivo vis h).bind (fun bv =>
        if bv.1 then some bv else tieneDescLista fuel st objetivo bv.2 t) := by
  unfold tieneDescLista
  rw [foldl_bind_cons (fun bv x =>
    if bv.1 then some bv else tieneDesc fuel st objetivo bv.2 x) (false, vis) h t]
  have hred : (if ((false, vis) : Bool × Finset Nat).1 = true
      then some ((false, vis) : Bool × Finset Nat)
      else tieneDesc fuel st objetivo ((false, vis) : Bool × Finset Nat).2 h)
      = tieneDesc fuel st objetivo vis h := by simp
  rw [hred]
  cases hf : tieneDesc fuel st objetivo vis h with
  | none => rfl
  | some bv =>
    obtain ⟨b, v⟩ := bv
    cases b with
    | false => rfl
    | true =>
      show List.foldl _ (some (true, v)) t = some (true, v)
      induction t with
      | nil => rfl
      | cons x xs ih => simpa using ih

theorem tieneDesc_succ (fuel : Nat) (st : Diagrama) (objetivo : Nat)
    (vis : Finset Nat) (n : Nat) :
    tieneDesc (fuel + 1) st objetivo vis n
    = if n = objetivo then some (true, vis)
      else if n ∈ vis then some (false, vis)
      else
        match lookupN st n with
        | none => some (false, insert n vis)
        | some nodo => tieneDescLista fuel st objetivo (insert n vis) nodo.hijos := by
  rfl

theorem propagarLista_nil (fuel : Nat) (st : Diagrama) (id_nodo : Nat) :
    propagarLista fuel st id_nodo [] = some st := rfl

theorem propagarLista_cons (fuel : Nat) (st : Diagrama) (id_nodo : Nat)
    (h : Nat) (t : List Nat) :
    propagarLista fuel st id_nodo (h :: t)
    = (match lookupN st id_nodo with
       | none => some st
       | some nodoAct =>
         propagarRestricciones fuel
           (modifyReg st h (fun hn =>
             { hn with restricciones_heredadas :=
                 unionZip nodoAct.restricciones hn.restricciones_heredadas }))
           h).bind
      (fun s2 => propagarLista fuel s2 id_nodo t) := by
  unfold propagarLista
  rw [foldl_bind_cons (fun s x =>
    match lookupN s id_nodo with
    | none => some s
    | some nodoAct =>
      propagarRestricciones fuel
        (modifyReg s x (fun hn =>
          { hn with restricciones_heredadas :=
              unionZip nodoAct.restricciones hn.restricciones_heredadas }))
        x) st h t]

theorem propagarRestricciones_succ (fuel : Nat) (st : Diagrama) (id_nodo : Nat) :
    propagarRestricciones (fuel + 1) st id_nodo
    = match lookupN st id_nodo with
      | none => some st
      | some nodo => propagarLista fuel st id_nodo nodo.hijos := by
  rfl

end LemasPliegues

section LemasUnionZip

theorem unionZip_nil_left (ys : List (Finset String)) : unionZip [] ys = ys := by
  cases ys <;> rfl

theorem unionZip_nil_right (xs : List (Finset String)) : unionZip xs [] = xs := by
  cases xs <;> rfl

theorem unionZip_cons_cons (x y : Finset String) (xs ys : List (Finset String)) :
    unionZip (x :: xs) (y :: ys) = (x ∪ y) :: unionZip xs ys := rfl

theorem length_unionZip (xs ys : List (Finset String)) :
    (unionZip xs ys).length = max xs.length ys.length := by
  induction xs generalizing ys with
  | nil => rw [unionZip_nil_left]; simp
  | cons x xs ih =>
    cases ys with
    | nil => rw [unionZip_nil_right]; simp
    | cons y ys =>
      rw [unionZip_cons_cons]
      simp [ih, Nat.succ_max_succ]

theorem getD_unionZip (xs ys : List (Finset String)) (i : Nat) :
    (unionZip xs ys).getD i ∅ = xs.getD i ∅ ∪ ys.getD i ∅ := by
  induction xs generalizing ys i with
  | nil =>
    rw [unionZip_nil_left]
    simp
  | cons x xs ih =>
    cases ys with
    | nil =>
      rw [unionZip_nil_right]
      simp
    | cons y ys =>
      rw [unionZip_cons_cons]
      cases i with
      | zero => simp
      | succ j => simpa using ih ys j

theorem pwLE_refl (xs : List (Finset String)) : pwLE xs xs := fun _ => le_refl _

theorem pwLE_trans {xs ys zs : List (Finset String)}
    (h1 : pwLE xs ys) (h2 : pwLE ys zs) : pwLE xs zs :=
  fun i => (h1 i).trans (h2 i)

theorem cLE_refl (xs : List (Finset String)) : cLE xs xs :=
  ⟨le_refl _, pwLE_refl xs⟩

theorem cLE_trans {xs ys zs : List (Finset String)}
    (h1 : cLE xs ys) (h2 : cLE ys zs) : cLE xs zs :=
  ⟨h1.1.trans h2.1, pwLE_trans h1.2 h2.2⟩

theorem pwLE_unionZip_left (xs ys : List (Finset String)) :
    pwLE xs (unionZip xs ys) := by
  intro i
  rw [getD_unionZip]
  exact Finset.subset_union_left

theorem pwLE_unionZip_right (xs ys : List (Finset String)) :
    pwLE ys (unionZip xs ys) := by
  intro i
  rw [getD_unionZip]
  exact Finset.subset_union_right

theorem cLE_unionZip_left (xs ys : List (Finset String)) :
    cLE xs (unionZip xs ys) :=
  ⟨by rw [length_unionZip]; exact le_max_left _ _, pwLE_unionZip_left xs ys⟩

theorem cLE_unionZip_right (xs ys : List (Finset String)) :
    cLE ys (unionZip xs ys) :=
  ⟨by rw [length_unionZip]; exact le_max_right _ _, pwLE_unionZip_right xs ys⟩

theorem unionZip_cLE {xs ys zs : List (Finset String)}
    (h1 : cLE xs zs) (h2 : cLE ys zs) : cLE (unionZip xs ys) zs := by
  refine ⟨by rw [length_unionZip]; exact max_le h1.1 h2.1, ?_⟩
  intro i
  rw [getD_unionZip]
  exact Finset.union_subset (h1.2 i) (h2.2 i)

theorem cLE_antisymm {xs ys : List (Finset String)}
    (h1 : cLE xs ys) (h2 : cLE ys xs) : xs = ys := by
  have hlen : xs.length = ys.length := le_antisymm h1.1 h2.1
  apply List.ext_getElem hlen
  intro i hi1 hi2
  have e1 := h1.2 i
  have e2 := h2.2 i
  rw [List.getD_eq_getElem xs ∅ hi1, List.getD_eq_getElem ys ∅ hi2] at e1 e2
  exact le_antisymm e1 e2

theorem unionZip_comm (xs ys : List (Finset String)) :
    unionZip xs ys = unionZip ys xs := by
  induction xs generalizing ys with
  | nil => rw [unionZip_nil_left, unionZip_nil_right]
  | cons x xs ih =>
    cases ys with
    | nil => rw [unionZip_nil_left, unionZip_nil_right]
    | cons y ys =>
      rw [unionZip_cons_cons, unionZip_cons_cons, Finset.union_comm, ih]

theorem unionZip_assoc (xs ys zs : List (Finset String)) :
    unionZip (unionZip xs ys) zs = unionZip xs (unionZip ys zs) := by
  induction xs generalizing ys zs with
  | nil => rw [unionZip_nil_left, unionZip_nil_left]
  | cons x xs ih =>
    cases ys with
    | nil => rw [unionZip_nil_left, unionZip_nil_right]
    | cons y ys =>
      cases zs with
      | nil => rw [unionZip_nil_right, unionZip_nil_right]
      | cons z zs =>
        rw [unionZip_cons_cons, unionZip_cons_cons, unionZip_cons_cons,
          unionZip_cons_cons, Finset.union_assoc, ih]

end LemasUnionZip

section CorreccionDFS

open Relation

theorem tieneDescLista_sound (fuel : Nat)
    (hP : ∀ (st : Diagrama) (o : Nat) (vis : Finset Nat) (n : Nat)
        (r : Bool × Finset Nat), tieneDesc fuel st o vis n = some r →
        r.1 = true → ReflTransGen (Arista st) n o) :
    ∀ (st : Diagrama) (o : Nat) (vis : Finset Nat) (l : List Nat)
      (r : Bool × Finset Nat), tieneDescLista fuel st o vis l = some r →
      r.1 = true → ∃ h ∈ l, ReflTransGen (Arista st) h o := by
  intro st o vis l
  induction l generalizing vis with
  | nil =>
    intro r h hb
    rw [tieneDescLista_nil] at h
    cases h
    simp at hb
  | cons x t ih =>
    intro r h hb
    rw [tieneDescLista_cons] at h
    cases hx : tieneDesc fuel st o vis x with
    | none => rw [hx] at h; cases h
    | some bv =>
      rw [hx] at h
      have h' : (if bv.1 = true then some bv
          else tieneDescLista fuel st o bv.2 t) = some r := h
      by_cases hb1 : bv.1 = true
      · exact ⟨x, List.mem_cons_self x t, hP st o vis x bv hx hb1⟩
      · rw [if_neg hb1] at h'
        rcases ih bv.2 r h' hb with ⟨y, hy, hr⟩
        exact ⟨y, List.mem_cons_of_mem x hy, hr⟩

theorem tieneDesc_sound : ∀ (fuel : Nat) (st : Diagrama) (o : Nat)
    (vis : Finset Nat) (n : Nat) (r : Bool × Finset Nat),
    tieneDesc fuel st o vis n = some r → r.1 = true →
    ReflTransGen (Arista st) n o := by
  intro fuel
  induction fuel with
  | zero => intro st o vis n r h; cases h
  | succ f ih =>
    intro st o vis n r h hb
    rw [tieneDesc_succ] at h
    by_cases h1 : n = o
    · exact h1 ▸ ReflTransGen.refl
    · rw [if_neg h1] at h
      by_cases h2 : n ∈ vis
      · rw [if_pos h2] at h
        cases h
        simp at hb
      · rw [if_neg h2] at h
        cases hn : lookupN st n with
        | none =>
          rw [hn] at h
          cases h
          simp at hb
        | some nodo =>
          rw [hn] at h
          rcases tieneDescLista_sound f ih st o (insert n vis) nodo.hijos r h hb
            with ⟨y, hy, hr⟩
          exact ReflTransGen.head ⟨nodo, hn, hy⟩ hr

/-- False runs of the DFS produce a visited set that is closed under the
children relation on its new part and avoids the target. -/
theorem tieneDescLista_closed (fuel : Nat)
    (hP : ∀ (st : Diagrama) (o : Nat) (vis : Finset Nat) (n : Nat)
        (vis' : Finset Nat), tieneDesc fuel st o vis n = some (false, vis') →
        vis ⊆ vis' ∧ n ∈ vis' ∧
          (∀ x ∈ vis', x ∉ vis → x ≠ o ∧ ∀ y, Arista st x y → y ∈ vis')) :
    ∀ (st : Diagrama) (o : Nat) (vis : Finset Nat) (l : List Nat)
      (vis' : Finset Nat), tieneDescLista fuel st o vis l = some (false, vis') →
      vis ⊆ vis' ∧ (∀ h ∈ l, h ∈ vis') ∧
        (∀ x ∈ vis', x ∉ vis → x ≠ o ∧ ∀ y, Arista st x y → y ∈ vis') := by
  intro st o vis l
  induction l generalizing vis with
  | nil =>
    intro vis' h
    rw [tieneDescLista_nil] at h
    cases h
    exact ⟨Finset.Subset.refl _, by simp, fun x hx hnx => absurd hx hnx⟩
  | cons a t ih =>
    intro vis' h
    rw [tieneDescLista_cons] at h
    cases ha : tieneDesc fuel st o vis a with
    | none => rw [ha] at h; cases h
    | some bv =>
      rw [ha] at h
      have h' : (if bv.1 = true then some bv
          else tieneDescLista fuel st o bv.2 t) = some (false, vis') := h
      by_cases hb1 : bv.1 = true
      · rw [if_pos hb1] at h'
        cases h'
        simp at hb1
      · rw [if_neg hb1] at h'
        have hbv : bv = (false, bv.2) := by
          rcases bv with ⟨b, v⟩
          simp only [Bool.not_eq_true] at hb1
          rw [hb1]
        rcases hP st o vis a bv.2 (by rw [← hbv]; exact ha) with ⟨hs1, hm1, hc1⟩
        rcases ih bv.2 vis' h' with ⟨hs2, hm2, hc2⟩
        refine ⟨hs1.trans hs2, ?_, ?_⟩
        · intro x hx
          rcases List.mem_cons.mp hx with hx | hx
          · exact hx ▸ hs2 hm1
          · exact hm2 x hx
        · intro x hx hnx
          by_cases hxv : x ∈ bv.2
          · rcases hc1 x hxv hnx with ⟨hno, hcl⟩
            exact ⟨hno, fun y hy => hs2 (hcl y hy)⟩
          · exact hc2 x hx hxv

theorem tieneDesc_closed : ∀ (fuel : Nat) (st : Diagrama) (o : Nat)
    (vis : Finset Nat) (n : Nat) (vis' : Finset Nat),
    tieneDesc fuel st o vis n = some (false, vis') →
    vis ⊆ vis' ∧ n ∈ vis' ∧
      (∀ x ∈ vis', x ∉ vis → x ≠ o ∧ ∀ y, Arista st x y → y ∈ vis') := by
  intro fuel
  induction fuel with
  | zero => intro st o vis n vis' h; cases h
  | succ f ih =>
    intro st o vis n vis' h
    rw [tieneDesc_succ] at h
    by_cases h1 : n = o
    · rw [if_pos h1] at h; cases h
    · rw [if_neg h1] at h
      by_cases h2 : n ∈ vis
      · rw [if_pos h2] at h
        cases h
        exact ⟨Finset.Subset.refl _, h2, fun x hx hnx => absurd hx hnx⟩
      · rw [if_neg h2] at h
        cases hn : lookupN st n with
        | none =>
          rw [hn] at h
          cases h
          refine ⟨Finset.subset_insert _ _, Finset.mem_insert_self _ _, ?_⟩
          intro x hx hnx
          have hxn : x = n := by
            rcases Finset.mem_insert.mp hx with hx | hx
            · exact hx
            · exact absurd hx hnx
          subst hxn
          refine ⟨h1, ?_⟩
          rintro y ⟨m, hm, _⟩
          rw [hn] at hm
          cases hm
        | some nodo =>
          rw [hn] at h
          rcases tieneDescLista_closed f ih st o (insert n vis) nodo.hijos vis' h
            with ⟨hs1, hm1, hc1⟩
          refine ⟨(Finset.subset_insert _ _).trans hs1, hs1 (Finset.mem_insert_self _ _), ?_⟩
          intro x hx hnx
          by_cases hxn : x = n
          · subst hxn
            refine ⟨h1, ?_⟩
            rintro y ⟨m, hm, hym⟩
            rw [hn] at hm
            cases hm
            exact hm1 y hym
          · have : x ∉ insert n vis := by
              intro hh
              rcases Finset.mem_insert.mp hh with hh | hh
              · exact hxn hh
              · exact hnx hh
            exact hc1 x hx this

/-- Correctness of the cycle guard: when it terminates, it returns `true`
exactly when `id_padre` is reachable from `id_hijo` through children
edges. -/
theorem creaCiclo_correcto (fuel : Nat) (st : Diagrama) (id_padre id_hijo : Nat)
    (b : Bool) (h : creaCiclo fuel st id_padre id_hijo = some b) :
    b = true ↔ ReflTransGen (Arista st) id_hijo id_padre := by
  unfold creaCiclo at h
  cases ht : tieneDesc fuel st id_padre ∅ id_hijo with
  | none => rw [ht] at h; cases h
  | some bv =>
    rw [ht] at h
    have hb : bv.1 = b := by
      cases h
      rfl
    constructor
    · intro hb1
      exact tieneDesc_sound fuel st id_padre ∅ id_hijo bv ht (hb ▸ hb1)
    · intro hr
      by_contra hb1
      have hbf : bv = (false, bv.2) := by
        rcases bv with ⟨b0, v⟩
        simp only at hb
        rw [← hb] at hb1
        simp only [Bool.not_eq_true] at hb1
        rw [hb1]
      rcases tieneDesc_closed fuel st id_padre ∅ id_hijo bv.2 (by rw [← hbf]; exact ht)
        with ⟨_, hm, hc⟩
      -- from the closed set, no path from id_hijo can reach id_padre
      have claim : ∀ x, ReflTransGen (Arista st) x id_padre → x ∈ bv.2 → False := by
        intro x hx
        induction hx using ReflTransGen.head_induction_on with
        | refl =>
          intro hmem
          exact (hc _ hmem (by simp)).1 rfl
        | head ha _ ih =>
          intro hmem
          exact ih ((hc _ hmem (by simp)).2 _ ha)
      exact claim id_hijo hr hm

end CorreccionDFS

section Propagacion

theorem soloCrecen_refl (s : Diagrama) : SoloCrecen s s :=
  ⟨fun _ => rfl, fun k => cLE_refl _, rfl, rfl, rfl, rfl⟩

theorem soloCrecen_trans {s1 s2 s3 : Diagrama}
    (h1 : SoloCrecen s1 s2) (h2 : SoloCrecen s2 s3) : SoloCrecen s1 s3 :=
  ⟨fun k => (h2.1 k).trans (h1.1 k),
   fun k => cLE_trans (h1.2.1 k) (h2.2.1 k),
   h2.2.2.1.trans h1.2.2.1,
   h2.2.2.2.1.trans h1.2.2.2.1,
   h2.2.2.2.2.1.trans h1.2.2.2.2.1,
   h2.2.2.2.2.2.trans h1.2.2.2.2.2⟩

theorem soloCrecen_merge (s : Diagrama) (h : Nat) (R : List (Finset String)) :
    SoloCrecen s (modifyReg s h (fun hn =>
      { hn with restricciones_heredadas :=
          unionZip R hn.restricciones_heredadas })) := by
  refine ⟨?_, ?_, claves_modifyReg s h _, rfl, rfl, rfl⟩
  · intro k
    rw [lookupN_modifyReg]
    by_cases hk : k = h
    · rw [if_pos hk]
      cases lookupN s k with
      | none => rfl
      | some n => rfl
    · rw [if_neg hk]
  · intro k
    unfold capasEn nodoEn
    rw [lookupN_modifyReg]
    by_cases hk : k = h
    · rw [if_pos hk]
      cases lookupN s k with
      | none => exact cLE_refl _
      | some n => exact cLE_unionZip_right _ _
    · rw [if_neg hk]
      exact cLE_refl _

theorem propagarLista_soloCrecen (fuel : Nat)
    (hP : ∀ (s : Diagrama) (v : Nat) (s' : Diagrama),
      propagarRestricciones fuel s v = some s' → SoloCrecen s s') :
    ∀ (s : Diagrama) (v : Nat) (l : List Nat) (s' : Diagrama),
      propagarLista fuel s v l = some s' → SoloCrecen s s' := by
  intro s v l
  induction l generalizing s with
  | nil =>
    intro s' h
    rw [propagarLista_nil] at h
    cases h
    exact soloCrecen_refl _
  | cons x t ih =>
    intro s' h
    rw [propagarLista_cons] at h
    cases hl : lookupN s v with
    | none =>
      rw [hl] at h
      have h' : propagarLista fuel s v t = some s' := h
      exact ih s s' h'
    | some nodoAct =>
      rw [hl] at h
      have h2 : (propagarRestricciones fuel
          (modifyReg s x (fun hn =>
            { hn with restricciones_heredadas :=
                unionZip nodoAct.restricciones hn.restricciones_heredadas })) x).bind
          (fun s2 => propagarLista fuel s2 v t) = some s' := h
      cases hp : propagarRestricciones fuel
          (modifyReg s x (fun hn =>
            { hn with restricciones_heredadas :=
                unionZip nodoAct.restricciones hn.restricciones_heredadas })) x with
      | none => rw [hp] at h2; cases h2
      | some s2 =>
        rw [hp] at h2
        have h3 : propagarLista fuel s2 v t = some s' := h2
        exact soloCrecen_trans (soloCrecen_merge s x nodoAct.restricciones)
          (soloCrecen_trans (hP _ _ _ hp) (ih s2 s' h3))

theorem propagar_soloCrecen : ∀ (fuel : Nat) (s : Diagrama) (v : Nat)
    (s' : Diagrama), propagarRestricciones fuel s v = some s' →
    SoloCrecen s s' := by
  intro fuel
  induction fuel with
  | zero => intro s v s' h; cases h
  | succ f ih =>
    intro s v s' h
    rw [propagarRestricciones_succ] at h
    cases hl : lookupN s v with
    | none =>
      rw [hl] at h
      cases h
      exact soloCrecen_refl _
    | some nodo =>
      rw [hl] at h
      exact propagarLista_soloCrecen f ih s v nodo.hijos s' h

end Propagacion

section Enlace

open Relation

/-- Complete case analysis of a terminating run of `enlazarNodos`. -/
theorem enlazarNodos_spec (fuel : Nat) (st : Diagrama) (p c : Nat)
    (st' : Diagrama) (b : Bool) (h : enlazarNodos fuel st p c = some (st', b)) :
    (b = true ∧ ∃ padre hijo, lookupN st p = some padre ∧
        lookupN st c = some hijo ∧ c ∉ padre.hijos ∧
        creaCiclo fuel st p c = some false ∧
        propagarRestricciones fuel
          (modifyReg (modifyReg (modifyReg st p
              (fun q => { q with hijos := q.hijos ++ [c] }))
            c (fun q => { q with padres := q.padres ++ [p] }))
            c (fun q => { q with restricciones_heredadas := unionZip padre.restricciones hijo.restricciones_heredadas }))
          c = some st')
    ∨ (b = false ∧ st' = st ∧
        (lookupN st p = none ∨ lookupN st c = none ∨
         (∃ padre, lookupN st p = some padre ∧ c ∈ padre.hijos) ∨
         creaCiclo fuel st p c = some true)) := by
  unfold enlazarNodos at h
  cases hp : lookupN st p with
  | none =>
    rw [hp] at h
    cases hc : lookupN st c with
    | none =>
      rw [hc] at h
      have h' : some (st, false) = some (st', b) := h
      cases h'
      exact Or.inr ⟨rfl, rfl, Or.inl rfl⟩
    | some hijo =>
      rw [hc] at h
      have h' : some (st, false) = some (st', b) := h
      cases h'
      exact Or.inr ⟨rfl, rfl, Or.inl rfl⟩
  | some padre =>
    rw [hp] at h
    cases hc : lookupN st c with
    | none =>
      rw [hc] at h
      have h' : some (st, false) = some (st', b) := h
      cases h'
      exact Or.inr ⟨rfl, rfl, Or.inr (Or.inl rfl)⟩
    | some hijo =>
      rw [hc] at h
      by_cases he : c ∈ padre.hijos
      · have h' : some (st, false) = some (st', b) := by
          rw [← h]
          exact (if_pos he).symm
        cases h'
        exact Or.inr ⟨rfl, rfl, Or.inr (Or.inr (Or.inl ⟨padre, rfl, he⟩))⟩
      · have h1 : (match creaCiclo fuel st p c with
            | none => (none : Option (Diagrama × Bool))
            | some true => some (st, false)
            | some false =>
              match propagarRestricciones fuel
                  (modifyReg (modifyReg (modifyReg st p
                      (fun q => { q with hijos := q.hijos ++ [c] }))
                    c (fun q => { q with padres := q.padres ++ [p] }))
                    c (fun q => { q with restricciones_heredadas := unionZip padre.restricciones hijo.restricciones_heredadas }))
                  c with
              | none => none
              | some st4 => some (st4, true)) = some (st', b) := by
          rw [← h]
          exact (if_neg he).symm
        cases hcc : creaCiclo fuel st p c with
        | none => rw [hcc] at h1; cases h1
        | some bb =>
          rw [hcc] at h1
          cases bb with
          | true =>
            have h' : some (st, false) = some (st', b) := h1
            cases h'
            exact Or.inr ⟨rfl, rfl, Or.inr (Or.inr (Or.inr rfl))⟩
          | false =>
            have h2 : (match propagarRestricciones fuel
                (modifyReg (modifyReg (modifyReg st p
                    (fun q => { q with hijos := q.hijos ++ [c] }))
                  c (fun q => { q with padres := q.padres ++ [p] }))
                  c (fun q => { q with restricciones_heredadas := unionZip padre.restricciones hijo.restricciones_heredadas }))
                c with
              | none => (none : Option (Diagrama × Bool))
              | some st4 => some (st4, true)) = some (st', b) := h1
            cases hpp : propagarRestricciones fuel
                (modifyReg (modifyReg (modifyReg st p
                    (fun q => { q with hijos := q.hijos ++ [c] }))
                  c (fun q => { q with padres := q.padres ++ [p] }))
                  c (fun q => { q with restricciones_heredadas := unionZip padre.restricciones hijo.restricciones_heredadas }))
                c with
            | none => rw [hpp] at h2; cases h2
            | some st4 =>
              rw [hpp] at h2
              have h' : some (st4, true) = some (st', b) := h2
              cases h'
              exact Or.inl ⟨rfl, padre, hijo, rfl, rfl, he, rfl, hpp⟩

theorem sinCapas_proyecciones {m n : Nodo} (h : Nodo.sinCapas m = Nodo.sinCapas n) :
    m.hijos = n.hijos ∧ m.padres = n.padres ∧ m.nombre = n.nombre ∧
    m.homologos = n.homologos ∧ m.id = n.id ∧
    m.restricciones_propias = n.restricciones_propias := by
  have t1 := congrArg Nodo.hijos h
  have t2 := congrArg Nodo.padres h
  have t3 := congrArg Nodo.nombre h
  have t4 := congrArg Nodo.homologos h
  have t5 := congrArg Nodo.id h
  have t6 := congrArg Nodo.restricciones_propias h
  exact ⟨t1, t2, t3, t4, t5, t6⟩

/-- C1: a terminating `enlazarNodos` run returns `true` exactly when both
ids are registered, the exact edge is absent and the parent is not reachable
from the child; on `true` the edge is added in both directions, on `false`
the diagram is unchanged. -/
theorem enlazar_correcto (fuel : Nat) (st : Diagrama) (p c : Nat)
    (st' : Diagrama) (b : Bool) (h : enlazarNodos fuel st p c = some (st', b)) :
    (b = true ↔ ((lookupN st p).isSome ∧ (lookupN st c).isSome ∧
      c ∉ (nodoEn st p).hijos ∧ ¬ Relation.ReflTransGen (Arista st) c p)) ∧
    (b = true → c ∈ (nodoEn st' p).hijos ∧ p ∈ (nodoEn st' c).padres) ∧
    (b = false → st' = st) := by
  rcases enlazarNodos_spec fuel st p c st' b h with
    ⟨hb, padre, hijo, hp, hc, he, hcc, hpp⟩ | ⟨hb, hst, hfail⟩
  · subst hb
    have hnr : ¬ Relation.ReflTransGen (Arista st) c p := by
      intro hr
      have := (creaCiclo_correcto fuel st p c false hcc).mpr hr
      simp at this
    have hpc : ¬ p = c := by
      intro hpc
      apply hnr
      rw [hpc]
    have hcp : ¬ c = p := fun hh => hpc hh.symm
    refine ⟨⟨fun _ => ⟨by rw [hp]; rfl, by rw [hc]; rfl, ?_, hnr⟩, fun _ => rfl⟩,
      fun _ => ?_, fun hff => Bool.noConfusion hff⟩
    · unfold nodoEn
      rw [hp]
      exact he
    · have hcrec := propagar_soloCrecen _ _ _ _ hpp
      have hp3 : lookupN (modifyReg (modifyReg (modifyReg st p
            (fun q => { q with hijos := q.hijos ++ [c] }))
          c (fun q => { q with padres := q.padres ++ [p] }))
          c (fun q => { q with restricciones_heredadas := unionZip padre.restricciones hijo.restricciones_heredadas })) p
          = some { padre with hijos := padre.hijos ++ [c] } := by
        rw [lookupN_modifyReg, if_neg hpc, lookupN_modifyReg, if_neg hpc,
          lookupN_modifyReg, if_pos rfl, hp]
        rfl
      have hc3 : lookupN (modifyReg (modifyReg (modifyReg st p
            (fun q => { q with hijos := q.hijos ++ [c] }))
          c (fun q => { q with padres := q.padres ++ [p] }))
          c (fun q => { q with restricciones_heredadas := unionZip padre.restricciones hijo.restricciones_heredadas })) c
          = some { hijo with padres := hijo.padres ++ [p], restricciones_heredadas := unionZip padre.restricciones hijo.restricciones_heredadas } := by
        rw [lookupN_modifyReg, if_pos rfl, lookupN_modifyReg, if_pos rfl,
          lookupN_modifyReg, if_neg hcp, hc]
        rfl
      constructor
      · have hm := hcrec.1 p
        rw [hp3] at hm
        cases hl' : lookupN st' p with
        | none => rw [hl'] at hm; cases hm
        | some m =>
          rw [hl'] at hm
          have hmm : Nodo.sinCapas m =
              Nodo.sinCapas { padre with hijos := padre.hijos ++ [c] } := by
            simpa using hm
          have hhij := (sinCapas_proyecciones hmm).1
          unfold nodoEn
          rw [hl']
          show c ∈ m.hijos
          rw [hhij]
          exact List.mem_append_right _ (List.mem_singleton.mpr rfl)
      · have hm := hcrec.1 c
        rw [hc3] at hm
        cases hl' : lookupN st' c with
        | none => rw [hl'] at hm; cases hm
        | some m =>
          rw [hl'] at hm
          have hmm : Nodo.sinCapas m = Nodo.sinCapas { hijo with padres := hijo.padres ++ [p], restricciones_heredadas := unionZip padre.restricciones hijo.restricciones_heredadas } := by
            simpa using hm
          have hpad := (sinCapas_proyecciones hmm).2.1
          unfold nodoEn
          rw [hl']
          show p ∈ m.padres
          rw [hpad]
          exact List.mem_append_right _ (List.mem_singleton.mpr rfl)
  · subst hb
    refine ⟨⟨fun hff => Bool.noConfusion hff, ?_⟩,
      fun hff => Bool.noConfusion hff, fun _ => hst⟩
    rintro ⟨h1, h2, h3, h4⟩
    rcases hfail with hf | hf | ⟨padre, hf, hfe⟩ | hf
    · rw [hf] at h1
      simp at h1
    · rw [hf] at h2
      simp at h2
    · refine absurd ?_ h3
      unfold nodoEn
      rw [hf]
      exact hfe
    · exact absurd ((creaCiclo_correcto fuel st p c true hf).mp rfl) h4

/-- C7: a successful link only grows inherited layers: the child's layers
dominate both their old value and the parent's full stack, and every node's
layers (in particular every descendant reached by the propagation) grow
pointwise. -/
theorem capas_crecen_enlace (fuel : Nat) (st : Diagrama) (p c : Nat)
    (st' : Diagrama) (h : enlazarNodos fuel st p c = some (st', true)) :
    pwLE (capasEn st c) (capasEn st' c) ∧
    pwLE ((nodoEn st p).restricciones) (capasEn st' c) ∧
    (∀ x, pwLE (capasEn st x) (capasEn st' x)) := by
  rcases enlazarNodos_spec fuel st p c st' true h with
    ⟨_, padre, hijo, hp, hc, he, hcc, hpp⟩ | ⟨hb, _, _⟩
  · have hnr : ¬ Relation.ReflTransGen (Arista st) c p := by
      intro hr
      have := (creaCiclo_correcto fuel st p c false hcc).mpr hr
      simp at this
    have hcp : ¬ c = p := by
      intro hcp
      apply hnr
      rw [hcp]
    have hcrec := propagar_soloCrecen _ _ _ _ hpp
    have hc3 : lookupN (modifyReg (modifyReg (modifyReg st p
          (fun q => { q with hijos := q.hijos ++ [c] }))
        c (fun q => { q with padres := q.padres ++ [p] }))
        c (fun q => { q with restricciones_heredadas := unionZip padre.restricciones hijo.restricciones_heredadas })) c
        = some { hijo with padres := hijo.padres ++ [p], restricciones_heredadas := unionZip padre.restricciones hijo.restricciones_heredadas } := by
      rw [lookupN_modifyReg, if_pos rfl, lookupN_modifyReg, if_pos rfl,
        lookupN_modifyReg, if_neg hcp, hc]
      rfl
    have hstep : ∀ x, cLE (capasEn st x)
        (capasEn (modifyReg (modifyReg (modifyReg st p
            (fun q => { q with hijos := q.hijos ++ [c] }))
          c (fun q => { q with padres := q.padres ++ [p] }))
          c (fun q => { q with restricciones_heredadas := unionZip padre.restricciones hijo.restricciones_heredadas })) x) := by
      intro x
      by_cases hxc : x = c
      · subst hxc
        unfold capasEn nodoEn
        rw [hc3, hc]
        exact cLE_unionZip_right _ _
      · unfold capasEn nodoEn
        rw [lookupN_modifyReg, if_neg hxc, lookupN_modifyReg, if_neg hxc,
          lookupN_modifyReg]
        by_cases hxp : x = p
        · rw [if_pos hxp, hxp, hp]
          exact cLE_refl _
        · rw [if_neg hxp]
          exact cLE_refl _
    have htodos : ∀ x, cLE (capasEn st x) (capasEn st' x) :=
      fun x => cLE_trans (hstep x) (hcrec.2.1 x)
    refine ⟨(htodos c).2, ?_, fun x => (htodos x).2⟩
    have hpstack : cLE ((nodoEn st p).restricciones) (capasEn st' c) := by
      refine cLE_trans ?_ (hcrec.2.1 c)
      unfold capasEn nodoEn
      rw [hc3, hp]
      exact cLE_unionZip_left _ _
    exact hpstack.2
  · exact Bool.noConfusion hb

/-- Witness for C1 at a concrete successful link. -/
theorem enlazar_correcto_testigo :
    (true = true ↔ ((lookupN escSuelto 1).isSome ∧ (lookupN escSuelto 2).isSome ∧
      2 ∉ (nodoEn escSuelto 1).hijos ∧
      ¬ Relation.ReflTransGen (Arista escSuelto) 2 1)) ∧
    (true = true → 2 ∈ (nodoEn escEnl 1).hijos ∧ 1 ∈ (nodoEn escEnl 2).padres) ∧
    (true = false → escEnl = escSuelto) :=
  enlazar_correcto 10 escSuelto 1 2 escEnl true rfl

/-- Witness for C7 at a concrete successful link. -/
theorem capas_crecen_testigo :
    pwLE (capasEn escSuelto 2) (capasEn escEnl 2) ∧
    pwLE ((nodoEn escSuelto 1).restricciones) (capasEn escEnl 2) ∧
    (∀ x, pwLE (capasEn escSuelto x) (capasEn escEnl x)) :=
  capas_crecen_enlace 10 escSuelto 1 2 escEnl rfl

end Enlace

section Desenlace

/-- C8 amended: the unlink endpoint reports failure (404) exactly when one
of the two ids is unknown; with both ids registered it reports success even
when the edge is absent. -/
theorem desenlace_falla_sii (st : Diagrama) (p c : Nat) :
    eliminarEnlace st p c = none ↔ (lookupN st p = none ∨ lookupN st c = none) := by
  unfold eliminarEnlace
  cases hp : lookupN st p with
  | none => simp
  | some padre =>
    cases hc : lookupN st c with
    | none => simp
    | some hijo => simp

/-- C8 counterexample: a reachable state with both ids registered and no
edge between them, where unlink nevertheless succeeds (and leaves the state
unchanged). -/
theorem desenlace_contraejemplo :
    Alcanzable true true escSuelto ∧
    (lookupN escSuelto 1).isSome ∧ (lookupN escSuelto 2).isSome ∧
    2 ∉ (nodoEn escSuelto 1).hijos ∧
    eliminarEnlace escSuelto 1 2 = some escSuelto := by
  refine ⟨.agregar "A" none none (.crear true true "D"), ?_, ?_, ?_, ?_⟩ <;> decide

end Desenlace

section Agregar

theorem nodoEn_hijos_actHom (st : Diagrama) (i : Nat) (nm : String) (k : Nat) :
    (nodoEn (actualizarHomologos st i nm) k).hijos = (nodoEn st k).hijos := by
  have h := sinHom_actHom st i nm k
  unfold nodoEn
  cases h1 : lookupN (actualizarHomologos st i nm) k with
  | none =>
    rw [h1] at h
    cases h2 : lookupN st k with
    | none => rfl
    | some b => rw [h2] at h; cases h
  | some a =>
    rw [h1] at h
    cases h2 : lookupN st k with
    | none => rw [h2] at h; cases h
    | some b =>
      rw [h2] at h
      have hab : Nodo.sinHomologos a = Nodo.sinHomologos b := by simpa using h
      have := congrArg Nodo.hijos hab
      exact this

theorem lookupN_extiende {st : Diagrama} {k : Nat} {n : Nodo}
    (l2 : List (Nat × Nodo)) (sig : Nat) (h : lookupN st k = some n) :
    lookupN { st with nodos := st.nodos ++ l2, siguiente_id := sig } k = some n := by
  unfold lookupN at h ⊢
  rw [List.find?_append]
  cases hf : st.nodos.find? (fun p => p.1 == k) with
  | none => rw [hf] at h; cases h
  | some p =>
    rw [hf] at h
    exact h

/-- C9 amended: `anadirNodo` inserts at `num_hijo` only when
`0 ≤ num_hijo ≤ len(padre.hijos)`; any other index (in particular any
negative index) appends at the end. -/
theorem agregar_posicion (st : Diagrama) (nombre : String) (pid : Nat)
    (padre : Nodo) (k : Int) (hp : lookupN st pid = some padre) :
    (nodoEn (anadirNodo st nombre (some pid) (some k)).1 pid).hijos
    = if 0 ≤ k ∧ k ≤ (padre.hijos.length : Int)
      then padre.hijos.insertIdx k.toNat st.siguiente_id
      else padre.hijos ++ [st.siguiente_id] := by
  unfold anadirNodo
  simp only [hp]
  rw [nodoEn_hijos_actHom]
  unfold nodoEn
  have h1 : lookupN (modifyReg st pid (fun p =>
      { p with hijos :=
          if 0 ≤ k ∧ k ≤ (p.hijos.length : Int)
          then p.hijos.insertIdx k.toNat st.siguiente_id
          else p.hijos ++ [st.siguiente_id] })) pid
      = some { padre with hijos :=
          if 0 ≤ k ∧ k ≤ (padre.hijos.length : Int)
          then padre.hijos.insertIdx k.toNat st.siguiente_id
          else padre.hijos ++ [st.siguiente_id] } := by
    rw [lookupN_modifyReg, if_pos rfl, hp]
    rfl
  rw [lookupN_extiende _ _ h1]
  rfl

/-- Witness for the amended C9 at a concrete negative index. -/
theorem agregar_posicion_testigo :
    (nodoEn (anadirNodo escBase "B" (some 1) (some (-1))).1 1).hijos
    = if 0 ≤ (-1 : Int) ∧ (-1 : Int) ≤ (((nuevoNodo 1 "D").hijos.length : Nat) : Int)
      then (nuevoNodo 1 "D").hijos.insertIdx (-1 : Int).toNat escBase.siguiente_id
      else (nuevoNodo 1 "D").hijos ++ [escBase.siguiente_id] :=
  agregar_posicion escBase "B" 1 (nuevoNodo 1 "D") (-1) rfl

/-- C9 counterexample: with one existing child, a negative `childIndex`
appends (position 1) instead of clamping to position 0. -/
theorem agregar_posicion_contraejemplo :
    Alcanzable true true escHijo ∧
    (nodoEn escHijo 1).hijos = [2] ∧
    (nodoEn (anadirNodo escHijo "B" (some 1) (some (-1))).1 1).hijos = [2, 3] ∧
    (nodoEn (anadirNodo escHijo "B" (some 1) (some (-1))).1 1).hijos ≠ [3, 2] := by
  refine ⟨.agregar "A" (some 1) none (.crear true true "D"), ?_, ?_, ?_⟩ <;> decide

end Agregar

section Contraejemplos

/-- C2 counterexample: after `AddNode("X")`, `AddNode("X")`, renaming node 3
to `Y` leaves node 2 still listing 3 as a homolog while node 3 no longer
lists 2, so homolog symmetry and the name equivalence both fail in a
reachable state. -/
theorem homologos_contraejemplo :
    Alcanzable true true escRen ∧
    (lookupN escRen 2).isSome ∧ (lookupN escRen 3).isSome ∧
    3 ∈ (nodoEn escRen 2).homologos ∧
    2 ∉ (nodoEn escRen 3).homologos ∧
    (nodoEn escRen 2).nombre ≠ (nodoEn escRen 3).nombre := by
  refine ⟨?_, ?_, ?_, ?_, ?_, ?_⟩
  · have h1 : Alcanzable true true escX2 :=
      .agregar "X" none none (.agregar "X" none none (.crear true true "D"))
    have h2 : renombrarNodo escX2 3 "Y" = some escRen := by decide
    exact .renombrar h1 h2
  · decide
  · decide
  · decide
  · decide
  · decide

/-- C4 counterexample: deleting node 3 in the renamed state returns true and
unregisters it, yet the surviving node 2 still lists 3 in its homolog set. -/
theorem eliminar_contraejemplo :
    Alcanzable true true escRen ∧
    eliminarNodo 10 escRen 3 = some (escDel, true) ∧
    lookupN escDel 3 = none ∧
    (lookupN escDel 2).isSome ∧
    3 ∈ (nodoEn escDel 2).homologos := by
  refine ⟨?_, ?_, ?_, ?_, ?_⟩
  · have h1 : Alcanzable true true escX2 :=
      .agregar "X" none none (.agregar "X" none none (.crear true true "D"))
    have h2 : renombrarNodo escX2 3 "Y" = some escRen := by decide
    exact .renombrar h1 h2
  · decide
  · decide
  · decide
  · decide

/-- C5 counterexample: two reachable states (a parentless add, versus an add
under the root followed by an unlink) agree on the whole edge structure and
on every own-constraint set, yet node 2's inherited layers differ — so the
layers are not derivable from the current edge set and own constraints. -/
theorem capas_contraejemplo :
    Alcanzable true true escSuelto ∧ Alcanzable true true escDesen ∧
    entradaDeriv escSuelto = entradaDeriv escDesen ∧
    (nodoEn escSuelto 2).restricciones_heredadas
      ≠ (nodoEn escDesen 2).restricciones_heredadas ∧
    ¬ (∀ st1 st2 : Diagrama, Alcanzable true true st1 → Alcanzable true true st2 →
        entradaDeriv st1 = entradaDeriv st2 → ∀ k, capasEn st1 k = capasEn st2 k) := by
  have a1 : Alcanzable true true escSuelto :=
    .agregar "A" none none (.crear true true "D")
  have a2 : Alcanzable true true escDesen := by
    have h1 : Alcanzable true true escHijo :=
      .agregar "A" (some 1) none (.crear true true "D")
    have h2 : eliminarEnlace escHijo 1 2 = some escDesen := by decide
    exact .desenlazar h1 h2
  have hin : entradaDeriv escSuelto = entradaDeriv escDesen := by decide
  have hne : (nodoEn escSuelto 2).restricciones_heredadas
      ≠ (nodoEn escDesen 2).restricciones_heredadas := by decide
  exact ⟨a1, a2, hin, hne, fun hcl => hne (hcl escSuelto escDesen a1 a2 hin 2)⟩

end Contraejemplos

section ListasAux

variable {α : Type} [DecidableEq α]

theorem mem_of_mem_insertIdx {a b : α} :
    ∀ {n : Nat} {l : List α}, a ∈ l.insertIdx n b → a = b ∨ a ∈ l := by
  intro n
  induction n with
  | zero =>
    intro l h
    rw [List.insertIdx_zero] at h
    simpa using h
  | succ m ih =>
    intro l h
    cases l with
    | nil => rw [List.insertIdx_succ_nil] at h; simp at h
    | cons hd tl =>
      rw [List.insertIdx_succ_cons] at h
      rcases List.mem_cons.mp h with h | h
      · exact Or.inr (h ▸ List.mem_cons_self hd tl)
      · rcases ih h with h | h
        · exact Or.inl h
        · exact Or.inr (List.mem_cons_of_mem hd h)

theorem mem_insertIdx_of_mem {a b : α} :
    ∀ {n : Nat} {l : List α}, a ∈ l → a ∈ l.insertIdx n b := by
  intro n
  induction n with
  | zero =>
    intro l h
    rw [List.insertIdx_zero]
    exact List.mem_cons_of_mem b h
  | succ m ih =>
    intro l h
    cases l with
    | nil => simp at h
    | cons hd tl =>
      rw [List.insertIdx_succ_cons]
      rcases List.mem_cons.mp h with h | h
      · exact h ▸ List.mem_cons_self hd _
      · exact List.mem_cons_of_mem hd (ih h)

theorem nodup_insertIdx {b : α} :
    ∀ {n : Nat} {l : List α}, b ∉ l → l.Nodup → (l.insertIdx n b).Nodup := by
  intro n
  induction n with
  | zero =>
    intro l hb hl
    rw [List.insertIdx_zero]
    exact List.nodup_cons.mpr ⟨hb, hl⟩
  | succ m ih =>
    intro l hb hl
    cases l with
    | nil => rw [List.insertIdx_succ_nil]; exact List.nodup_nil
    | cons hd tl =>
      rw [List.insertIdx_succ_cons]
      rcases List.nodup_cons.mp hl with ⟨hhd, htl⟩
      refine List.nodup_cons.mpr ⟨?_, ih (fun hh => hb (List.mem_cons_of_mem hd hh)) htl⟩
      intro hmem
      rcases mem_of_mem_insertIdx hmem with h | h
      · exact hb (h ▸ List.mem_cons_self hd tl)
      · exact hhd h

end ListasAux

section RelacionesAciclicas

variable {α : Type} {R S : α → α → Prop}

theorem aciclico_subrel (hsub : ∀ a b, S a b → R a b)
    (h : ∀ a, ¬ Relation.TransGen R a a) : ∀ a, ¬ Relation.TransGen S a a :=
  fun a hc => h a (Relation.TransGen.mono hsub hc)

/-- Adding edges that all point at a sink `v` (a vertex with no outgoing
edges) keeps the relation acyclic. -/
theorem aciclico_extiende_hoja {u v : α}
    (hsub : ∀ a b, S a b → R a b ∨ (a = u ∧ b = v))
    (hv : ∀ w, ¬ S v w)
    (h : ∀ a, ¬ Relation.TransGen R a a) : ∀ a, ¬ Relation.TransGen S a a := by
  have paso : ∀ x y, Relation.TransGen S x y → y = v ∨ Relation.TransGen R x y := by
    intro x y hxy
    induction hxy with
    | single hs =>
      rcases hsub _ _ hs with hr | ⟨_, hv2⟩
      · exact Or.inr (Relation.TransGen.single hr)
      · exact Or.inl hv2
    | tail hxb hs ih =>
      rcases ih with ihv | ihr
      · subst ihv
        exact absurd hs (hv _)
      · rcases hsub _ _ hs with hr | ⟨_, hv2⟩
        · exact Or.inr (Relation.TransGen.tail ihr hr)
        · exact Or.inl hv2
  intro a hc
  rcases paso a a hc with hv2 | hr
  · subst hv2
    rcases Relation.TransGen.head'_iff.mp hc with ⟨w, hw, _⟩
    exact hv w hw
  · exact h a hr

/-- Adding a single edge `(u, v)` with `u` not reachable from `v` keeps the
relation acyclic. -/
theorem aciclico_extiende_sin_camino {u v : α}
    (hsub : ∀ a b, S a b → R a b ∨ (a = u ∧ b = v))
    (hnr : ¬ Relation.ReflTransGen R v u)
    (h : ∀ a, ¬ Relation.TransGen R a a) : ∀ a, ¬ Relation.TransGen S a a := by
  have paso : ∀ x y, Relation.ReflTransGen S x y →
      Relation.ReflTransGen R x y ∨
        (Relation.ReflTransGen R x u ∧ Relation.ReflTransGen R v y) := by
    intro x y hxy
    induction hxy using Relation.ReflTransGen.head_induction_on with
    | refl => exact Or.inl Relation.ReflTransGen.refl
    | head hs _ ih =>
      rcases hsub _ _ hs with hr | ⟨he, hv2⟩
      · rcases ih with ih | ⟨ih1, ih2⟩
        · exact Or.inl (Relation.ReflTransGen.head hr ih)
        · exact Or.inr ⟨Relation.ReflTransGen.head hr ih1, ih2⟩
      · subst he
        subst hv2
        rcases ih with ih | ⟨ih1, _⟩
        · exact Or.inr ⟨Relation.ReflTransGen.refl, ih⟩
        · exact absurd ih1 hnr
  intro a hc
  rcases Relation.TransGen.head'_iff.mp hc with ⟨z, hz, hza⟩
  rcases hsub _ _ hz with hr | ⟨he, hv2⟩
  · rcases paso z a hza with hp | ⟨hp1, hp2⟩
    · exact h a (Relation.TransGen.head' hr hp)
    · exact hnr (hp2.trans (Relation.ReflTransGen.head hr hp1))
  · have hza2 : Relation.ReflTransGen S v a := hv2 ▸ hza
    rcases paso v a hza2 with hp | ⟨hp1, _⟩
    · exact hnr (he ▸ hp)
    · exact hnr hp1

end RelacionesAciclicas

section TransferenciaBuenaForma

theorem grafo_de_sinHom {o1 o2 : Option Nodo}
    (h : o1.map Nodo.sinHomologos = o2.map Nodo.sinHomologos) :
    o1.map Nodo.grafoDe = o2.map Nodo.grafoDe := by
  cases o1 with
  | none =>
    cases o2 with
    | none => rfl
    | some b => cases h
  | some a =>
    cases o2 with
    | none => cases h
    | some b =>
      have hab : Nodo.sinHomologos a = Nodo.sinHomologos b := by simpa using h
      have := congrArg Nodo.grafoDe hab
      simpa using this

theorem grafo_de_sinCapas {o1 o2 : Option Nodo}
    (h : o1.map Nodo.sinCapas = o2.map Nodo.sinCapas) :
    o1.map Nodo.grafoDe = o2.map Nodo.grafoDe := by
  cases o1 with
  | none =>
    cases o2 with
    | none => rfl
    | some b => cases h
  | some a =>
    cases o2 with
    | none => cases h
    | some b =>
      have hab : Nodo.sinCapas a = Nodo.sinCapas b := by simpa using h
      have := congrArg Nodo.grafoDe hab
      simpa using this

theorem grafoDe_hijos {m n : Nodo} (h : Nodo.grafoDe m = Nodo.grafoDe n) :
    m.hijos = n.hijos := by
  have := congrArg (fun t : Nat × List Nat × List Nat => t.2.1) h
  exact this

theorem grafoDe_padres {m n : Nodo} (h : Nodo.grafoDe m = Nodo.grafoDe n) :
    m.padres = n.padres := by
  have := congrArg (fun t : Nat × List Nat × List Nat => t.2.2) h
  exact this

theorem grafoDe_id {m n : Nodo} (h : Nodo.grafoDe m = Nodo.grafoDe n) :
    m.id = n.id := by
  have := congrArg (fun t : Nat × List Nat × List Nat => t.1) h
  exact this

theorem arista_congr {s s' : Diagrama}
    (hg : ∀ k, (lookupN s' k).map Nodo.grafoDe = (lookupN s k).map Nodo.grafoDe) :
    ∀ a b, Arista s' a b ↔ Arista s a b := by
  intro a b
  unfold Arista
  have h := hg a
  cases h1 : lookupN s' a with
  | none =>
    rw [h1] at h
    cases h2 : lookupN s a with
    | none => simp
    | some m => rw [h2] at h; cases h
  | some m =>
    rw [h1] at h
    cases h2 : lookupN s a with
    | none => rw [h2] at h; cases h
    | some n =>
      rw [h2] at h
      have hmn : Nodo.grafoDe m = Nodo.grafoDe n := by simpa using h
      have hh := grafoDe_hijos hmn
      constructor
      · rintro ⟨m', hm', hb⟩
        cases hm'
        exact ⟨n, rfl, hh ▸ hb⟩
      · rintro ⟨n', hn', hb⟩
        cases hn'
        exact ⟨m, rfl, hh.symm ▸ hb⟩

/-- Structural well-formedness only depends on the keys, the counter and
the graph projection of every node. -/
theorem buenaForma_transfer {s s' : Diagrama}
    (hk : claves s' = claves s) (hs : s'.siguiente_id = s.siguiente_id)
    (hg : ∀ k, (lookupN s' k).map Nodo.grafoDe = (lookupN s k).map Nodo.grafoDe)
    (hbf : BuenaForma s) : BuenaForma s' := by
  have hnd' : (claves s').Nodup := hk ▸ hbf.clavesNodup
  have hmiembro : ∀ p : Nat × Nodo, p ∈ s'.nodos →
      ∃ m, lookupN s p.1 = some m ∧ Nodo.grafoDe p.2 = Nodo.grafoDe m := by
    intro p hp
    have hl := lookupN_of_mem hnd' hp
    have h := hg p.1
    rw [hl] at h
    cases h2 : lookupN s p.1 with
    | none => rw [h2] at h; cases h
    | some m =>
      rw [h2] at h
      exact ⟨m, rfl, by simpa using h⟩
  refine ⟨hnd', ?_, ?_, ?_, ?_, ?_, ?_, ?_⟩
  · intro p hp
    rcases hmiembro p hp with ⟨m, hm, hgr⟩
    rw [grafoDe_id hgr]
    exact hbf.idCoincide (p.1, m) (lookupN_mem hm)
  · intro p hp
    have : p.1 ∈ claves s := hk ▸ List.mem_map_of_mem _ hp
    rcases List.mem_map.mp this with ⟨q, hq, hq1⟩
    rw [hs, ← hq1]
    exact hbf.clavesLt q hq
  · intro p hp c hc
    rcases hmiembro p hp with ⟨m, hm, hgr⟩
    rw [grafoDe_hijos hgr] at hc
    rcases hbf.hijosBidir (p.1, m) (lookupN_mem hm) c hc with ⟨mc, hmc, hpad⟩
    have h := hg c
    rw [hmc] at h
    cases h2 : lookupN s' c with
    | none => rw [h2] at h; cases h
    | some mc' =>
      rw [h2] at h
      have hgr2 : Nodo.grafoDe mc' = Nodo.grafoDe mc := by simpa using h
      exact ⟨mc', rfl, (grafoDe_padres hgr2).symm ▸ hpad⟩
  · intro p hp q hq
    rcases hmiembro p hp with ⟨m, hm, hgr⟩
    rw [grafoDe_padres hgr] at hq
    rcases hbf.padresBidir (p.1, m) (lookupN_mem hm) q hq with ⟨mq, hmq, hhij⟩
    have h := hg q
    rw [hmq] at h
    cases h2 : lookupN s' q with
    | none => rw [h2] at h; cases h
    | some mq' =>
      rw [h2] at h
      have hgr2 : Nodo.grafoDe mq' = Nodo.grafoDe mq := by simpa using h
      exact ⟨mq', rfl, (grafoDe_hijos hgr2).symm ▸ hhij⟩
  · intro p hp
    rcases hmiembro p hp with ⟨m, hm, hgr⟩
    rw [grafoDe_hijos hgr]
    exact hbf.hijosNodup (p.1, m) (lookupN_mem hm)
  · intro p hp
    rcases hmiembro p hp with ⟨m, hm, hgr⟩
    rw [grafoDe_padres hgr]
    exact hbf.padresNodup (p.1, m) (lookupN_mem hm)
  · intro a hc
    have := (Relation.TransGen.mono (fun x y hxy =>
      (arista_congr hg x y).mp hxy)) hc
    exact hbf.aciclico a this

end TransferenciaBuenaForma

section PreservacionBuenaForma

theorem aciclico_de_sin_aristas {st : Diagrama}
    (h : ∀ a b, ¬ Arista st a b) : Aciclico st := by
  intro a hc
  rcases Relation.TransGen.head'_iff.mp hc with ⟨w, hw, _⟩
  exact h a w hw

theorem buenaForma_inicial (nombre : String) :
    BuenaForma (crearDiagrama nombre) := by
  refine ⟨?_, ?_, ?_, ?_, ?_, ?_, ?_, ?_⟩
  · simp [crearDiagrama, claves]
  · intro p hp
    simp only [crearDiagrama, List.mem_singleton] at hp
    rw [hp]
    rfl
  · intro p hp
    simp only [crearDiagrama, List.mem_singleton] at hp
    rw [hp]
    exact Nat.one_lt_two
  · intro p hp c hc
    simp only [crearDiagrama, List.mem_singleton] at hp
    rw [hp] at hc
    simp [nuevoNodo] at hc
  · intro p hp q hq
    simp only [crearDiagrama, List.mem_singleton] at hp
    rw [hp] at hq
    simp [nuevoNodo] at hq
  · intro p hp
    simp only [crearDiagrama, List.mem_singleton] at hp
    rw [hp]
    exact List.nodup_nil
  · intro p hp
    simp only [crearDiagrama, List.mem_singleton] at hp
    rw [hp]
    exact List.nodup_nil
  · apply aciclico_de_sin_aristas
    rintro a b ⟨n, hn, hb⟩
    unfold lookupN crearDiagrama at hn
    by_cases ha : a = 1
    · subst ha
      simp only [List.find?] at hn
      have : n = nuevoNodo 1 nombre := by
        simp at hn
        exact hn.symm
      rw [this] at hb
      simp [nuevoNodo] at hb
    · rw [List.find?_cons_of_neg _ (by simpa using fun hh => ha hh.symm)] at hn
      cases hn

theorem buenaForma_actHom {st : Diagrama} (i : Nat) (nm : String)
    (hbf : BuenaForma st) : BuenaForma (actualizarHomologos st i nm) :=
  buenaForma_transfer (claves_actHom st i nm) (siguiente_actHom st i nm)
    (fun k => grafo_de_sinHom (sinHom_actHom st i nm k)) hbf

theorem buenaForma_limpiar {st : Diagrama} (hs : Finset Nat) (i : Nat)
    (hbf : BuenaForma st) : BuenaForma (limpiarHomologos st hs i) :=
  buenaForma_transfer (claves_limpiarHomologos st hs i) rfl
    (fun k => grafo_de_sinHom (sinHom_limpiarHomologos st hs i k)) hbf

theorem buenaForma_propagar {fuel : Nat} {st st' : Diagrama} {v : Nat}
    (h : propagarRestricciones fuel st v = some st')
    (hbf : BuenaForma st) : BuenaForma st' := by
  have hc := propagar_soloCrecen fuel st v st' h
  exact buenaForma_transfer hc.2.2.1 hc.2.2.2.1
    (fun k => grafo_de_sinCapas (hc.1 k)) hbf

theorem buenaForma_modifyGrafo {st : Diagrama} (id : Nat) {f : Nodo → Nodo}
    (hf : ∀ n, Nodo.grafoDe (f n) = Nodo.grafoDe n)
    (hbf : BuenaForma st) : BuenaForma (modifyReg st id f) := by
  refine buenaForma_transfer (claves_modifyReg st id f) rfl ?_ hbf
  intro k
  rw [lookupN_modifyReg]
  by_cases hk : k = id
  · rw [if_pos hk]
    cases lookupN st k with
    | none => rfl
    | some n =>
      show some (Nodo.grafoDe (f n)) = some (Nodo.grafoDe n)
      rw [hf n]
  · rw [if_neg hk]

theorem buenaForma_renombrar {st st' : Diagrama} {id : Nat} {nm : String}
    (h : renombrarNodo st id nm = some st')
    (hbf : BuenaForma st) : BuenaForma st' := by
  unfold renombrarNodo at h
  by_cases hi : (lookupN st id).isSome
  · rw [if_pos hi] at h
    cases h
    exact buenaForma_actHom id nm
      (buenaForma_modifyGrafo id (fun n => rfl) hbf)
  · rw [if_neg hi] at h
    cases h

theorem buenaForma_contenido {st st' : Diagrama} {id : Nat}
    {cont git : Option String}
    (h : actualizarContenido st id cont git = some st')
    (hbf : BuenaForma st) : BuenaForma st' := by
  unfold actualizarContenido at h
  by_cases hi : (lookupN st id).isSome
  · rw [if_pos hi] at h
    cases h
    exact buenaForma_modifyGrafo id (fun n => rfl) hbf
  · rw [if_neg hi] at h
    cases h

end PreservacionBuenaForma

section AgregarBuenaForma

theorem lookupN_extiende_spec {st : Diagrama} (idn : Nat) (n0 : Nodo) (sig : Nat)
    (hfresh : idn ∉ claves st) (k : Nat) :
    lookupN { st with nodos := st.nodos ++ [(idn, n0)], siguiente_id := sig } k
    = if k = idn then some n0 else lookupN st k := by
  unfold lookupN
  show ((st.nodos ++ [(idn, n0)]).find? (fun p => p.1 == k)).map (·.2) = _
  rw [List.find?_append]
  by_cases hk : k = idn
  · subst hk
    cases hf : st.nodos.find? (fun p => p.1 == k) with
    | none => simp
    | some p =>
      have hp : p.1 = k := by simpa using List.find?_some hf
      have := List.mem_of_find?_eq_some hf
      exact absurd (hp ▸ List.mem_map_of_mem _ this) hfresh
  · rw [if_neg hk]
    cases hf : st.nodos.find? (fun p => p.1 == k) with
    | none =>
      have : [(idn, n0)].find? (fun p => p.1 == k) = none := by
        rw [List.find?_cons_of_neg _ (by simpa using fun hh => hk hh.symm)]
        rfl
      rw [this]
      rfl
    | some p => rfl

theorem claves_extiende {st : Diagrama} (idn : Nat) (n0 : Nodo) (sig : Nat) :
    claves { st with nodos := st.nodos ++ [(idn, n0)], siguiente_id := sig }
    = claves st ++ [idn] := by
  unfold claves
  simp

theorem fresco_no_en_claves {st : Diagrama} (hbf : BuenaForma st) :
    st.siguiente_id ∉ claves st := by
  intro h
  rcases List.mem_map.mp h with ⟨p, hp, hk⟩
  have := hbf.clavesLt p hp
  rw [hk] at this
  exact lt_irrefl _ this

theorem clave_lt_de_lookup {st : Diagrama} {k : Nat} {n : Nodo}
    (hbf : BuenaForma st) (h : lookupN st k = some n) : k < st.siguiente_id :=
  hbf.clavesLt (k, n) (lookupN_mem h)

/-- Registering a fresh parentless node preserves well-formedness. -/
theorem buenaForma_extiende_suelto {st : Diagrama} (n0 : Nodo)
    (hid : n0.id = st.siguiente_id) (hh : n0.hijos = [])
    (hp : n0.padres = []) (hbf : BuenaForma st) :
    BuenaForma { st with nodos := st.nodos ++ [(st.siguiente_id, n0)], siguiente_id := st.siguiente_id + 1 } := by
  have hfresh := fresco_no_en_claves hbf
  have hlook := lookupN_extiende_spec st.siguiente_id n0 (st.siguiente_id + 1) hfresh
  have hclaves := @claves_extiende st st.siguiente_id n0 (st.siguiente_id + 1)
  have hmem : ∀ p : Nat × Nodo,
      p ∈ st.nodos ++ [(st.siguiente_id, n0)] →
      p ∈ st.nodos ∨ p = (st.siguiente_id, n0) := by
    intro p hp2
    rcases List.mem_append.mp hp2 with h | h
    · exact Or.inl h
    · exact Or.inr (List.mem_singleton.mp h)
  refine ⟨?_, ?_, ?_, ?_, ?_, ?_, ?_, ?_⟩
  · rw [hclaves, List.nodup_append]
    refine ⟨hbf.clavesNodup, List.nodup_singleton _, ?_⟩
    intro a ha hb
    rw [List.mem_singleton] at hb
    subst hb
    exact hfresh ha
  · intro p hp2
    rcases hmem p hp2 with h | h
    · exact hbf.idCoincide p h
    · rw [h]
      exact hid
  · intro p hp2
    rcases hmem p hp2 with h | h
    · exact Nat.lt_succ_of_lt (hbf.clavesLt p h)
    · rw [h]
      exact Nat.lt_succ_self _
  · intro p hp2 c hc
    rcases hmem p hp2 with h | h
    · rcases hbf.hijosBidir p h c hc with ⟨m, hm, hpad⟩
      refine ⟨m, ?_, hpad⟩
      rw [hlook c, if_neg ?_]
      · exact hm
      · intro hcc
        rw [hcc] at hm
        exact hfresh (List.mem_map.mpr ⟨(st.siguiente_id, m), lookupN_mem hm, rfl⟩)
    · rw [h] at hc
      simp only at hc
      rw [hh] at hc
      cases hc
  · intro p hp2 q hq
    rcases hmem p hp2 with h | h
    · rcases hbf.padresBidir p h q hq with ⟨m, hm, hhij⟩
      refine ⟨m, ?_, hhij⟩
      rw [hlook q, if_neg ?_]
      · exact hm
      · intro hcc
        rw [hcc] at hm
        exact hfresh (List.mem_map.mpr ⟨(st.siguiente_id, m), lookupN_mem hm, rfl⟩)
    · rw [h] at hq
      simp only at hq
      rw [hp] at hq
      cases hq
  · intro p hp2
    rcases hmem p hp2 with h | h
    · exact hbf.hijosNodup p h
    · rw [h]
      show n0.hijos.Nodup
      rw [hh]
      exact List.nodup_nil
  · intro p hp2
    rcases hmem p hp2 with h | h
    · exact hbf.padresNodup p h
    · rw [h]
      show n0.padres.Nodup
      rw [hp]
      exact List.nodup_nil
  · apply aciclico_subrel (R := Arista st) ?_ hbf.aciclico
    rintro a b ⟨m, hm, hb⟩
    rw [hlook a] at hm
    by_cases ha : a = st.siguiente_id
    · rw [if_pos ha] at hm
      cases hm
      rw [hh] at hb
      cases hb
    · rw [if_neg ha] at hm
      exact ⟨m, hm, hb⟩

/-- Registering a fresh node under an existing parent (whose child list is
rewritten to `L`) preserves well-formedness. -/
theorem buenaForma_extiende_con_padre {st : Diagrama} {pid : Nat} {padre : Nodo}
    (hpp : lookupN st pid = some padre) (n0 : Nodo) (L : List Nat)
    (f1 : Nodo → Nodo)
    (hid : n0.id = st.siguiente_id) (hh : n0.hijos = [])
    (hp : n0.padres = [pid])
    (hLmem : ∀ x, x ∈ L ↔ x = st.siguiente_id ∨ x ∈ padre.hijos)
    (hLnodup : L.Nodup)
    (hf1p : ∀ n, (f1 n).padres = n.padres)
    (hf1i : ∀ n, (f1 n).id = n.id)
    (hf1h : (f1 padre).hijos = L)
    (hbf : BuenaForma st) :
    BuenaForma { modifyReg st pid f1 with nodos := (modifyReg st pid f1).nodos ++ [(st.siguiente_id, n0)], siguiente_id := st.siguiente_id + 1 } := by
  have hfresh := fresco_no_en_claves hbf
  have hfresh1 : st.siguiente_id ∉ claves (modifyReg st pid f1) := by
    rw [claves_modifyReg]
    exact hfresh
  have hlook2 : ∀ k,
      lookupN { modifyReg st pid f1 with nodos := (modifyReg st pid f1).nodos ++ [(st.siguiente_id, n0)], siguiente_id := st.siguiente_id + 1 } k
      = if k = st.siguiente_id then some n0
        else if k = pid then (lookupN st k).map f1 else lookupN st k := by
    intro k
    rw [lookupN_extiende_spec st.siguiente_id n0 (st.siguiente_id + 1) hfresh1 k]
    by_cases hk : k = st.siguiente_id
    · rw [if_pos hk, if_pos hk]
    · rw [if_neg hk, if_neg hk, lookupN_modifyReg]
  have hclaves : claves { modifyReg st pid f1 with nodos := (modifyReg st pid f1).nodos ++ [(st.siguiente_id, n0)], siguiente_id := st.siguiente_id + 1 }
      = claves st ++ [st.siguiente_id] := by
    rw [claves_extiende, claves_modifyReg]
  have hnd : (claves { modifyReg st pid f1 with nodos := (modifyReg st pid f1).nodos ++ [(st.siguiente_id, n0)], siguiente_id := st.siguiente_id + 1 }).Nodup := by
    rw [hclaves, List.nodup_append]
    refine ⟨hbf.clavesNodup, List.nodup_singleton _, ?_⟩
    intro a ha hb
    rw [List.mem_singleton] at hb
    subst hb
    exact hfresh ha
  have htri : ∀ p : Nat × Nodo,
      p ∈ (modifyReg st pid f1).nodos ++ [(st.siguiente_id, n0)] →
      (p.1 = st.siguiente_id ∧ p.2 = n0) ∨
      (¬ p.1 = st.siguiente_id ∧ p.1 = pid ∧ p.2 = f1 padre) ∨
      (¬ p.1 = st.siguiente_id ∧ ¬ p.1 = pid ∧ lookupN st p.1 = some p.2) := by
    intro p hp2
    have hl := lookupN_of_mem hnd hp2
    rw [hlook2 p.1] at hl
    by_cases h1 : p.1 = st.siguiente_id
    · rw [if_pos h1] at hl
      exact Or.inl ⟨h1, (Option.some.inj hl).symm⟩
    · rw [if_neg h1] at hl
      by_cases h2 : p.1 = pid
      · rw [if_pos h2] at hl
        rw [h2, hpp] at hl
        have hl2 : some (f1 padre) = some p.2 := hl
        exact Or.inr (Or.inl ⟨h1, h2, (Option.some.inj hl2).symm⟩)
      · rw [if_neg h2] at hl
        exact Or.inr (Or.inr ⟨h1, h2, hl⟩)
  have hne : ∀ {k : Nat} {m : Nodo}, lookupN st k = some m → ¬ k = st.siguiente_id := by
    intro k m hm hk
    exact absurd (clave_lt_de_lookup hbf hm) (by rw [hk]; exact lt_irrefl _)
  refine ⟨hnd, ?_, ?_, ?_, ?_, ?_, ?_, ?_⟩
  · intro p hp2
    rcases htri p hp2 with ⟨h1, h2⟩ | ⟨_, h1, h2⟩ | ⟨_, _, h2⟩
    · rw [h2, hid, h1]
    · rw [h2, hf1i]
      rw [h1]
      exact hbf.idCoincide (pid, padre) (lookupN_mem hpp)
    · exact hbf.idCoincide p (lookupN_mem h2)
  · intro p hp2
    have : p.1 ∈ claves st ++ [st.siguiente_id] := by
      rw [← hclaves]
      exact List.mem_map_of_mem _ hp2
    rcases List.mem_append.mp this with h | h
    · rcases List.mem_map.mp h with ⟨q, hq, hq1⟩
      rw [← hq1]
      exact Nat.lt_succ_of_lt (hbf.clavesLt q hq)
    · rw [List.mem_singleton.mp h]
      exact Nat.lt_succ_self _
  · intro p hp2 c hc
    rcases htri p hp2 with ⟨h1, h2⟩ | ⟨h0, h1, h2⟩ | ⟨h0, h1, h2⟩
    · rw [h2, hh] at hc
      cases hc
    · rw [h2, hf1h] at hc
      rcases (hLmem c).mp hc with hci | hcv
      · refine ⟨n0, ?_, ?_⟩
        · rw [hlook2 c, if_pos hci]
        · rw [hp, h1]
          exact List.mem_singleton.mpr rfl
      · rcases hbf.hijosBidir (pid, padre) (lookupN_mem hpp) c hcv with ⟨m, hm, hpad⟩
        by_cases hcp : c = pid
        · refine ⟨f1 padre, ?_, ?_⟩
          · rw [hlook2 c, if_neg (hne hm), if_pos hcp, hcp, hpp]
            rfl
          · rw [hf1p]
            rw [hcp, hpp] at hm
            cases hm
            rw [h1]
            exact hpad
        · refine ⟨m, ?_, ?_⟩
          · rw [hlook2 c, if_neg (hne hm), if_neg hcp]
            exact hm
          · rw [h1]
            exact hpad
    · rcases hbf.hijosBidir (p.1, p.2) (lookupN_mem h2) c hc with ⟨m, hm, hpad⟩
      by_cases hcp : c = pid
      · refine ⟨f1 padre, ?_, ?_⟩
        · rw [hlook2 c, if_neg (hne hm), if_pos hcp, hcp, hpp]
          rfl
        · rw [hf1p]
          rw [hcp, hpp] at hm
          cases hm
          exact hpad
      · refine ⟨m, ?_, hpad⟩
        rw [hlook2 c, if_neg (hne hm), if_neg hcp]
        exact hm
  · intro p hp2 q hq
    rcases htri p hp2 with ⟨h1, h2⟩ | ⟨h0, h1, h2⟩ | ⟨h0, h1, h2⟩
    · rw [h2, hp] at hq
      rw [List.mem_singleton.mp hq]
      refine ⟨f1 padre, ?_, ?_⟩
      · rw [hlook2 pid, if_neg (hne hpp), if_pos rfl, hpp]
        rfl
      · rw [hf1h, h1]
        exact (hLmem st.siguiente_id).mpr (Or.inl rfl)
    · rw [h2, hf1p] at hq
      rcases hbf.padresBidir (pid, padre) (lookupN_mem hpp) q hq with ⟨m, hm, hhij⟩
      by_cases hqp : q = pid
      · refine ⟨f1 padre, ?_, ?_⟩
        · rw [hlook2 q, if_neg (hne hm), if_pos hqp, hqp, hpp]
          rfl
        · rw [hf1h]
          rw [hqp, hpp] at hm
          cases hm
          rw [h1]
          exact (hLmem pid).mpr (Or.inr hhij)
      · refine ⟨m, ?_, ?_⟩
        · rw [hlook2 q, if_neg (hne hm), if_neg hqp]
          exact hm
        · rw [h1]
          exact hhij
    · rcases hbf.padresBidir (p.1, p.2) (lookupN_mem h2) q hq with ⟨m, hm, hhij⟩
      by_cases hqp : q = pid
      · refine ⟨f1 padre, ?_, ?_⟩
        · rw [hlook2 q, if_neg (hne hm), if_pos hqp, hqp, hpp]
          rfl
        · rw [hf1h]
          rw [hqp, hpp] at hm
          cases hm
          exact (hLmem p.1).mpr (Or.inr hhij)
      · refine ⟨m, ?_, hhij⟩
        rw [hlook2 q, if_neg (hne hm), if_neg hqp]
        exact hm
  · intro p hp2
    rcases htri p hp2 with ⟨_, h2⟩ | ⟨_, _, h2⟩ | ⟨_, _, h2⟩
    · rw [h2]
      show n0.hijos.Nodup
      rw [hh]
      exact List.nodup_nil
    · rw [h2]
      show (f1 padre).hijos.Nodup
      rw [hf1h]
      exact hLnodup
    · exact hbf.hijosNodup p (lookupN_mem h2)
  · intro p hp2
    rcases htri p hp2 with ⟨_, h2⟩ | ⟨_, _, h2⟩ | ⟨_, _, h2⟩
    · rw [h2]
      show n0.padres.Nodup
      rw [hp]
      exact List.nodup_singleton _
    · rw [h2]
      show (f1 padre).padres.Nodup
      rw [hf1p]
      exact hbf.padresNodup (pid, padre) (lookupN_mem hpp)
    · exact hbf.padresNodup p (lookupN_mem h2)
  · apply aciclico_extiende_hoja (R := Arista st) (u := pid) (v := st.siguiente_id)
      ?_ ?_ hbf.aciclico
    · rintro a b ⟨m, hm, hb⟩
      rw [hlook2 a] at hm
      by_cases ha : a = st.siguiente_id
      · rw [if_pos ha] at hm
        cases hm
        rw [hh] at hb
        cases hb
      · rw [if_neg ha] at hm
        by_cases hap : a = pid
        · rw [if_pos hap, hap, hpp] at hm
          cases hm
          rw [hf1h] at hb
          rcases (hLmem b).mp hb with hbv | hbo
          · exact Or.inr ⟨hap, hbv⟩
          · exact Or.inl ⟨padre, hap ▸ hpp, hbo⟩
        · rw [if_neg hap] at hm
          exact Or.inl ⟨m, hm, hb⟩
    · rintro w ⟨m, hm, hb⟩
      rw [hlook2 st.siguiente_id, if_pos rfl] at hm
      cases hm
      rw [hh] at hb
      cases hb

theorem buenaForma_agregar {st : Diagrama} (nombre : String)
    (id_padre : Option Nat) (num_hijo : Option Int) (hbf : BuenaForma st) :
    BuenaForma (anadirNodo st nombre id_padre num_hijo).1 := by
  unfold anadirNodo
  cases id_padre with
  | none =>
    exact buenaForma_actHom _ _ (buenaForma_extiende_suelto _ rfl rfl rfl hbf)
  | some pid =>
    cases hpp : lookupN st pid with
    | none =>
      simp only [hpp]
      exact buenaForma_actHom _ _ (buenaForma_extiende_suelto _ rfl rfl rfl hbf)
    | some padre =>
      simp only [hpp]
      apply buenaForma_actHom
      have hsub : st.siguiente_id ∉ padre.hijos := by
        intro hmem
        rcases hbf.hijosBidir (pid, padre) (lookupN_mem hpp) _ hmem with ⟨m, hm, _⟩
        exact absurd (clave_lt_de_lookup hbf hm) (lt_irrefl _)
      have hpnod := hbf.hijosNodup (pid, padre) (lookupN_mem hpp)
      have happ : (padre.hijos ++ [st.siguiente_id]).Nodup := by
        rw [List.nodup_append]
        refine ⟨hpnod, List.nodup_singleton _, ?_⟩
        intro a ha hb
        rw [List.mem_singleton] at hb
        subst hb
        exact hsub ha
      refine buenaForma_extiende_con_padre hpp _
        (match num_hijo with
         | some k =>
           if 0 ≤ k ∧ k ≤ (padre.hijos.length : Int)
           then padre.hijos.insertIdx k.toNat st.siguiente_id
           else padre.hijos ++ [st.siguiente_id]
         | none => padre.hijos ++ [st.siguiente_id])
        _ rfl rfl rfl ?_ ?_ (fun n => rfl) (fun n => rfl) ?_ hbf
      · intro x
        cases num_hijo with
        | none =>
          show x ∈ padre.hijos ++ [st.siguiente_id] ↔ _
          rw [List.mem_append, List.mem_singleton, or_comm]
        | some k =>
          show x ∈ (if 0 ≤ k ∧ k ≤ (padre.hijos.length : Int)
            then padre.hijos.insertIdx k.toNat st.siguiente_id
            else padre.hijos ++ [st.siguiente_id]) ↔ _
          by_cases hk : 0 ≤ k ∧ k ≤ (padre.hijos.length : Int)
          · rw [if_pos hk]
            exact List.mem_insertIdx (Int.toNat_le.mpr hk.2)
          · rw [if_neg hk, List.mem_append, List.mem_singleton, or_comm]
      · cases num_hijo with
        | none => exact happ
        | some k =>
          show (if 0 ≤ k ∧ k ≤ (padre.hijos.length : Int)
            then padre.hijos.insertIdx k.toNat st.siguiente_id
            else padre.hijos ++ [st.siguiente_id]).Nodup
          by_cases hk : 0 ≤ k ∧ k ≤ (padre.hijos.length : Int)
          · rw [if_pos hk]
            exact nodup_insertIdx hsub hpnod
          · rw [if_neg hk]
            exact happ
      · cases num_hijo with
        | none => rfl
        | some k => rfl

end AgregarBuenaForma

section EnlaceBuenaForma

theorem buenaForma_enlazar {fuel : Nat} {st st' : Diagrama} {p c : Nat} {b : Bool}
    (h : enlazarNodos fuel st p c = some (st', b)) (hbf : BuenaForma st) :
    BuenaForma st' := by
  rcases enlazarNodos_spec fuel st p c st' b h with
    ⟨_, padre, hijo, hp, hc, he, hcc, hpp⟩ | ⟨_, hst, _⟩
  swap
  · rw [hst]
    exact hbf
  have hnr : ¬ Relation.ReflTransGen (Arista st) c p := by
    intro hr
    have := (creaCiclo_correcto fuel st p c false hcc).mpr hr
    simp at this
  have hpc : ¬ p = c := by
    intro hpc
    exact hnr (hpc ▸ Relation.ReflTransGen.refl)
  have hcp : ¬ c = p := fun hh => hpc hh.symm
  apply buenaForma_propagar hpp
  set HP : Nodo := { padre with hijos := padre.hijos ++ [c] } with hHP
  set HC : Nodo := { hijo with padres := hijo.padres ++ [p], restricciones_heredadas := unionZip padre.restricciones hijo.restricciones_heredadas } with hHC
  have hlook3 : ∀ k, lookupN (modifyReg (modifyReg (modifyReg st p
        (fun q => { q with hijos := q.hijos ++ [c] }))
      c (fun q => { q with padres := q.padres ++ [p] }))
      c (fun q => { q with restricciones_heredadas := unionZip padre.restricciones hijo.restricciones_heredadas })) k
      = if k = c then some HC else if k = p then some HP else lookupN st k := by
    intro k
    by_cases hkc : k = c
    · subst hkc
      rw [if_pos rfl]
      rw [lookupN_modifyReg, if_pos rfl, lookupN_modifyReg, if_pos rfl,
        lookupN_modifyReg, if_neg hcp, hc]
      rfl
    · rw [if_neg hkc]
      by_cases hkp : k = p
      · subst hkp
        rw [if_pos rfl]
        rw [lookupN_modifyReg, if_neg hkc, lookupN_modifyReg, if_neg hkc,
          lookupN_modifyReg, if_pos rfl, hp]
        rfl
      · rw [if_neg hkp, lookupN_modifyReg, if_neg hkc, lookupN_modifyReg,
          if_neg hkc, lookupN_modifyReg, if_neg hkp]
  have hclaves3 : claves (modifyReg (modifyReg (modifyReg st p
        (fun q => { q with hijos := q.hijos ++ [c] }))
      c (fun q => { q with padres := q.padres ++ [p] }))
      c (fun q => { q with restricciones_heredadas := unionZip padre.restricciones hijo.restricciones_heredadas })) = claves st := by
    rw [claves_modifyReg, claves_modifyReg, claves_modifyReg]
  have hnd3 : (claves (modifyReg (modifyReg (modifyReg st p
        (fun q => { q with hijos := q.hijos ++ [c] }))
      c (fun q => { q with padres := q.padres ++ [p] }))
      c (fun q => { q with restricciones_heredadas := unionZip padre.restricciones hijo.restricciones_heredadas }))).Nodup := by
    rw [hclaves3]
    exact hbf.clavesNodup
  have htri : ∀ q : Nat × Nodo, q ∈ (modifyReg (modifyReg (modifyReg st p
        (fun q => { q with hijos := q.hijos ++ [c] }))
      c (fun q => { q with padres := q.padres ++ [p] }))
      c (fun q => { q with restricciones_heredadas := unionZip padre.restricciones hijo.restricciones_heredadas })).nodos →
      (q.1 = c ∧ q.2 = HC) ∨ (¬ q.1 = c ∧ q.1 = p ∧ q.2 = HP) ∨
      (¬ q.1 = c ∧ ¬ q.1 = p ∧ lookupN st q.1 = some q.2) := by
    intro q hq
    have hl := lookupN_of_mem hnd3 hq
    rw [hlook3 q.1] at hl
    by_cases h1 : q.1 = c
    · rw [if_pos h1] at hl
      exact Or.inl ⟨h1, (Option.some.inj hl).symm⟩
    · rw [if_neg h1] at hl
      by_cases h2 : q.1 = p
      · rw [if_pos h2] at hl
        exact Or.inr (Or.inl ⟨h1, h2, (Option.some.inj hl).symm⟩)
      · rw [if_neg h2] at hl
        exact Or.inr (Or.inr ⟨h1, h2, hl⟩)
  have hpne : p ∉ hijo.padres := by
    intro hmem
    rcases hbf.padresBidir (c, hijo) (lookupN_mem hc) p hmem with ⟨m, hm, hhij⟩
    rw [hp] at hm
    cases hm
    exact he hhij
  refine ⟨hnd3, ?_, ?_, ?_, ?_, ?_, ?_, ?_⟩
  · intro q hq
    rcases htri q hq with ⟨h1, h2⟩ | ⟨_, h1, h2⟩ | ⟨_, _, h2⟩
    · rw [h2, hHC]
      show hijo.id = q.1
      rw [h1]
      exact hbf.idCoincide (c, hijo) (lookupN_mem hc)
    · rw [h2, hHP]
      show padre.id = q.1
      rw [h1]
      exact hbf.idCoincide (p, padre) (lookupN_mem hp)
    · exact hbf.idCoincide q (lookupN_mem h2)
  · intro q hq
    have : q.1 ∈ claves st := by
      rw [← hclaves3]
      exact List.mem_map_of_mem _ hq
    rcases List.mem_map.mp this with ⟨r, hr, hr1⟩
    rw [← hr1]
    exact hbf.clavesLt r hr
  · intro q hq x hx
    have hviejo : ∀ {k : Nat} {n : Nodo}, lookupN st k = some n → ∀ x2 ∈ n.hijos,
        k ∈ ((nodoEn st x2).padres) ∧ (lookupN st x2).isSome := by
      intro k n hn x2 hx2
      rcases hbf.hijosBidir (k, n) (lookupN_mem hn) x2 hx2 with ⟨m, hm, hpad⟩
      unfold nodoEn
      rw [hm]
      exact ⟨hpad, rfl⟩
    have hmeta : ∀ {k : Nat}, k ∈ claves st → ∀ x2, k ∈ (nodoEn st x2).padres →
        ∃ m2, lookupN (modifyReg (modifyReg (modifyReg st p
          (fun q => { q with hijos := q.hijos ++ [c] }))
        c (fun q => { q with padres := q.padres ++ [p] }))
        c (fun q => { q with restricciones_heredadas := unionZip padre.restricciones hijo.restricciones_heredadas })) x2 = some m2 ∧ k ∈ m2.padres := by
      intro k hk x2 hx2
      rw [hlook3 x2]
      by_cases hx2c : x2 = c
      · refine ⟨HC, by rw [if_pos hx2c], ?_⟩
        rw [hHC]
        show k ∈ hijo.padres ++ [p]
        unfold nodoEn at hx2
        rw [hx2c, hc] at hx2
        exact List.mem_append_left _ hx2
      · by_cases hx2p : x2 = p
        · refine ⟨HP, by rw [if_neg hx2c, if_pos hx2p], ?_⟩
          rw [hHP]
          show k ∈ padre.padres
          unfold nodoEn at hx2
          rw [hx2p, hp] at hx2
          exact hx2
        · unfold nodoEn at hx2
          cases hl : lookupN st x2 with
          | none =>
            rw [hl] at hx2
            simp [nuevoNodo] at hx2
          | some m2 =>
            rw [hl] at hx2
            exact ⟨m2, by rw [if_neg hx2c, if_neg hx2p], hx2⟩
    rcases htri q hq with ⟨h1, h2⟩ | ⟨h0, h1, h2⟩ | ⟨h0, h1, h2⟩
    · rw [h2] at hx
      have hx2 : x ∈ hijo.hijos := hx
      rcases hviejo hc x hx2 with ⟨hpad, _⟩
      have hkc : q.1 ∈ claves st := by
        rw [h1]
        exact lookupN_isSome_iff.mp (by rw [hc]; rfl)
      rcases hmeta hkc x (h1 ▸ hpad) with ⟨m2, hm2, hq2⟩
      exact ⟨m2, hm2, hq2⟩
    · rw [h2] at hx
      have hx2 : x ∈ padre.hijos ++ [c] := hx
      rcases List.mem_append.mp hx2 with hx3 | hx3
      · rcases hviejo hp x hx3 with ⟨hpad, _⟩
        have hkp : q.1 ∈ claves st := by
          rw [h1]
          exact lookupN_isSome_iff.mp (by rw [hp]; rfl)
        rcases hmeta hkp x (h1 ▸ hpad) with ⟨m2, hm2, hq2⟩
        exact ⟨m2, hm2, hq2⟩
      · rw [List.mem_singleton.mp hx3]
        refine ⟨HC, by rw [hlook3 c, if_pos rfl], ?_⟩
        rw [hHC]
        show q.1 ∈ hijo.padres ++ [p]
        rw [h1]
        exact List.mem_append_right _ (List.mem_singleton.mpr rfl)
    · rcases hviejo h2 x hx with ⟨hpad, _⟩
      have hkq : q.1 ∈ claves st :=
        lookupN_isSome_iff.mp (by rw [h2]; rfl)
      rcases hmeta hkq x hpad with ⟨m2, hm2, hq2⟩
      exact ⟨m2, hm2, hq2⟩
  · intro q hq x hx
    have hviejo : ∀ {k : Nat} {n : Nodo}, lookupN st k = some n → ∀ x2 ∈ n.padres,
        k ∈ ((nodoEn st x2).hijos) := by
      intro k n hn x2 hx2
      rcases hbf.padresBidir (k, n) (lookupN_mem hn) x2 hx2 with ⟨m, hm, hhij⟩
      unfold nodoEn
      rw [hm]
      exact hhij
    have hmeta : ∀ {k : Nat}, ∀ x2, k ∈ (nodoEn st x2).hijos →
        ∃ m2, lookupN (modifyReg (modifyReg (modifyReg st p
          (fun q => { q with hijos := q.hijos ++ [c] }))
        c (fun q => { q with padres := q.padres ++ [p] }))
        c (fun q => { q with restricciones_heredadas := unionZip padre.restricciones hijo.restricciones_heredadas })) x2 = some m2 ∧ k ∈ m2.hijos := by
      intro k x2 hx2
      rw [hlook3 x2]
      by_cases hx2c : x2 = c
      · refine ⟨HC, by rw [if_pos hx2c], ?_⟩
        rw [hHC]
        show k ∈ hijo.hijos
        unfold nodoEn at hx2
        rw [hx2c, hc] at hx2
        exact hx2
      · by_cases hx2p : x2 = p
        · refine ⟨HP, by rw [if_neg hx2c, if_pos hx2p], ?_⟩
          rw [hHP]
          show k ∈ padre.hijos ++ [c]
          unfold nodoEn at hx2
          rw [hx2p, hp] at hx2
          exact List.mem_append_left _ hx2
        · unfold nodoEn at hx2
          cases hl : lookupN st x2 with
          | none =>
            rw [hl] at hx2
            simp [nuevoNodo] at hx2
          | some m2 =>
            rw [hl] at hx2
            exact ⟨m2, by rw [if_neg hx2c, if_neg hx2p], hx2⟩
    rcases htri q hq with ⟨h1, h2⟩ | ⟨h0, h1, h2⟩ | ⟨h0, h1, h2⟩
    · rw [h2] at hx
      have hx2 : x ∈ hijo.padres ++ [p] := hx
      rcases List.mem_append.mp hx2 with hx3 | hx3
      · have hpad := hviejo hc x hx3
        rcases hmeta x (h1 ▸ hpad) with ⟨m2, hm2, hq2⟩
        exact ⟨m2, hm2, hq2⟩
      · rw [List.mem_singleton.mp hx3]
        refine ⟨HP, by rw [hlook3 p, if_neg hpc, if_pos rfl], ?_⟩
        rw [hHP]
        show q.1 ∈ padre.hijos ++ [c]
        rw [h1]
        exact List.mem_append_right _ (List.mem_singleton.mpr rfl)
    · rw [h2] at hx
      have hx2 : x ∈ padre.padres := hx
      have hpad := hviejo hp x hx2
      rcases hmeta x (h1 ▸ hpad) with ⟨m2, hm2, hq2⟩
      exact ⟨m2, hm2, hq2⟩
    · have hpad := hviejo h2 x hx
      rcases hmeta x hpad with ⟨m2, hm2, hq2⟩
      exact ⟨m2, hm2, hq2⟩
  · intro q hq
    rcases htri q hq with ⟨_, h2⟩ | ⟨_, _, h2⟩ | ⟨_, _, h2⟩
    · rw [h2, hHC]
      show hijo.hijos.Nodup
      exact hbf.hijosNodup (c, hijo) (lookupN_mem hc)
    · rw [h2, hHP]
      show (padre.hijos ++ [c]).Nodup
      rw [List.nodup_append]
      refine ⟨hbf.hijosNodup (p, padre) (lookupN_mem hp), List.nodup_singleton _, ?_⟩
      intro a ha hb
      rw [List.mem_singleton] at hb
      subst hb
      exact he ha
    · exact hbf.hijosNodup q (lookupN_mem h2)
  · intro q hq
    rcases htri q hq with ⟨_, h2⟩ | ⟨_, _, h2⟩ | ⟨_, _, h2⟩
    · rw [h2, hHC]
      show (hijo.padres ++ [p]).Nodup
      rw [List.nodup_append]
      refine ⟨hbf.padresNodup (c, hijo) (lookupN_mem hc), List.nodup_singleton _, ?_⟩
      intro a ha hb
      rw [List.mem_singleton] at hb
      subst hb
      exact hpne ha
    · rw [h2, hHP]
      show padre.padres.Nodup
      exact hbf.padresNodup (p, padre) (lookupN_mem hp)
    · exact hbf.padresNodup q (lookupN_mem h2)
  · apply aciclico_extiende_sin_camino (R := Arista st) (u := p) (v := c)
      ?_ hnr hbf.aciclico
    rintro a b2 ⟨m, hm, hb⟩
    rw [hlook3 a] at hm
    by_cases hac : a = c
    · rw [if_pos hac] at hm
      cases hm
      refine Or.inl ⟨hijo, hac ▸ hc, ?_⟩
      exact hb
    · rw [if_neg hac] at hm
      by_cases hap : a = p
      · rw [if_pos hap] at hm
        cases hm
        have hb2 : b2 ∈ padre.hijos ++ [c] := hb
        rcases List.mem_append.mp hb2 with hb3 | hb3
        · exact Or.inl ⟨padre, hap ▸ hp, hb3⟩
        · exact Or.inr ⟨hap, List.mem_singleton.mp hb3⟩
      · rw [if_neg hap] at hm
        exact Or.inl ⟨m, hm, hb⟩

end EnlaceBuenaForma

section DesenlaceBuenaForma

/-- Case analysis of the unlink endpoint on a well-formed state. -/
theorem eliminarEnlace_spec {st st' : Diagrama} {p c : Nat}
    (h : eliminarEnlace st p c = some st') (hbf : BuenaForma st) :
    ∃ padre hijo, lookupN st p = some padre ∧ lookupN st c = some hijo ∧
      ((c ∉ padre.hijos ∧ st' = st) ∨
       (c ∈ padre.hijos ∧ ¬ p = c ∧
        st' = modifyReg (modifyReg st p (fun q => { q with hijos := q.hijos.erase c }))
          c (fun q => { q with padres := q.padres.erase p }))) := by
  unfold eliminarEnlace at h
  cases hp : lookupN st p with
  | none => rw [hp] at h; cases h
  | some padre =>
    rw [hp] at h
    cases hc : lookupN st c with
    | none => rw [hc] at h; cases h
    | some hijo =>
      rw [hc] at h
      refine ⟨padre, hijo, rfl, rfl, ?_⟩
      have h2 : some ((fun st1 =>
          match lookupN st1 c with
          | some hijo1 =>
            if p ∈ hijo1.padres then
              modifyReg st1 c (fun q => { q with padres := q.padres.erase p })
            else st1
          | none => st1)
          (if c ∈ padre.hijos then
            modifyReg st p (fun q => { q with hijos := q.hijos.erase c })
          else st)) = some st' := h
      by_cases he : c ∈ padre.hijos
      · have hpc : ¬ p = c := by
          intro hpc
          subst hpc
          exact hbf.aciclico p (Relation.TransGen.single ⟨padre, hp, he⟩)
        have hcp : ¬ c = p := fun hh => hpc hh.symm
        have hl1 : lookupN (modifyReg st p
            (fun q => { q with hijos := q.hijos.erase c })) c = some hijo := by
          rw [lookupN_modifyReg, if_neg hcp]
          exact hc
        have hpp2 : p ∈ hijo.padres := by
          rcases hbf.hijosBidir (p, padre) (lookupN_mem hp) c he with ⟨m, hm, hpad⟩
          rw [hc] at hm
          cases hm
          exact hpad
        rw [if_pos he] at h2
        have h2b : some (match lookupN (modifyReg st p
            (fun q => { q with hijos := q.hijos.erase c })) c with
          | some hijo1 =>
            if p ∈ hijo1.padres then
              modifyReg (modifyReg st p (fun q => { q with hijos := q.hijos.erase c }))
                c (fun q => { q with padres := q.padres.erase p })
            else modifyReg st p (fun q => { q with hijos := q.hijos.erase c })
          | none => modifyReg st p (fun q => { q with hijos := q.hijos.erase c }))
          = some st' := h2
        rw [hl1] at h2b
        have h3 : some (if p ∈ hijo.padres then
            modifyReg (modifyReg st p (fun q => { q with hijos := q.hijos.erase c }))
              c (fun q => { q with padres := q.padres.erase p })
          else modifyReg st p (fun q => { q with hijos := q.hijos.erase c }))
          = some st' := h2b
        rw [if_pos hpp2] at h3
        cases h3
        exact Or.inr ⟨he, hpc, rfl⟩
      · have hnp : p ∉ hijo.padres := by
          intro hmem
          rcases hbf.padresBidir (c, hijo) (lookupN_mem hc) p hmem with ⟨m, hm, hhij⟩
          rw [hp] at hm
          cases hm
          exact he hhij
        rw [if_neg he] at h2
        have h2b : some (match lookupN st c with
          | some hijo1 =>
            if p ∈ hijo1.padres then
              modifyReg st c (fun q => { q with padres := q.padres.erase p })
            else st
          | none => st) = some st' := h2
        rw [hc] at h2b
        have h3 : some (if p ∈ hijo.padres then
            modifyReg st c (fun q => { q with padres := q.padres.erase p })
          else st) = some st' := h2b
        rw [if_neg hnp] at h3
        cases h3
        exact Or.inl ⟨he, rfl⟩

theorem buenaForma_desenlazar {st st' : Diagrama} {p c : Nat}
    (h : eliminarEnlace st p c = some st') (hbf : BuenaForma st) :
    BuenaForma st' := by
  rcases eliminarEnlace_spec h hbf with
    ⟨padre, hijo, hp, hc, ⟨_, hst⟩ | ⟨he, hpc, hst⟩⟩
  · rw [hst]
    exact hbf
  subst hst
  have hcp : ¬ c = p := fun hh => hpc hh.symm
  set HP : Nodo := { padre with hijos := padre.hijos.erase c } with hHP
  set HC : Nodo := { hijo with padres := hijo.padres.erase p } with hHC
  have hlook : ∀ k, lookupN (modifyReg (modifyReg st p
        (fun q => { q with hijos := q.hijos.erase c }))
      c (fun q => { q with padres := q.padres.erase p })) k
      = if k = c then some HC else if k = p then some HP else lookupN st k := by
    intro k
    by_cases hkc : k = c
    · subst hkc
      rw [if_pos rfl]
      rw [lookupN_modifyReg, if_pos rfl, lookupN_modifyReg, if_neg hcp, hc]
      rfl
    · rw [if_neg hkc]
      by_cases hkp : k = p
      · subst hkp
        rw [if_pos rfl]
        rw [lookupN_modifyReg, if_neg hkc, lookupN_modifyReg, if_pos rfl, hp]
        rfl
      · rw [if_neg hkp, lookupN_modifyReg, if_neg hkc, lookupN_modifyReg,
          if_neg hkp]
  have hclaves : claves (modifyReg (modifyReg st p
        (fun q => { q with hijos := q.hijos.erase c }))
      c (fun q => { q with padres := q.padres.erase p })) = claves st := by
    rw [claves_modifyReg, claves_modifyReg]
  have hnd : (claves (modifyReg (modifyReg st p
        (fun q => { q with hijos := q.hijos.erase c }))
      c (fun q => { q with padres := q.padres.erase p }))).Nodup := by
    rw [hclaves]
    exact hbf.clavesNodup
  have htri : ∀ q : Nat × Nodo, q ∈ (modifyReg (modifyReg st p
        (fun q => { q with hijos := q.hijos.erase c }))
      c (fun q => { q with padres := q.padres.erase p })).nodos →
      (q.1 = c ∧ q.2 = HC) ∨ (¬ q.1 = c ∧ q.1 = p ∧ q.2 = HP) ∨
      (¬ q.1 = c ∧ ¬ q.1 = p ∧ lookupN st q.1 = some q.2) := by
    intro q hq
    have hl := lookupN_of_mem hnd hq
    rw [hlook q.1] at hl
    by_cases h1 : q.1 = c
    · rw [if_pos h1] at hl
      exact Or.inl ⟨h1, (Option.some.inj hl).symm⟩
    · rw [if_neg h1] at hl
      by_cases h2 : q.1 = p
      · rw [if_pos h2] at hl
        exact Or.inr (Or.inl ⟨h1, h2, (Option.some.inj hl).symm⟩)
      · rw [if_neg h2] at hl
        exact Or.inr (Or.inr ⟨h1, h2, hl⟩)
  have hviejoH : ∀ {k : Nat} {n : Nodo}, lookupN st k = some n →
      ∀ x ∈ n.hijos, ∃ m, lookupN st x = some m ∧ k ∈ m.padres := by
    intro k n hn x hx
    exact hbf.hijosBidir (k, n) (lookupN_mem hn) x hx
  have hviejoP : ∀ {k : Nat} {n : Nodo}, lookupN st k = some n →
      ∀ x ∈ n.padres, ∃ m, lookupN st x = some m ∧ k ∈ m.hijos := by
    intro k n hn x hx
    exact hbf.padresBidir (k, n) (lookupN_mem hn) x hx
  have hhnod : hijo.padres.Nodup := hbf.padresNodup (c, hijo) (lookupN_mem hc)
  have hpnod : padre.hijos.Nodup := hbf.hijosNodup (p, padre) (lookupN_mem hp)
  refine ⟨hnd, ?_, ?_, ?_, ?_, ?_, ?_, ?_⟩
  · intro q hq
    rcases htri q hq with ⟨h1, h2⟩ | ⟨_, h1, h2⟩ | ⟨_, _, h2⟩
    · rw [h2, hHC]
      show hijo.id = q.1
      rw [h1]
      exact hbf.idCoincide (c, hijo) (lookupN_mem hc)
    · rw [h2, hHP]
      show padre.id = q.1
      rw [h1]
      exact hbf.idCoincide (p, padre) (lookupN_mem hp)
    · exact hbf.idCoincide q (lookupN_mem h2)
  · intro q hq
    have : q.1 ∈ claves st := by
      rw [← hclaves]
      exact List.mem_map_of_mem _ hq
    rcases List.mem_map.mp this with ⟨r, hr, hr1⟩
    rw [← hr1]
    exact hbf.clavesLt r hr
  · intro q hq x hx
    have meta : ∀ (k : Nat), ¬ (k = p ∧ x = c) → k ∈ claves st →
        (∃ m, lookupN st x = some m ∧ k ∈ m.padres) →
        ∃ m2, lookupN (modifyReg (modifyReg st p
          (fun q => { q with hijos := q.hijos.erase c }))
        c (fun q => { q with padres := q.padres.erase p })) x = some m2 ∧
        k ∈ m2.padres := by
      rintro k hk _ ⟨m, hm, hpad⟩
      rw [hlook x]
      by_cases hxc : x = c
      · subst hxc
        rw [hc] at hm
        cases hm
        refine ⟨HC, by rw [if_pos rfl], ?_⟩
        rw [hHC]
        show k ∈ hijo.padres.erase p
        rw [hhnod.mem_erase_iff]
        exact ⟨fun hh => hk ⟨hh, rfl⟩, hpad⟩
      · by_cases hxp : x = p
        · subst hxp
          rw [hp] at hm
          cases hm
          refine ⟨HP, by rw [if_neg hxc, if_pos rfl], ?_⟩
          rw [hHP]
          show k ∈ padre.padres
          exact hpad
        · exact ⟨m, by rw [if_neg hxc, if_neg hxp]; exact hm, hpad⟩
    rcases htri q hq with ⟨h1, h2⟩ | ⟨h0, h1, h2⟩ | ⟨h0, h1, h2⟩
    · rw [h2] at hx
      have hx2 : x ∈ hijo.hijos := hx
      apply meta q.1 ?_ ?_ (by rw [h1]; exact hviejoH hc x hx2)
      · rintro ⟨hqp, hxc⟩
        rw [h1] at hqp
        exact hpc (hqp.symm ▸ rfl)
      · rw [h1]
        exact lookupN_isSome_iff.mp (by rw [hc]; rfl)
    · rw [h2] at hx
      have hx2 : x ∈ padre.hijos.erase c := hx
      rw [hpnod.mem_erase_iff] at hx2
      apply meta q.1 ?_ ?_ (by rw [h1]; exact hviejoH hp x hx2.2)
      · rintro ⟨_, hxc⟩
        exact hx2.1 hxc
      · rw [h1]
        exact lookupN_isSome_iff.mp (by rw [hp]; rfl)
    · apply meta q.1 ?_ ?_ (hviejoH h2 x hx)

      · rintro ⟨hqp, _⟩
        exact h1 hqp
      · exact lookupN_isSome_iff.mp (by rw [h2]; rfl)
  · intro q hq x hx
    have meta : ∀ (k : Nat), ¬ (k = c ∧ x = p) →
        (∃ m, lookupN st x = some m ∧ k ∈ m.hijos) →
        ∃ m2, lookupN (modifyReg (modifyReg st p
          (fun q => { q with hijos := q.hijos.erase c }))
        c (fun q => { q with padres := q.padres.erase p })) x = some m2 ∧
        k ∈ m2.hijos := by
      rintro k hk ⟨m, hm, hhij⟩
      rw [hlook x]
      by_cases hxc : x = c
      · subst hxc
        rw [hc] at hm
        cases hm
        refine ⟨HC, by rw [if_pos rfl], ?_⟩
        rw [hHC]
        show k ∈ hijo.hijos
        exact hhij
      · by_cases hxp : x = p
        · subst hxp
          rw [hp] at hm
          cases hm
          refine ⟨HP, by rw [if_neg hxc, if_pos rfl], ?_⟩
          rw [hHP]
          show k ∈ padre.hijos.erase c
          rw [hpnod.mem_erase_iff]
          exact ⟨fun hh => hk ⟨hh, rfl⟩, hhij⟩
        · exact ⟨m, by rw [if_neg hxc, if_neg hxp]; exact hm, hhij⟩
    rcases htri q hq with ⟨h1, h2⟩ | ⟨h0, h1, h2⟩ | ⟨h0, h1, h2⟩
    · rw [h2] at hx
      have hx2 : x ∈ hijo.padres.erase p := hx
      rw [hhnod.mem_erase_iff] at hx2
      apply meta q.1 ?_ (by rw [h1]; exact hviejoP hc x hx2.2)
      rintro ⟨_, hxp⟩
      exact hx2.1 hxp
    · rw [h2] at hx
      have hx2 : x ∈ padre.padres := hx
      apply meta q.1 ?_ (by rw [h1]; exact hviejoP hp x hx2)
      rintro ⟨hqc, _⟩
      rw [h1] at hqc
      exact hpc hqc
    · apply meta q.1 ?_ (hviejoP h2 x hx)
      rintro ⟨hqc, _⟩
      exact h0 hqc
  · intro q hq
    rcases htri q hq with ⟨_, h2⟩ | ⟨_, _, h2⟩ | ⟨_, _, h2⟩
    · rw [h2, hHC]
      show hijo.hijos.Nodup
      exact hbf.hijosNodup (c, hijo) (lookupN_mem hc)
    · rw [h2, hHP]
      show (padre.hijos.erase c).Nodup
      exact hpnod.erase c
    · exact hbf.hijosNodup q (lookupN_mem h2)
  · intro q hq
    rcases htri q hq with ⟨_, h2⟩ | ⟨_, _, h2⟩ | ⟨_, _, h2⟩
    · rw [h2, hHC]
      show (hijo.padres.erase p).Nodup
      exact hhnod.erase p
    · rw [h2, hHP]
      show padre.padres.Nodup
      exact hbf.padresNodup (p, padre) (lookupN_mem hp)
    · exact hbf.padresNodup q (lookupN_mem h2)
  · apply aciclico_subrel (R := Arista st) ?_ hbf.aciclico
    rintro a b ⟨m, hm, hb⟩
    rw [hlook a] at hm
    by_cases hac : a = c
    · rw [if_pos hac] at hm
      cases hm
      exact ⟨hijo, hac ▸ hc, hb⟩
    · rw [if_neg hac] at hm
      by_cases hap : a = p
      · rw [if_pos hap] at hm
        cases hm
        have hb2 : b ∈ padre.hijos.erase c := hb
        rw [hpnod.mem_erase_iff] at hb2
        exact ⟨padre, hap ▸ hp, hb2.2⟩
      · rw [if_neg hap] at hm
        exact ⟨m, hm, hb⟩

end DesenlaceBuenaForma

section EliminarBuenaForma

/-- Effect of the parent-cleanup fold in `eliminarNodo`. -/
theorem lookupN_quitarHijo (id : Nat) :
    ∀ (l : List Nat) (s : Diagrama) (k : Nat),
    lookupN (l.foldl (fun s2 pid =>
      if (lookupN s2 pid).isSome then
        modifyReg s2 pid (fun p =>
          { p with hijos := p.hijos.filter (fun h => h != id) })
      else s2) s) k
    = if k ∈ l then
        (lookupN s k).map (fun n =>
          { n with hijos := n.hijos.filter (fun h => h != id) })
      else lookupN s k := by
  intro l
  induction l with
  | nil =>
    intro s k
    rw [List.foldl_nil]
    simp
  | cons pid t ih =>
    intro s k
    rw [List.foldl_cons]
    have hpaso : ∀ k2, lookupN (if (lookupN s pid).isSome then
        modifyReg s pid (fun p =>
          { p with hijos := p.hijos.filter (fun h => h != id) })
      else s) k2
      = if k2 = pid then
          (lookupN s k2).map (fun n =>
            { n with hijos := n.hijos.filter (fun h => h != id) })
        else lookupN s k2 := by
      intro k2
      by_cases hs : (lookupN s pid).isSome
      · rw [if_pos hs, lookupN_modifyReg]
      · rw [if_neg hs]
        by_cases hk2 : k2 = pid
        · rw [if_pos hk2, hk2]
          cases hl : lookupN s pid with
          | none => rfl
          | some m => rw [hl] at hs; simp at hs
        · rw [if_neg hk2]
    rw [ih]
    by_cases hkt : k ∈ t
    · rw [if_pos hkt, if_pos (List.mem_cons_of_mem pid hkt), hpaso k]
      by_cases hkp : k = pid
      · rw [if_pos hkp]
        cases hl : lookupN s k with
        | none => rfl
        | some m =>
          show some _ = some _
          congr 1
          simp [List.filter_filter]
      · rw [if_neg hkp]
    · rw [if_neg hkt, hpaso k]
      by_cases hkp : k = pid
      · rw [if_pos hkp, if_pos (by rw [hkp]; exact List.mem_cons_self pid t)]
      · rw [if_neg hkp, if_neg (by
          intro hh
          rcases List.mem_cons.mp hh with hh | hh
          · exact hkp hh
          · exact hkt hh)]

theorem claves_quitarHijo (id : Nat) :
    ∀ (l : List Nat) (s : Diagrama),
    claves (l.foldl (fun s2 pid =>
      if (lookupN s2 pid).isSome then
        modifyReg s2 pid (fun p =>
          { p with hijos := p.hijos.filter (fun h => h != id) })
      else s2) s) = claves s := by
  intro l
  induction l with
  | nil => intro s; rfl
  | cons pid t ih =>
    intro s
    rw [List.foldl_cons, ih]
    by_cases hs : (lookupN s pid).isSome
    · rw [if_pos hs, claves_modifyReg]
    · rw [if_neg hs]

theorem siguiente_quitarHijo (id : Nat) :
    ∀ (l : List Nat) (s : Diagrama),
    (l.foldl (fun s2 pid =>
      if (lookupN s2 pid).isSome then
        modifyReg s2 pid (fun p =>
          { p with hijos := p.hijos.filter (fun h => h != id) })
      else s2) s).siguiente_id = s.siguiente_id := by
  intro l
  induction l with
  | nil => intro s; rfl
  | cons pid t ih =>
    intro s
    rw [List.foldl_cons, ih]
    by_cases hs : (lookupN s pid).isSome
    · rw [if_pos hs]
      rfl
    · rw [if_neg hs]

theorem elimInv_refl (st : Diagrama) : ElimInv st st := by
  refine ⟨fun k hk => hk, rfl, ?_⟩
  intro k nk nk' h1 h2
  rw [h1] at h2
  cases h2
  exact ⟨fun x hx => hx, rfl, rfl, rfl, rfl⟩

theorem elimInv_trans {s1 s2 s3 : Diagrama}
    (h1 : ElimInv s1 s2) (h2 : ElimInv s2 s3) : ElimInv s1 s3 := by
  refine ⟨fun k hk => h1.1 k (h2.1 k hk), h2.2.1.trans h1.2.1, ?_⟩
  intro k nk nk' hl1 hl3
  have hk2 : (lookupN s2 k).isSome := by
    rcases lookupN_isSome_iff.mpr (h2.1 k (lookupN_isSome_iff.mp (by rw [hl3]; rfl)))
      with h
    exact h
  cases hl2 : lookupN s2 k with
  | none => rw [hl2] at hk2; simp at hk2
  | some nk2 =>
    rcases h1.2.2 k nk nk2 hl1 hl2 with ⟨ha1, ha2, ha3, ha4, ha5⟩
    rcases h2.2.2 k nk2 nk' hl2 hl3 with ⟨hb1, hb2, hb3, hb4, hb5⟩
    exact ⟨fun x hx => ha1 x (hb1 x hx), hb2.trans ha2, hb3.trans ha3,
      hb4.trans ha4, hb5.trans ha5⟩

/-- Deletion preserves well-formedness, only shrinks the registry, and on
success unregisters its argument. -/
theorem eliminar_buenaForma_aux : ∀ fuel : Nat,
    ∀ st id st' b, BuenaForma st → eliminarNodo fuel st id = some (st', b) →
      BuenaForma st' ∧ ElimInv st st' ∧ (b = true → id ∉ claves st') ∧
      (b = false → st' = st ∧ lookupN st id = none) ∧
      (HomologosExactos st → HomologosExactos st') := by
  intro fuel
  induction fuel with
  | zero => intro st id st' b hbf h; cases h
  | succ f ih =>
    have hLista : ∀ (l : List Nat) (st st' : Diagrama), BuenaForma st →
        eliminarLista f st l = some st' →
        BuenaForma st' ∧ ElimInv st st' ∧ (∀ h2 ∈ l, h2 ∉ claves st') ∧
        (HomologosExactos st → HomologosExactos st') := by
      intro l
      induction l with
      | nil =>
        intro st st' hbf h
        rw [eliminarLista_nil] at h
        cases h
        exact ⟨hbf, elimInv_refl _, by simp, fun he => he⟩
      | cons x t ihl =>
        intro st st' hbf h
        rw [eliminarLista_cons] at h
        cases hx : eliminarNodo f st x with
        | none => rw [hx] at h; cases h
        | some r =>
          rw [hx] at h
          have h2 : eliminarLista f r.1 t = some st' := h
          have hx2 : eliminarNodo f st x = some (r.1, r.2) := hx
          rcases ih st x r.1 r.2 hbf hx2 with ⟨hbf1, hinv1, htrue, hfalse, hheN⟩
          rcases ihl r.1 st' hbf1 h2 with ⟨hbf', hinv2, hdead, hheT⟩
          refine ⟨hbf', elimInv_trans hinv1 hinv2, ?_, fun he => hheT (hheN he)⟩
          intro y hy
          rcases List.mem_cons.mp hy with hy | hy
          · subst hy
            cases hb : r.2 with
            | true =>
              intro hk
              exact htrue hb (hinv2.1 _ hk)
            | false =>
              rcases hfalse hb with ⟨hr1, hnone⟩
              intro hk
              have : y ∈ claves r.1 := hinv2.1 _ hk
              rw [hr1] at this
              exact (lookupN_eq_none_iff.mp hnone) this
          · exact hdead y hy
    intro st id st' b hbf h
    rw [eliminarNodo_succ] at h
    cases hl : lookupN st id with
    | none =>
      rw [hl] at h
      have h2 : some (st, false) = some (st', b) := h
      cases h2
      exact ⟨hbf, elimInv_refl _, fun hb => Bool.noConfusion hb,
        fun _ => ⟨rfl, rfl⟩, fun he => he⟩
    | some nodo =>
      rw [hl] at h
      have h3 : (match eliminarLista f st nodo.hijos with
        | none => (none : Option (Diagrama × Bool))
        | some st1 =>
          match lookupN st1 id with
          | none => none
          | some nodo1 =>
            some (limpiarHomologos (borrarReg
              (nodo1.padres.foldl (fun s2 pid =>
                if (lookupN s2 pid).isSome then
                  modifyReg s2 pid (fun p =>
                    { p with hijos := p.hijos.filter (fun h2 => h2 != id) })
                else s2) st1) id) nodo1.homologos id, true))
          = some (st', b) := h
      cases hLi : eliminarLista f st nodo.hijos with
      | none => rw [hLi] at h3; cases h3
      | some st1 =>
        rw [hLi] at h3
        have h4 : (match lookupN st1 id with
          | none => (none : Option (Diagrama × Bool))
          | some nodo1 =>
            some (limpiarHomologos (borrarReg
              (nodo1.padres.foldl (fun s2 pid =>
                if (lookupN s2 pid).isSome then
                  modifyReg s2 pid (fun p =>
                    { p with hijos := p.hijos.filter (fun h2 => h2 != id) })
                else s2) st1) id) nodo1.homologos id, true))
          = some (st', b) := h3
        cases hl1 : lookupN st1 id with
        | none => rw [hl1] at h4; cases h4
        | some nodo1 =>
          rw [hl1] at h4
          have h2 : some (limpiarHomologos (borrarReg
              (nodo1.padres.foldl (fun s2 pid =>
                if (lookupN s2 pid).isSome then
                  modifyReg s2 pid (fun p =>
                    { p with hijos := p.hijos.filter (fun h2 => h2 != id) })
                else s2) st1) id) nodo1.homologos id, true) = some (st', b) := h4
          cases h2
          rcases hLista nodo.hijos st st1 hbf hLi with ⟨hbf1, hinv01, hdead, hheL⟩
          rcases hinv01.2.2 id nodo nodo1 hl hl1 with
            ⟨hsub_h, hpad_eq, _, _, _⟩
          have hmuertos : ∀ x ∈ nodo1.hijos, x ∉ claves st1 :=
            fun x hx => hdead x (hsub_h x hx)
          have hlook4 : ∀ k, lookupN (limpiarHomologos (borrarReg
              (nodo1.padres.foldl (fun s2 pid =>
                if (lookupN s2 pid).isSome then
                  modifyReg s2 pid (fun p =>
                    { p with hijos := p.hijos.filter (fun h2 => h2 != id) })
                else s2) st1) id) nodo1.homologos id) k
              = if k = id then none
                else (lookupN st1 k).map (fun n =>
                  let n2 := if k ∈ nodo1.padres then
                      { n with hijos := n.hijos.filter (fun h2 => h2 != id) }
                    else n
                  if k ∈ nodo1.homologos then
                    { n2 with homologos := n2.homologos.erase id }
                  else n2) := by
            intro k
            rw [lookupN_limpiarHomologos, lookupN_borrarReg]
            by_cases hk : k = id
            · rw [if_pos hk, if_pos hk]
              rfl
            · rw [if_neg hk, if_neg hk, lookupN_quitarHijo]
              by_cases hkp : k ∈ nodo1.padres
              · rw [if_pos hkp]
                cases lookupN st1 k with
                | none => rfl
                | some m =>
                  show some _ = some _
                  congr 1
                  simp only [if_pos hkp]
              · rw [if_neg hkp]
                cases lookupN st1 k with
                | none => rfl
                | some m =>
                  show some _ = some _
                  congr 1
                  simp only [if_neg hkp]
          have hclaves4 : claves (limpiarHomologos (borrarReg
              (nodo1.padres.foldl (fun s2 pid =>
                if (lookupN s2 pid).isSome then
                  modifyReg s2 pid (fun p =>
                    { p with hijos := p.hijos.filter (fun h2 => h2 != id) })
                else s2) st1) id) nodo1.homologos id)
              = (claves st1).filter (fun x => x != id) := by
            rw [claves_limpiarHomologos, claves_borrarReg, claves_quitarHijo]
          have hnd4 : (claves (limpiarHomologos (borrarReg
              (nodo1.padres.foldl (fun s2 pid =>
                if (lookupN s2 pid).isSome then
                  modifyReg s2 pid (fun p =>
                    { p with hijos := p.hijos.filter (fun h2 => h2 != id) })
                else s2) st1) id) nodo1.homologos id)).Nodup := by
            rw [hclaves4]
            exact hbf1.clavesNodup.filter _
          have hsig4 : (limpiarHomologos (borrarReg
              (nodo1.padres.foldl (fun s2 pid =>
                if (lookupN s2 pid).isSome then
                  modifyReg s2 pid (fun p =>
                    { p with hijos := p.hijos.filter (fun h2 => h2 != id) })
                else s2) st1) id) nodo1.homologos id).siguiente_id
              = st1.siguiente_id := by
            show (nodo1.padres.foldl _ st1).siguiente_id = st1.siguiente_id
            rw [siguiente_quitarHijo]
          have hclasif : ∀ q : Nat × Nodo, q ∈ (limpiarHomologos (borrarReg
              (nodo1.padres.foldl (fun s2 pid =>
                if (lookupN s2 pid).isSome then
                  modifyReg s2 pid (fun p =>
                    { p with hijos := p.hijos.filter (fun h2 => h2 != id) })
                else s2) st1) id) nodo1.homologos id).nodos →
              ¬ q.1 = id ∧ ∃ m, lookupN st1 q.1 = some m ∧
                q.2.padres = m.padres ∧ q.2.nombre = m.nombre ∧
                q.2.id = m.id ∧
                q.2.restricciones_heredadas = m.restricciones_heredadas ∧
                q.2.restricciones_propias = m.restricciones_propias ∧
                q.2.hijos = (if q.1 ∈ nodo1.padres then
                  m.hijos.filter (fun h2 => h2 != id) else m.hijos) ∧
                q.2.homologos = (if q.1 ∈ nodo1.homologos then
                  m.homologos.erase id else m.homologos) := by
            intro q hq
            have hlq := lookupN_of_mem hnd4 hq
            rw [hlook4 q.1] at hlq
            by_cases hk : q.1 = id
            · rw [if_pos hk] at hlq
              cases hlq
            · rw [if_neg hk] at hlq
              refine ⟨hk, ?_⟩
              cases hm : lookupN st1 q.1 with
              | none => rw [hm] at hlq; cases hlq
              | some m =>
                rw [hm] at hlq
                have hq2 := Option.some.inj hlq
                refine ⟨m, rfl, ?_, ?_, ?_, ?_, ?_, ?_, ?_⟩ <;>
                  · rw [← hq2]
                    by_cases h1 : q.1 ∈ nodo1.padres <;>
                      by_cases h2 : q.1 ∈ nodo1.homologos <;>
                        simp [h1, h2]
          have hIdNoHijo : ∀ {k : Nat} {m : Nodo}, lookupN st1 k = some m →
              k ∉ nodo1.padres → id ∉ m.hijos := by
            intro k m hm hkp hidm
            rcases hbf1.hijosBidir (k, m) (lookupN_mem hm) id hidm with
              ⟨m2, hm2, hpad2⟩
            rw [hl1] at hm2
            cases hm2
            exact hkp hpad2
          refine ⟨?_, ?_, ?_, fun hb => Bool.noConfusion hb, ?_⟩
          · refine ⟨hnd4, ?_, ?_, ?_, ?_, ?_, ?_, ?_⟩
            · intro q hq
              rcases hclasif q hq with ⟨_, m, hm, _, _, hid2, _, _, _, _⟩
              rw [hid2]
              exact hbf1.idCoincide (q.1, m) (lookupN_mem hm)
            · intro q hq
              have : q.1 ∈ claves st1 := by
                have h3 : q.1 ∈ (claves st1).filter (fun x => x != id) := by
                  rw [← hclaves4]
                  exact List.mem_map_of_mem _ hq
                exact List.mem_of_mem_filter h3
              rcases List.mem_map.mp this with ⟨r, hr, hr1⟩
              rw [hsig4, ← hr1]
              exact hbf1.clavesLt r hr
            · intro q hq x hx
              rcases hclasif q hq with ⟨hkid, m, hm, _, _, _, _, _, hhij, _⟩
              rw [hhij] at hx
              have hx2 : x ∈ m.hijos ∧ ¬ x = id := by
                by_cases h1 : q.1 ∈ nodo1.padres
                · rw [if_pos h1] at hx
                  have := List.mem_filter.mp hx
                  exact ⟨this.1, by simpa using this.2⟩
                · rw [if_neg h1] at hx
                  refine ⟨hx, ?_⟩
                  intro hxe
                  exact hIdNoHijo hm h1 (hxe ▸ hx)
              rcases hbf1.hijosBidir (q.1, m) (lookupN_mem hm) x hx2.1 with
                ⟨mx, hmx, hpadx⟩
              rw [hlook4 x, if_neg hx2.2, hmx]
              refine ⟨_, rfl, ?_⟩
              show q.1 ∈ (let n2 := if x ∈ nodo1.padres then
                  { mx with hijos := mx.hijos.filter (fun h2 => h2 != id) }
                else mx
                if x ∈ nodo1.homologos then
                  { n2 with homologos := n2.homologos.erase id }
                else n2).padres
              by_cases h1 : x ∈ nodo1.padres <;>
                by_cases h3 : x ∈ nodo1.homologos <;>
                  simp [h1, h3, hpadx]
            · intro q hq x hx
              rcases hclasif q hq with ⟨hkid, m, hm, hpadq, _, _, _, _, _, _⟩
              rw [hpadq] at hx
              rcases hbf1.padresBidir (q.1, m) (lookupN_mem hm) x hx with
                ⟨mx, hmx, hhijx⟩
              have hxid : ¬ x = id := by
                intro hxe
                subst hxe
                rw [hl1] at hmx
                cases hmx
                exact hmuertos q.1 hhijx
                  (lookupN_isSome_iff.mp (by rw [hm]; rfl))
              rw [hlook4 x, if_neg hxid, hmx]
              refine ⟨_, rfl, ?_⟩
              show q.1 ∈ (let n2 := if x ∈ nodo1.padres then
                  { mx with hijos := mx.hijos.filter (fun h2 => h2 != id) }
                else mx
                if x ∈ nodo1.homologos then
                  { n2 with homologos := n2.homologos.erase id }
                else n2).hijos
              have hqin : q.1 ∈ mx.hijos.filter (fun h2 => h2 != id) :=
                List.mem_filter.mpr ⟨hhijx, by simpa using hkid⟩
              by_cases h1 : x ∈ nodo1.padres <;>
                by_cases h3 : x ∈ nodo1.homologos <;>
                  simp [h1, h3, hhijx, hqin]
            · intro q hq
              rcases hclasif q hq with ⟨_, m, hm, _, _, _, _, _, hhij, _⟩
              rw [hhij]
              by_cases h1 : q.1 ∈ nodo1.padres
              · rw [if_pos h1]
                exact (hbf1.hijosNodup (q.1, m) (lookupN_mem hm)).filter _
              · rw [if_neg h1]
                exact hbf1.hijosNodup (q.1, m) (lookupN_mem hm)
            · intro q hq
              rcases hclasif q hq with ⟨_, m, hm, hpadq, _, _, _, _, _, _⟩
              rw [hpadq]
              exact hbf1.padresNodup (q.1, m) (lookupN_mem hm)
            · apply aciclico_subrel (R := Arista st1) ?_ hbf1.aciclico
              rintro a b2 ⟨m, hm, hb⟩
              rw [hlook4 a] at hm
              by_cases ha : a = id
              · rw [if_pos ha] at hm
                cases hm
              · rw [if_neg ha] at hm
                cases hma : lookupN st1 a with
                | none => rw [hma] at hm; cases hm
                | some m0 =>
                  rw [hma] at hm
                  have hmm := Option.some.inj hm
                  refine ⟨m0, hma, ?_⟩
                  rw [← hmm] at hb
                  revert hb
                  show b2 ∈ (let n2 := if a ∈ nodo1.padres then
                      { m0 with hijos := m0.hijos.filter (fun h2 => h2 != id) }
                    else m0
                    if a ∈ nodo1.homologos then
                      { n2 with homologos := n2.homologos.erase id }
                    else n2).hijos → b2 ∈ m0.hijos
                  intro hb
                  by_cases h1 : a ∈ nodo1.padres <;>
                    by_cases h3 : a ∈ nodo1.homologos <;>
                      simp [h1, h3] at hb <;>
                        first
                          | exact hb
                          | exact hb.1
          · refine elimInv_trans hinv01 ⟨?_, ?_, ?_⟩
            · intro k hk
              rw [hclaves4] at hk
              exact List.mem_of_mem_filter hk
            · exact hsig4
            · intro k nk nk' hk1 hk4
              rw [hlook4 k] at hk4
              by_cases hk : k = id
              · rw [if_pos hk] at hk4
                cases hk4
              · rw [if_neg hk, hk1] at hk4
                have hq2 := Option.some.inj hk4
                refine ⟨?_, ?_, ?_, ?_, ?_⟩
                · intro x hx
                  rw [← hq2] at hx
                  revert hx
                  by_cases h1 : k ∈ nodo1.padres <;>
                    by_cases h3 : k ∈ nodo1.homologos <;>
                      · intro hx
                        simp [h1, h3] at hx
                        first
                          | exact hx
                          | exact hx.1
                all_goals
                  rw [← hq2]
                  by_cases h1 : k ∈ nodo1.padres <;>
                    by_cases h3 : k ∈ nodo1.homologos <;>
                      simp [h1, h3]
          · intro _
            rw [hclaves4]
            intro hk
            have := List.of_mem_filter hk
            simp at this
          · intro hhe
            have hhe1 : HomologosExactos st1 := hheL hhe
            constructor
            · intro q hq x hx
              rcases hclasif q hq with ⟨hkid, m, hm, _, _, _, _, _, _, hhomq⟩
              have hxm : x ∈ m.homologos ∧ ¬ x = id := by
                rw [hhomq] at hx
                by_cases hqh : q.1 ∈ nodo1.homologos
                · rw [if_pos hqh] at hx
                  rcases Finset.mem_erase.mp hx with ⟨hne, hxm⟩
                  exact ⟨hxm, hne⟩
                · rw [if_neg hqh] at hx
                  refine ⟨hx, ?_⟩
                  intro hxe
                  rw [hxe] at hx
                  have h1 := (hhe1.2 (q.1, m) (lookupN_mem hm)
                    (id, nodo1) (lookupN_mem hl1)).mp hx
                  have h2 := (hhe1.2 (id, nodo1) (lookupN_mem hl1)
                    (q.1, m) (lookupN_mem hm)).mpr ⟨h1.1.symm, Ne.symm h1.2⟩
                  exact hqh h2
              have hreg1 : (lookupN st1 x).isSome :=
                hhe1.1 (q.1, m) (lookupN_mem hm) x hxm.1
              rw [hlook4 x, if_neg hxm.2]
              rcases Option.isSome_iff_exists.mp hreg1 with ⟨mx, hmx⟩
              rw [hmx]
              rfl
            · intro p hp q hq
              rcases hclasif p hp with ⟨hpid, m, hm, _, hnomp, _, _, _, _, hhomp⟩
              rcases hclasif q hq with ⟨hqid, mq, hmq, _, hnomq, _, _, _, _, _⟩
              rw [hnomp, hnomq, hhomp]
              have base := hhe1.2 (p.1, m) (lookupN_mem hm)
                (q.1, mq) (lookupN_mem hmq)
              by_cases hph : p.1 ∈ nodo1.homologos
              · rw [if_pos hph, Finset.mem_erase]
                constructor
                · rintro ⟨-, hmem⟩
                  exact base.mp hmem
                · intro hc2
                  exact ⟨hqid, base.mpr hc2⟩
              · rw [if_neg hph]
                exact base

/-- Deletion preserves well-formedness (packaged form of the induction). -/
theorem buenaForma_eliminar {fuel : Nat} {st st' : Diagrama} {id : Nat}
    {b : Bool} (h : eliminarNodo fuel st id = some (st', b))
    (hbf : BuenaForma st) : BuenaForma st' :=
  (eliminar_buenaForma_aux fuel st id st' b hbf h).1

/-- A successful deletion unregisters the deleted id. -/
theorem eliminar_borra_clave {fuel : Nat} {st st' : Diagrama} {id : Nat}
    (h : eliminarNodo fuel st id = some (st', true)) (hbf : BuenaForma st) :
    id ∉ claves st' :=
  (eliminar_buenaForma_aux fuel st id st' true hbf h).2.2.1 rfl

/-- Deletion only shrinks the registry: frame conditions on survivors. -/
theorem eliminar_elimInv {fuel : Nat} {st st' : Diagrama} {id : Nat}
    {b : Bool} (h : eliminarNodo fuel st id = some (st', b))
    (hbf : BuenaForma st) : ElimInv st st' :=
  (eliminar_buenaForma_aux fuel st id st' b hbf h).2.1

/-- A failing deletion leaves the state unchanged and means the id was
absent. -/
theorem eliminar_falla {fuel : Nat} {st st' : Diagrama} {id : Nat}
    (h : eliminarNodo fuel st id = some (st', false)) (hbf : BuenaForma st) :
    st' = st ∧ lookupN st id = none :=
  (eliminar_buenaForma_aux fuel st id st' false hbf h).2.2.2.1 rfl

/-- Deletion preserves exact homolog bookkeeping. -/
theorem homologosExactos_eliminar {fuel : Nat} {st st' : Diagrama} {id : Nat}
    {b : Bool} (h : eliminarNodo fuel st id = some (st', b))
    (hbf : BuenaForma st) (hhe : HomologosExactos st) : HomologosExactos st' :=
  (eliminar_buenaForma_aux fuel st id st' b hbf h).2.2.2.2 hhe

end EliminarBuenaForma

section Homologos

/-- Exact homolog bookkeeping only depends on the keys and on each node's
name and homolog set. -/
theorem homologosExactos_transfer {s s' : Diagrama}
    (hnd' : (claves s').Nodup)
    (hk : ∀ k, k ∈ claves s' ↔ k ∈ claves s)
    (hh : ∀ k n', lookupN s' k = some n' → ∃ n, lookupN s k = some n ∧
      n'.nombre = n.nombre ∧ n'.homologos = n.homologos)
    (he : HomologosExactos s) : HomologosExactos s' := by
  constructor
  · intro p hp x hx
    have hlp := lookupN_of_mem hnd' hp
    rcases hh p.1 p.2 hlp with ⟨n, hn, _, hhom⟩
    rw [hhom] at hx
    have h2 := he.1 (p.1, n) (lookupN_mem hn) x hx
    rw [lookupN_isSome_iff] at h2 ⊢
    exact (hk x).mpr h2
  · intro p hp q hq
    have hlp := lookupN_of_mem hnd' hp
    have hlq := lookupN_of_mem hnd' hq
    rcases hh p.1 p.2 hlp with ⟨n, hn, hnom, hhom⟩
    rcases hh q.1 q.2 hlq with ⟨m2, hm2, hnomq, _⟩
    rw [hhom, hnom, hnomq]
    exact he.2 (p.1, n) (lookupN_mem hn) (q.1, m2) (lookupN_mem hm2)

/-- The name/homolog projection is preserved by anything that keeps the
`sinCapas` view of every node (such as constraint propagation). -/
theorem hom_de_sinCapas {o1 o2 : Option Nodo}
    (h : o1.map Nodo.sinCapas = o2.map Nodo.sinCapas) {n' : Nodo}
    (h1 : o1 = some n') :
    ∃ n, o2 = some n ∧ n'.nombre = n.nombre ∧ n'.homologos = n.homologos := by
  rw [h1] at h
  cases h2 : o2 with
  | none => rw [h2] at h; cases h
  | some n =>
    rw [h2] at h
    have h3 := Option.some.inj h
    refine ⟨n, rfl, ?_, ?_⟩
    · have t := congrArg Nodo.nombre h3
      exact t
    · have t := congrArg Nodo.homologos h3
      exact t

/-- The name/homolog projection is preserved by a registry update that
keeps both fields. -/
theorem hom_de_modifyReg {st : Diagrama} {i : Nat} {f : Nodo → Nodo}
    {k : Nat} {n' : Nodo} (h : lookupN (modifyReg st i f) k = some n')
    (hf : ∀ n, (f n).nombre = n.nombre ∧ (f n).homologos = n.homologos) :
    ∃ n, lookupN st k = some n ∧ n'.nombre = n.nombre ∧
      n'.homologos = n.homologos := by
  rw [lookupN_modifyReg] at h
  by_cases hk : k = i
  · rw [if_pos hk] at h
    cases hl : lookupN st k with
    | none => rw [hl] at h; cases h
    | some n =>
      rw [hl] at h
      have h2 := Option.some.inj h
      rw [← h2]
      exact ⟨n, rfl, (hf n).1, (hf n).2⟩
  · rw [if_neg hk] at h
    exact ⟨n', h, rfl, rfl⟩

/-- Linking never touches names or homolog sets. -/
theorem homologosExactos_enlazar {fuel : Nat} {st st' : Diagrama}
    {p c : Nat} {b : Bool}
    (h : enlazarNodos fuel st p c = some (st', b)) (hbf : BuenaForma st)
    (hhe : HomologosExactos st) : HomologosExactos st' := by
  rcases enlazarNodos_spec fuel st p c st' b h with
    ⟨_, padre, hijo, hp, hc, he, hcc, hpp⟩ | ⟨_, hst, _⟩
  swap
  · rw [hst]
    exact hhe
  have hsc := propagar_soloCrecen fuel _ c st' hpp
  have hbf' : BuenaForma st' := buenaForma_enlazar h hbf
  refine homologosExactos_transfer hbf'.clavesNodup ?_ ?_ hhe
  · intro k
    rw [hsc.2.2.1, claves_modifyReg, claves_modifyReg, claves_modifyReg]
  · intro k n' hn'
    rcases hom_de_sinCapas (hsc.1 k) hn' with ⟨n3, hn3, hnom3, hhom3⟩
    rcases hom_de_modifyReg hn3 (fun n => ⟨rfl, rfl⟩) with ⟨n2, hn2, hnom2, hhom2⟩
    rcases hom_de_modifyReg hn2 (fun n => ⟨rfl, rfl⟩) with ⟨n1, hn1, hnom1, hhom1⟩
    rcases hom_de_modifyReg hn1 (fun n => ⟨rfl, rfl⟩) with ⟨n0, hn0, hnom0, hhom0⟩
    exact ⟨n0, hn0, by rw [hnom3, hnom2, hnom1, hnom0],
      by rw [hhom3, hhom2, hhom1, hhom0]⟩

/-- Unlinking never touches names or homolog sets. -/
theorem homologosExactos_desenlazar {st st' : Diagrama} {p c : Nat}
    (h : eliminarEnlace st p c = some st') (hbf : BuenaForma st)
    (hhe : HomologosExactos st) : HomologosExactos st' := by
  rcases eliminarEnlace_spec h hbf with
    ⟨padre, hijo, hp, hc, ⟨_, hst⟩ | ⟨he2, hpc, hst⟩⟩
  · rw [hst]
    exact hhe
  have hbf' : BuenaForma st' := buenaForma_desenlazar h hbf
  refine homologosExactos_transfer hbf'.clavesNodup ?_ ?_ hhe
  · intro k
    rw [hst, claves_modifyReg, claves_modifyReg]
  · intro k n' hn'
    rw [hst] at hn'
    rcases hom_de_modifyReg hn' (fun n => ⟨rfl, rfl⟩) with ⟨n1, hn1, hnom1, hhom1⟩
    rcases hom_de_modifyReg hn1 (fun n => ⟨rfl, rfl⟩) with ⟨n0, hn0, hnom0, hhom0⟩
    exact ⟨n0, hn0, by rw [hnom1, hnom0], by rw [hhom1, hhom0]⟩

/-- Content updates never touch names or homolog sets. -/
theorem homologosExactos_contenido {st st' : Diagrama} {id : Nat}
    {cont git : Option String}
    (h : actualizarContenido st id cont git = some st')
    (hbf : BuenaForma st) (hhe : HomologosExactos st) :
    HomologosExactos st' := by
  unfold actualizarContenido at h
  by_cases hi : (lookupN st id).isSome
  · rw [if_pos hi] at h
    cases h
    refine homologosExactos_transfer ?_ ?_ ?_ hhe
    · rw [claves_modifyReg]
      exact hbf.clavesNodup
    · intro k
      rw [claves_modifyReg]
    · intro k n' hn'
      exact hom_de_modifyReg hn' (fun n => ⟨rfl, rfl⟩)
  · rw [if_neg hi] at h
    cases h

/-- `actualizarHomologos` run for a freshly registered node (empty homolog
set, not yet listed by anyone) restores exact homolog bookkeeping. -/
theorem homologosExactos_actHom_fresco {st : Diagrama} {i : Nat} {nm : String}
    {ni : Nodo}
    (hnd : (claves st).Nodup)
    (hid : ∀ p ∈ st.nodos, p.2.id = p.1)
    (hi : lookupN st i = some ni) (hhom : ni.homologos = ∅)
    (hnom : ni.nombre = nm)
    (hfresh : ∀ p ∈ st.nodos, i ∉ p.2.homologos)
    (hreg : ∀ p ∈ st.nodos, ∀ x ∈ p.2.homologos, (lookupN st x).isSome)
    (hex : ∀ p ∈ st.nodos, ∀ q ∈ st.nodos, ¬ p.1 = i → ¬ q.1 = i →
      (q.1 ∈ p.2.homologos ↔ (p.2.nombre = q.2.nombre ∧ ¬ p.1 = q.1))) :
    HomologosExactos (actualizarHomologos st i nm) := by
  have hisome : (lookupN st i).isSome := by rw [hi]; rfl
  have hHS : ∀ x, x ∈ ((st.nodos.filter
        (fun p => p.2.nombre == nm && p.2.id != i)).map
        (fun p => p.2.id)).toFinset
      ↔ ∃ n, lookupN st x = some n ∧ n.nombre = nm ∧ ¬ x = i := by
    intro x
    rw [List.mem_toFinset]
    constructor
    · intro hx2
      rcases List.mem_map.mp hx2 with ⟨p, hpmem, hpx⟩
      have hpf := List.mem_filter.mp hpmem
      have hcond := hpf.2
      simp only [Bool.and_eq_true, beq_iff_eq, bne_iff_ne, ne_eq] at hcond
      have hkey := hid p hpf.1
      have hlp := lookupN_of_mem hnd hpf.1
      refine ⟨p.2, ?_, hcond.1, ?_⟩
      · rw [← hpx, hkey]
        exact hlp
      · rw [← hpx]
        exact hcond.2
    · rintro ⟨n, hn, hnm2, hxi⟩
      apply List.mem_map.mpr
      refine ⟨(x, n), ?_, ?_⟩
      · apply List.mem_filter.mpr
        refine ⟨lookupN_mem hn, ?_⟩
        have hidn : n.id = x := hid (x, n) (lookupN_mem hn)
        simp [hnm2, hidn, hxi]
      · exact hid (x, n) (lookupN_mem hn)
  have hndA : (claves (actualizarHomologos st i nm)).Nodup := by
    rw [claves_actHom]
    exact hnd
  have hclasA : ∀ q : Nat × Nodo, q ∈ (actualizarHomologos st i nm).nodos →
      (q.1 = i ∧ q.2.nombre = ni.nombre ∧
        ∀ x, x ∈ q.2.homologos ↔
          ∃ n, lookupN st x = some n ∧ n.nombre = nm ∧ ¬ x = i) ∨
      (¬ q.1 = i ∧ ∃ n, lookupN st q.1 = some n ∧ q.2.nombre = n.nombre ∧
        q.2.homologos
          = (if n.nombre = nm then insert i n.homologos else n.homologos)) := by
    intro q hq
    have hlq := lookupN_of_mem hndA hq
    rw [lookupN_actHom_general, if_pos hisome] at hlq
    by_cases hqi : q.1 = i
    · rw [if_pos hqi, hqi, hi] at hlq
      have hni_id : ni.id = i := hid (i, ni) (lookupN_mem hi)
      have hcond : (ni.nombre == nm && ni.id != i) = false := by
        simp [hni_id]
      have haddni : (if (ni.nombre == nm && ni.id != i) = true then
          { ni with homologos := insert i ni.homologos } else ni) = ni := by
        rw [hcond]
        simp
      have hlq2 : some { (if (ni.nombre == nm && ni.id != i) = true then
            { ni with homologos := insert i ni.homologos } else ni) with
          homologos := ((st.nodos.filter
            (fun p => p.2.nombre == nm && p.2.id != i)).map
            (fun p => p.2.id)).toFinset } = some q.2 := hlq
      rw [haddni] at hlq2
      have hq2 := Option.some.inj hlq2
      refine Or.inl ⟨hqi, ?_, ?_⟩
      · rw [← hq2]
      · intro x
        rw [← hq2]
        exact hHS x
    · rw [if_neg hqi] at hlq
      cases hl0 : lookupN st q.1 with
      | none => rw [hl0] at hlq; cases hlq
      | some n0 =>
        rw [hl0] at hlq
        have hq2 : (if (n0.nombre == nm && n0.id != i) = true then
            { n0 with homologos := insert i n0.homologos } else n0) = q.2 :=
          Option.some.inj hlq
        have hn0id : n0.id = q.1 := hid (q.1, n0) (lookupN_mem hl0)
        refine Or.inr ⟨hqi, n0, rfl, ?_⟩
        by_cases hnmn : n0.nombre = nm
        · have hcondt : (n0.nombre == nm && n0.id != i) = true := by
            simp [hnmn, hn0id, hqi]
          rw [hcondt, if_pos rfl] at hq2
          refine ⟨?_, ?_⟩
          · rw [← hq2]
          · rw [← hq2, if_pos hnmn]
        · have hcondf : (n0.nombre == nm && n0.id != i) = false := by
            simp [hnmn]
          rw [hcondf, if_neg Bool.false_ne_true] at hq2
          refine ⟨?_, ?_⟩
          · rw [← hq2]
          · rw [← hq2, if_neg hnmn]
  constructor
  · intro P hP x hx
    have hiso : (lookupN (actualizarHomologos st i nm) x).isSome
        ↔ (lookupN st x).isSome := by
      rw [lookupN_isSome_iff, lookupN_isSome_iff, claves_actHom]
    rw [hiso]
    rcases hclasA P hP with ⟨hPi, _, hPhomiff⟩ | ⟨hPi, n, hn, hPnom, hPhom⟩
    · rcases (hPhomiff x).mp hx with ⟨n0, hn0, -, -⟩
      rw [hn0]
      rfl
    · rw [hPhom] at hx
      by_cases hnmn : n.nombre = nm
      · rw [if_pos hnmn] at hx
        rcases Finset.mem_insert.mp hx with hx2 | hx2
        · rw [hx2, hi]
          rfl
        · exact hreg (P.1, n) (lookupN_mem hn) x hx2
      · rw [if_neg hnmn] at hx
        exact hreg (P.1, n) (lookupN_mem hn) x hx
  · intro P hP Q hQ
    rcases hclasA P hP with ⟨hPi, hPnomni, hPhomiff⟩ | ⟨hPi, n, hn, hPnom, hPhom⟩
    · rcases hclasA Q hQ with ⟨hQi, hQnomni, _⟩ | ⟨hQi, m, hm2, hQnom, hQhom⟩
      · refine iff_of_false ?_ ?_
        · intro hmem
          rcases (hPhomiff Q.1).mp hmem with ⟨n0, hn0, hn0nm, hne⟩
          exact hne hQi
        · rintro ⟨-, hne⟩
          exact hne (by rw [hPi, hQi])
      · constructor
        · intro hmem
          rcases (hPhomiff Q.1).mp hmem with ⟨m0, hm0, hm0nm, -⟩
          rw [hm2] at hm0
          have hm0e := Option.some.inj hm0
          refine ⟨?_, ?_⟩
          · have hmnm : m.nombre = nm := by rw [hm0e]; exact hm0nm
            rw [hPnomni, hnom, hQnom]
            exact hmnm.symm
          · rw [hPi]
            intro he2
            exact hQi he2.symm
        · rintro ⟨hnme, -⟩
          apply (hPhomiff Q.1).mpr
          refine ⟨m, hm2, ?_, hQi⟩
          rw [← hQnom, ← hnme, hPnomni, hnom]
    · rcases hclasA Q hQ with ⟨hQi, hQnomni, _⟩ | ⟨hQi, m, hm2, hQnom, hQhom⟩
      · rw [hQi, hPhom, hPnom, hQnomni, hnom]
        have hfr : i ∉ n.homologos := hfresh (P.1, n) (lookupN_mem hn)
        by_cases hnmn : n.nombre = nm
        · rw [if_pos hnmn]
          exact iff_of_true (Finset.mem_insert_self i _) ⟨hnmn, hPi⟩
        · rw [if_neg hnmn]
          exact iff_of_false hfr (fun hcc => hnmn hcc.1)
      · rw [hPhom, hPnom, hQnom]
        have base := hex (P.1, n) (lookupN_mem hn) (Q.1, m) (lookupN_mem hm2)
          hPi hQi
        by_cases hnmn : n.nombre = nm
        · rw [if_pos hnmn, Finset.mem_insert]
          constructor
          · rintro (hq1 | hq1)
            · exact absurd hq1 hQi
            · exact base.mp hq1
          · intro h2
            exact Or.inr (base.mpr h2)
        · rw [if_neg hnmn]
          exact base

/-- Appending a fresh node (after an optional child-list edit of its
parent) and refreshing its homologs preserves exact bookkeeping. -/
theorem homologosExactos_extiende {st stM : Diagrama} {ni : Nodo} {nm : String}
    (hbf : BuenaForma st) (hhe : HomologosExactos st)
    (hMk : claves stM = claves st)
    (hMm : ∀ p ∈ stM.nodos, ∃ p0 ∈ st.nodos, p.1 = p0.1 ∧ p.2.id = p0.2.id ∧
      p.2.nombre = p0.2.nombre ∧ p.2.homologos = p0.2.homologos)
    (hni : ni.id = st.siguiente_id) (hnih : ni.homologos = ∅)
    (hnin : ni.nombre = nm) :
    HomologosExactos (actualizarHomologos { stM with nodos := stM.nodos ++ [(st.siguiente_id, ni)], siguiente_id := st.siguiente_id + 1 } st.siguiente_id nm) := by
  have hfreshK : st.siguiente_id ∉ claves st := fresco_no_en_claves hbf
  have hfreshM : st.siguiente_id ∉ claves stM := by
    rw [hMk]
    exact hfreshK
  have hnd2 : (claves { stM with nodos := stM.nodos ++ [(st.siguiente_id, ni)], siguiente_id := st.siguiente_id + 1 }).Nodup := by
    rw [claves_extiende, hMk, List.nodup_append]
    refine ⟨hbf.clavesNodup, List.nodup_singleton _, ?_⟩
    intro a ha hb
    rw [List.mem_singleton] at hb
    rw [hb] at ha
    exact hfreshK ha
  have hmem2 : ∀ p : Nat × Nodo, p ∈ ({ stM with nodos := stM.nodos ++ [(st.siguiente_id, ni)], siguiente_id := st.siguiente_id + 1 } : Diagrama).nodos →
      p ∈ stM.nodos ∨ p = (st.siguiente_id, ni) := by
    intro p hp
    have hp2 : p ∈ stM.nodos ++ [(st.siguiente_id, ni)] := hp
    rcases List.mem_append.mp hp2 with h1 | h1
    · exact Or.inl h1
    · rw [List.mem_singleton] at h1
      exact Or.inr h1
  refine homologosExactos_actHom_fresco hnd2 ?_ ?_ hnih hnin ?_ ?_ ?_
  · intro p hp
    rcases hmem2 p hp with h1 | h1
    · rcases hMm p h1 with ⟨p0, hp0, hk, hid0, _, _⟩
      rw [hid0, hbf.idCoincide p0 hp0]
      exact hk.symm
    · rw [h1]
      exact hni
  · rw [lookupN_extiende_spec _ _ _ hfreshM, if_pos rfl]
  · intro p hp
    rcases hmem2 p hp with h1 | h1
    · rcases hMm p h1 with ⟨p0, hp0, _, _, _, hhom0⟩
      rw [hhom0]
      intro hmem
      have h2 := hhe.1 p0 hp0 _ hmem
      rw [lookupN_isSome_iff] at h2
      exact hfreshK h2
    · rw [h1]
      show st.siguiente_id ∉ ni.homologos
      rw [hnih]
      exact Finset.not_mem_empty _
  · intro p hp x hx
    rcases hmem2 p hp with h1 | h1
    · rcases hMm p h1 with ⟨p0, hp0, _, _, _, hhom0⟩
      rw [hhom0] at hx
      have h2 := hhe.1 p0 hp0 x hx
      rw [lookupN_extiende_spec _ _ _ hfreshM]
      by_cases hxi : x = st.siguiente_id
      · rw [if_pos hxi]
        rfl
      · rw [if_neg hxi]
        rw [lookupN_isSome_iff, hMk, ← lookupN_isSome_iff]
        exact h2
    · have hx3 := hx
      rw [h1] at hx3
      have hx2 : x ∈ ni.homologos := hx3
      rw [hnih] at hx2
      exact absurd hx2 (Finset.not_mem_empty x)
  · intro p hp q hq hpi hqi
    rcases hmem2 p hp with h1 | h1
    swap
    · exact absurd (by rw [h1]) hpi
    rcases hmem2 q hq with h2 | h2
    swap
    · exact absurd (by rw [h2]) hqi
    rcases hMm p h1 with ⟨p0, hp0, hk1, _, hnom1, hhom1⟩
    rcases hMm q h2 with ⟨q0, hq0, hk2, _, hnom2, hhom2⟩
    rw [hhom1, hnom1, hnom2, hk1, hk2]
    exact hhe.2 p0 hp0 q0 hq0

/-- Members of the registry after an in-place update either were mapped by
the update or are untouched. -/
theorem mem_modifyReg_clasif {st : Diagrama} {pid : Nat} {f : Nodo → Nodo}
    {p : Nat × Nodo} (hp : p ∈ (modifyReg st pid f).nodos) :
    ∃ p0 ∈ st.nodos, p.1 = p0.1 ∧
      ((p.2 = f p0.2 ∧ p0.1 = pid) ∨ p.2 = p0.2) := by
  rcases List.mem_map.mp hp with ⟨p0, hp0, hpe⟩
  by_cases hq : (p0.1 == pid) = true
  · refine ⟨p0, hp0, ?_, Or.inl ⟨?_, by simpa using hq⟩⟩ <;>
      rw [← hpe] <;> simp [hq]
  · refine ⟨p0, hp0, ?_, Or.inr ?_⟩ <;> rw [← hpe] <;> simp [hq]

/-- Adding a node preserves exact homolog bookkeeping. -/
theorem homologosExactos_agregar {st : Diagrama} (nombre : String)
    (id_padre : Option Nat) (num_hijo : Option Int) (hbf : BuenaForma st)
    (hhe : HomologosExactos st) :
    HomologosExactos (anadirNodo st nombre id_padre num_hijo).1 := by
  unfold anadirNodo
  cases id_padre with
  | none =>
    refine homologosExactos_extiende hbf hhe rfl
      (fun p hp => ⟨p, hp, rfl, rfl, rfl, rfl⟩) ?_ ?_ ?_ <;> rfl
  | some pid =>
    cases hpp : lookupN st pid with
    | none =>
      simp only [hpp]
      refine homologosExactos_extiende hbf hhe rfl
        (fun p hp => ⟨p, hp, rfl, rfl, rfl, rfl⟩) ?_ ?_ ?_ <;> rfl
    | some padre =>
      simp only [hpp]
      refine homologosExactos_extiende hbf hhe (claves_modifyReg st pid _)
        ?_ rfl rfl rfl
      intro p hp
      rcases mem_modifyReg_clasif hp with ⟨p0, hp0, hk, ⟨h2, -⟩ | h2⟩
      · exact ⟨p0, hp0, hk, by rw [h2], by rw [h2], by rw [h2]⟩
      · exact ⟨p0, hp0, hk, by rw [h2], by rw [h2], by rw [h2]⟩

/-- A fresh diagram has exact homolog bookkeeping. -/
theorem homologosExactos_inicial (nombre : String) :
    HomologosExactos (crearDiagrama nombre) := by
  constructor
  · intro p hp x hx
    simp only [crearDiagrama, List.mem_singleton] at hp
    rw [hp] at hx
    have hx2 : x ∈ (∅ : Finset Nat) := hx
    exact absurd hx2 (Finset.not_mem_empty x)
  · intro p hp q hq
    simp only [crearDiagrama, List.mem_singleton] at hp hq
    rw [hp, hq]
    refine iff_of_false ?_ ?_
    · intro h2
      have hx2 : (1 : Nat) ∈ (∅ : Finset Nat) := h2
      exact absurd hx2 (Finset.not_mem_empty 1)
    · rintro ⟨-, hne⟩
      exact hne rfl

end Homologos

section Capas

/-- The `sinCapas` projection determines children, parents, own constraints
and name. -/
theorem nodo_de_sinCapas {o1 o2 : Option Nodo}
    (h : o1.map Nodo.sinCapas = o2.map Nodo.sinCapas) {n' : Nodo}
    (h1 : o1 = some n') :
    ∃ n, o2 = some n ∧ n'.hijos = n.hijos ∧ n'.padres = n.padres ∧
      n'.restricciones_propias = n.restricciones_propias ∧
      n'.nombre = n.nombre := by
  rw [h1] at h
  cases h2 : o2 with
  | none => rw [h2] at h; cases h
  | some n =>
    rw [h2] at h
    have h3 := Option.some.inj h
    refine ⟨n, rfl, ?_, ?_, ?_, ?_⟩
    · have t := congrArg Nodo.hijos h3
      exact t
    · have t := congrArg Nodo.padres h3
      exact t
    · have t := congrArg Nodo.restricciones_propias h3
      exact t
    · have t := congrArg Nodo.nombre h3
      exact t

/-- Constraint propagation does not change the edge relation. -/
theorem arista_iff_soloCrecen {s s' : Diagrama} (h : SoloCrecen s s') :
    ∀ a b, Arista s' a b ↔ Arista s a b := by
  intro a b
  constructor
  · rintro ⟨n, hn, hb⟩
    rcases nodo_de_sinCapas (h.1 a) hn with ⟨m, hm, hhij, _, _, _⟩
    exact ⟨m, hm, by rw [← hhij]; exact hb⟩
  · rintro ⟨n, hn, hb⟩
    rcases nodo_de_sinCapas (h.1 a).symm hn with ⟨m, hm, hhij, _, _, _⟩
    exact ⟨m, hm, by rw [← hhij]; exact hb⟩

theorem reach_iff_soloCrecen {s s' : Diagrama} (h : SoloCrecen s s')
    (v u : Nat) :
    Relation.ReflTransGen (Arista s') v u
      ↔ Relation.ReflTransGen (Arista s) v u :=
  ⟨Relation.ReflTransGen.mono (fun a b hab =>
      (arista_iff_soloCrecen h a b).mp hab),
   Relation.ReflTransGen.mono (fun a b hab =>
      (arista_iff_soloCrecen h a b).mpr hab)⟩

theorem aciclico_soloCrecen {s s' : Diagrama} (h : SoloCrecen s s')
    (hac : Aciclico s) : Aciclico s' :=
  aciclico_subrel (fun a b hab => (arista_iff_soloCrecen h a b).mp hab) hac

/-- Locality of `_propagarRestricciones`: nodes not reachable from the
start vertex are untouched. -/
theorem propagar_local : ∀ fuel : Nat, ∀ s v s',
    propagarRestricciones fuel s v = some s' →
    ∀ u, ¬ Relation.ReflTransGen (Arista s) v u →
    lookupN s' u = lookupN s u := by
  intro fuel
  induction fuel with
  | zero => intro s v s' h; cases h
  | succ f ih =>
    have hL : ∀ l s v s', (∀ x ∈ l, Arista s v x) →
        propagarLista f s v l = some s' →
        ∀ u, ¬ Relation.ReflTransGen (Arista s) v u →
        lookupN s' u = lookupN s u := by
      intro l
      induction l with
      | nil =>
        intro s v s' _ h u _
        rw [propagarLista_nil] at h
        cases h
        rfl
      | cons x t ihl =>
        intro s v s' hedge h u hnr
        rw [propagarLista_cons] at h
        cases hv : lookupN s v with
        | none =>
          rw [hv] at h
          have h2 : propagarLista f s v t = some s' := h
          exact ihl s v s' (fun y hy => hedge y (List.mem_cons_of_mem x hy))
            h2 u hnr
        | some nodoAct =>
          rw [hv] at h
          have h4 : (propagarRestricciones f (modifyReg s x (fun hn =>
              { hn with restricciones_heredadas :=
                  unionZip nodoAct.restricciones hn.restricciones_heredadas }))
              x).bind (fun s2 => propagarLista f s2 v t) = some s' := h
          generalize hM : modifyReg s x (fun hn =>
            { hn with restricciones_heredadas :=
                unionZip nodoAct.restricciones hn.restricciones_heredadas })
            = M at h4
          have hscm : SoloCrecen s M :=
            hM ▸ soloCrecen_merge s x nodoAct.restricciones
          cases hsub : propagarRestricciones f M x with
          | none => rw [hsub] at h4; cases h4
          | some s2 =>
            rw [hsub] at h4
            have h3 : propagarLista f s2 v t = some s' := h4
            have hsc2 := propagar_soloCrecen f M x s2 hsub
            have hsc := soloCrecen_trans hscm hsc2
            have hex : Arista s v x := hedge x (List.mem_cons_self x t)
            have hux : ¬ u = x := fun he =>
              hnr (he ▸ Relation.ReflTransGen.single hex)
            have hm1 : lookupN M u = lookupN s u := by
              rw [← hM, lookupN_modifyReg, if_neg hux]
            have hnru : ¬ Relation.ReflTransGen (Arista M) x u := by
              intro hr
              exact hnr (Relation.ReflTransGen.head hex
                ((reach_iff_soloCrecen hscm x u).mp hr))
            have hm2 : lookupN s2 u = lookupN M u := ih M x s2 hsub u hnru
            have hedge2 : ∀ y ∈ t, Arista s2 v y := fun y hy =>
              (arista_iff_soloCrecen hsc v y).mpr
                (hedge y (List.mem_cons_of_mem x hy))
            have hnr2 : ¬ Relation.ReflTransGen (Arista s2) v u := fun hr =>
              hnr ((reach_iff_soloCrecen hsc v u).mp hr)
            rw [ihl s2 v s' hedge2 h3 u hnr2, hm2, hm1]
    intro s v s' h u hnr
    rw [propagarRestricciones_succ] at h
    cases hv : lookupN s v with
    | none =>
      rw [hv] at h
      cases h
      rfl
    | some nodo =>
      rw [hv] at h
      exact hL nodo.hijos s v s' (fun x hx => ⟨nodo, hv, hx⟩) h u hnr

theorem capasEn_eq {st : Diagrama} {k : Nat} {n : Nodo}
    (h : lookupN st k = some n) : capasEn st k = n.restricciones_heredadas := by
  unfold capasEn nodoEn
  rw [h]
  rfl

/-- Locality of the child loop: a node reached from no member of the list
is untouched. -/
theorem propagarLista_local (f v : Nat) : ∀ (l : List Nat) (s s' : Diagrama),
    propagarLista f s v l = some s' →
    ∀ u, (∀ x ∈ l, ¬ Relation.ReflTransGen (Arista s) x u) →
    lookupN s' u = lookupN s u := by
  intro l
  induction l with
  | nil =>
    intro s s' h u _
    rw [propagarLista_nil] at h
    cases h
    rfl
  | cons x t ihl =>
    intro s s' h u hnr
    rw [propagarLista_cons] at h
    cases hv : lookupN s v with
    | none =>
      rw [hv] at h
      have h2 : propagarLista f s v t = some s' := h
      exact ihl s s' h2 u (fun y hy => hnr y (List.mem_cons_of_mem x hy))
    | some nodoAct =>
      rw [hv] at h
      have h4 : (propagarRestricciones f (modifyReg s x (fun hn =>
          { hn with restricciones_heredadas :=
              unionZip nodoAct.restricciones hn.restricciones_heredadas }))
          x).bind (fun s2 => propagarLista f s2 v t) = some s' := h
      generalize hM : modifyReg s x (fun hn =>
        { hn with restricciones_heredadas :=
            unionZip nodoAct.restricciones hn.restricciones_heredadas })
        = M at h4
      have hscm : SoloCrecen s M :=
        hM ▸ soloCrecen_merge s x nodoAct.restricciones
      cases hsub : propagarRestricciones f M x with
      | none => rw [hsub] at h4; cases h4
      | some s2 =>
        rw [hsub] at h4
        have h3 : propagarLista f s2 v t = some s' := h4
        have hsc2 := propagar_soloCrecen f M x s2 hsub
        have hsc := soloCrecen_trans hscm hsc2
        have hxu : ¬ Relation.ReflTransGen (Arista s) x u :=
          hnr x (List.mem_cons_self x t)
        have hux : ¬ u = x := by
          intro he
          apply hxu
          rw [he]
        have hm1 : lookupN M u = lookupN s u := by
          rw [← hM, lookupN_modifyReg, if_neg hux]
        have hnru : ¬ Relation.ReflTransGen (Arista M) x u := fun hr =>
          hxu ((reach_iff_soloCrecen hscm x u).mp hr)
        have hm2 : lookupN s2 u = lookupN M u :=
          propagar_local f M x s2 hsub u hnru
        have hnr2 : ∀ y ∈ t, ¬ Relation.ReflTransGen (Arista s2) y u :=
          fun y hy hr => hnr y (List.mem_cons_of_mem x hy)
            ((reach_iff_soloCrecen hsc y u).mp hr)
        rw [ihl s2 s' h3 u hnr2, hm2, hm1]

/-- After the propagation triggered below `v` terminates on an acyclic
registry, every edge below `v` satisfies the parent-stack lower bound. -/
theorem propagar_cotasDesde : ∀ fuel : Nat, ∀ s v s', Aciclico s →
    propagarRestricciones fuel s v = some s' → CotasDesde s' v := by
  intro fuel
  induction fuel with
  | zero => intro s v s' _ h; cases h
  | succ f ih =>
    intro s v s' hac h
    rw [propagarRestricciones_succ] at h
    cases hv : lookupN s v with
    | none =>
      rw [hv] at h
      cases h
      intro u hru nu hnu d hd nd hnd
      rcases Relation.ReflTransGen.cases_head hru with he | ⟨w, hvw, hwu⟩
      · rw [he] at hv
        rw [hv] at hnu
        cases hnu
      · rcases hvw with ⟨n0, hn0, -⟩
        rw [hv] at hn0
        cases hn0
    | some nodo =>
      rw [hv] at h
      have hQ : ∀ (l : List Nat) (s1 s1' : Diagrama), Aciclico s1 →
          lookupN s1 v = some nodo →
          (∀ x ∈ l, Arista s1 v x) →
          propagarLista f s1 v l = some s1' →
          (∀ x ∈ l, CotasDesde s1' x) ∧
          (∀ x ∈ l, ∀ nv nx, lookupN s1' v = some nv →
            lookupN s1' x = some nx →
            cLE nv.restricciones nx.restricciones_heredadas) := by
        intro l
        induction l with
        | nil =>
          intro s1 s1' _ _ _ h2
          rw [propagarLista_nil] at h2
          cases h2
          exact ⟨fun x hx => absurd hx (List.not_mem_nil x),
            fun x hx => absurd hx (List.not_mem_nil x)⟩
        | cons x t ihl =>
          intro s1 s1' hac1 hv1 hedge h2
          rw [propagarLista_cons] at h2
          rw [hv1] at h2
          have h4 : (propagarRestricciones f (modifyReg s1 x (fun hn =>
              { hn with restricciones_heredadas :=
                  unionZip nodo.restricciones hn.restricciones_heredadas }))
              x).bind (fun s2 => propagarLista f s2 v t) = some s1' := h2
          generalize hM : modifyReg s1 x (fun hn =>
            { hn with restricciones_heredadas :=
                unionZip nodo.restricciones hn.restricciones_heredadas })
            = M at h4
          have hscm : SoloCrecen s1 M :=
            hM ▸ soloCrecen_merge s1 x nodo.restricciones
          cases hsub : propagarRestricciones f M x with
          | none => rw [hsub] at h4; cases h4
          | some s2 =>
            rw [hsub] at h4
            have h3 : propagarLista f s2 v t = some s1' := h4
            have hsc2 := propagar_soloCrecen f M x s2 hsub
            have hsc := soloCrecen_trans hscm hsc2
            have hsc3 : SoloCrecen s2 s1' :=
              propagarLista_soloCrecen f
                (fun sa va sa' ha => propagar_soloCrecen f sa va sa' ha)
                s2 v t s1' h3
            have hacM : Aciclico M := aciclico_soloCrecen hscm hac1
            have hac2 : Aciclico s2 := aciclico_soloCrecen hsc2 hacM
            have hex : Arista s1 v x := hedge x (List.mem_cons_self x t)
            have hvx : ¬ v = x := by
              intro he
              apply hac1 v
              exact Relation.TransGen.single (by rw [he] at hex ⊢; exact hex)
            have hnxv : ¬ Relation.ReflTransGen (Arista s1) x v := by
              intro hr
              exact hac1 v (Relation.TransGen.head' hex hr)
            have hMv : lookupN M v = lookupN s1 v := by
              rw [← hM, lookupN_modifyReg, if_neg hvx]
            have hs2v : lookupN s2 v = lookupN M v :=
              propagar_local f M x s2 hsub v
                (fun hr => hnxv ((reach_iff_soloCrecen hscm x v).mp hr))
            have hs1'v : lookupN s1' v = lookupN s2 v :=
              propagarLista_local f v t s2 s1' h3 v
                (fun y hy hr => hac1 v (Relation.TransGen.head'
                  (hedge y (List.mem_cons_of_mem x hy))
                  ((reach_iff_soloCrecen hsc y v).mp hr)))
            have hvfin : lookupN s1' v = some nodo := by
              rw [hs1'v, hs2v, hMv, hv1]
            have hv2 : lookupN s2 v = some nodo := by
              rw [hs2v, hMv, hv1]
            have hedge2 : ∀ y ∈ t, Arista s2 v y := fun y hy =>
              (arista_iff_soloCrecen hsc v y).mpr
                (hedge y (List.mem_cons_of_mem x hy))
            rcases ihl s2 s1' hac2 hv2 hedge2 h3 with ⟨hT1, hT2⟩
            have hpostx : CotasDesde s1' x := by
              have hpost2 : CotasDesde s2 x := ih M x s2 hacM hsub
              intro u hru nu hnu d hd nd hnd
              have hru2 : Relation.ReflTransGen (Arista s2) x u :=
                (reach_iff_soloCrecen hsc3 x u).mp hru
              by_cases hch : lookupN s1' u = lookupN s2 u
              · have hnu2 : lookupN s2 u = some nu := by
                  rw [← hch]
                  exact hnu
                have hds : (lookupN s2 d).isSome := by
                  rw [lookupN_isSome_iff, ← hsc3.2.2.1, ← lookupN_isSome_iff,
                    hnd]
                  rfl
                rcases Option.isSome_iff_exists.mp hds with ⟨md, hmd⟩
                have hcle : cLE md.restricciones_heredadas
                    nd.restricciones_heredadas := by
                  have t2 := hsc3.2.1 d
                  rw [capasEn_eq hmd, capasEn_eq hnd] at t2
                  exact t2
                exact cLE_trans (hpost2 u hru2 nu hnu2 d hd md hmd) hcle
              · have hex2 : ∃ y, y ∈ t ∧
                    Relation.ReflTransGen (Arista s2) y u := by
                  by_contra hno
                  apply hch
                  exact propagarLista_local f v t s2 s1' h3 u
                    (fun y hy hr => hno ⟨y, hy, hr⟩)
                rcases hex2 with ⟨y, hy, hru3⟩
                exact hT1 y hy u ((reach_iff_soloCrecen hsc3 y u).mpr hru3)
                  nu hnu d hd nd hnd
            have hboundx : ∀ nv nx, lookupN s1' v = some nv →
                lookupN s1' x = some nx →
                cLE nv.restricciones nx.restricciones_heredadas := by
              intro nv nx hnv hnx
              have hnveq : nv = nodo := by
                rw [hvfin] at hnv
                exact (Option.some.inj hnv).symm
              cases hx0 : lookupN s1 x with
              | none =>
                have hnone : lookupN s1' x = none := by
                  rw [lookupN_eq_none_iff, hsc3.2.2.1, hsc2.2.2.1,
                    ← lookupN_eq_none_iff, ← hM, lookupN_modifyReg,
                    if_pos rfl, hx0]
                  rfl
                rw [hnone] at hnx
                cases hnx
              | some nodoX =>
                have hMx : lookupN M x = some { nodoX with
                    restricciones_heredadas :=
                      unionZip nodo.restricciones
                        nodoX.restricciones_heredadas } := by
                  rw [← hM, lookupN_modifyReg, if_pos rfl, hx0]
                  rfl
                have hg1 : cLE (capasEn M x) (capasEn s2 x) := hsc2.2.1 x
                have hg2 : cLE (capasEn s2 x) (capasEn s1' x) := hsc3.2.1 x
                have hcapM : capasEn M x
                    = unionZip nodo.restricciones
                        nodoX.restricciones_heredadas := by
                  rw [capasEn_eq hMx]
                have hcapF : capasEn s1' x = nx.restricciones_heredadas :=
                  capasEn_eq hnx
                have hcle2 : cLE nodo.restricciones
                    nx.restricciones_heredadas := by
                  rw [← hcapF]
                  refine cLE_trans ?_ (cLE_trans hg1 hg2)
                  rw [hcapM]
                  exact cLE_unionZip_left _ _
                rw [hnveq]
                exact hcle2
            refine ⟨?_, ?_⟩
            · intro y hy
              rcases List.mem_cons.mp hy with he | hyt
              · rw [he]
                exact hpostx
              · exact hT1 y hyt
            · intro y hy nv ny hnv hny
              rcases List.mem_cons.mp hy with he | hyt
              · rw [he] at hny
                exact hboundx nv ny hnv hny
              · exact hT2 y hyt nv ny hnv hny
      have hedges : ∀ x ∈ nodo.hijos, Arista s v x :=
        fun x hx => ⟨nodo, hv, hx⟩
      rcases hQ nodo.hijos s s' hac hv hedges h with ⟨hQ1, hQ2⟩
      have hvstab : lookupN s' v = lookupN s v :=
        propagarLista_local f v nodo.hijos s s' h v
          (fun y hy hr => hac v (Relation.TransGen.head' (hedges y hy) hr))
      intro u hru nu hnu d hd nd hnd
      rcases Relation.ReflTransGen.cases_head hru with he | ⟨w, hvw, hwu⟩
      · have hnueq : nu = nodo := by
          rw [← he, hvstab, hv] at hnu
          exact (Option.some.inj hnu).symm
        have hdm : d ∈ nodo.hijos := by
          rw [← hnueq]
          exact hd
        have := hQ2 d hdm nu nd (by rw [← he] at hnu; exact hnu) hnd
        rw [hnueq]
        rw [hnueq] at this
        exact this
      · rcases hvw with ⟨nw0, hnw0, hwmem⟩
        have hweq : nw0 = nodo := by
          rw [hvstab, hv] at hnw0
          exact (Option.some.inj hnw0).symm
        have hwm : w ∈ nodo.hijos := by
          rw [← hweq]
          exact hwmem
        exact hQ1 w hwm u hwu nu hnu d hd nd hnd

/-- The lower bounds only depend on keys and on each node's children,
inherited layers and own constraints. -/
theorem cotas_transfer {s s' : Diagrama} (hnd' : (claves s').Nodup)
    (hh : ∀ k n', lookupN s' k = some n' → ∃ n, lookupN s k = some n ∧
      (∀ x ∈ n'.hijos, x ∈ n.hijos) ∧
      n'.restricciones_heredadas = n.restricciones_heredadas ∧
      n'.restricciones_propias = n.restricciones_propias)
    (hc : CotasInferiores s) : CotasInferiores s' := by
  intro p hp c hcm nc hnc
  have hlp := lookupN_of_mem hnd' hp
  rcases hh p.1 p.2 hlp with ⟨n, hn, hsub, hher, hpro⟩
  rcases hh c nc hnc with ⟨m, hm, -, hher2, -⟩
  have hres : p.2.restricciones = n.restricciones := by
    unfold Nodo.restricciones
    rw [hher, hpro]
  rw [hres, hher2]
  exact hc (p.1, n) (lookupN_mem hn) c (hsub c hcm) m hm

theorem cotas_de_modifyReg {st : Diagrama} {i : Nat} {f : Nodo → Nodo}
    {k : Nat} {n' : Nodo} (h : lookupN (modifyReg st i f) k = some n')
    (hf : ∀ n, (∀ x ∈ (f n).hijos, x ∈ n.hijos) ∧
      (f n).restricciones_heredadas = n.restricciones_heredadas ∧
      (f n).restricciones_propias = n.restricciones_propias) :
    ∃ n, lookupN st k = some n ∧ (∀ x ∈ n'.hijos, x ∈ n.hijos) ∧
      n'.restricciones_heredadas = n.restricciones_heredadas ∧
      n'.restricciones_propias = n.restricciones_propias := by
  rw [lookupN_modifyReg] at h
  by_cases hk : k = i
  · rw [if_pos hk] at h
    cases hl : lookupN st k with
    | none => rw [hl] at h; cases h
    | some n =>
      rw [hl] at h
      have h2 := Option.some.inj h
      rw [← h2]
      exact ⟨n, rfl, (hf n).1, (hf n).2.1, (hf n).2.2⟩
  · rw [if_neg hk] at h
    exact ⟨n', h, fun x hx => hx, rfl, rfl⟩

theorem cotas_de_sinHom {o1 o2 : Option Nodo}
    (h : o1.map Nodo.sinHomologos = o2.map Nodo.sinHomologos) {n' : Nodo}
    (h1 : o1 = some n') :
    ∃ n, o2 = some n ∧ (∀ x ∈ n'.hijos, x ∈ n.hijos) ∧
      n'.restricciones_heredadas = n.restricciones_heredadas ∧
      n'.restricciones_propias = n.restricciones_propias := by
  rw [h1] at h
  cases h2 : o2 with
  | none => rw [h2] at h; cases h
  | some n =>
    rw [h2] at h
    have h3 := Option.some.inj h
    refine ⟨n, rfl, ?_, ?_, ?_⟩
    · intro x hx
      have t := congrArg Nodo.hijos h3
      have t2 : n'.hijos = n.hijos := t
      rw [← t2]
      exact hx
    · have t := congrArg Nodo.restricciones_heredadas h3
      exact t
    · have t := congrArg Nodo.restricciones_propias h3
      exact t

theorem cotas_inicial (nombre : String) :
    CotasInferiores (crearDiagrama nombre) := by
  intro p hp c hcm nc hnc
  simp only [crearDiagrama, List.mem_singleton] at hp
  rw [hp] at hcm
  have hcm2 : c ∈ ([] : List Nat) := hcm
  exact absurd hcm2 (List.not_mem_nil c)

/-- Deletion preserves the lower bounds. -/
theorem cotas_eliminar {fuel : Nat} {st st' : Diagrama} {id : Nat} {b : Bool}
    (h : eliminarNodo fuel st id = some (st', b)) (hbf : BuenaForma st)
    (hc : CotasInferiores st) : CotasInferiores st' := by
  rcases eliminar_buenaForma_aux fuel st id st' b hbf h with
    ⟨hbf', hinv, -, -, -⟩
  refine cotas_transfer hbf'.clavesNodup ?_ hc
  intro k n' hn'
  have hk' : k ∈ claves st :=
    hinv.1 k (lookupN_isSome_iff.mp (by rw [hn']; rfl))
  rcases Option.isSome_iff_exists.mp (lookupN_isSome_iff.mpr hk') with ⟨n, hn⟩
  rcases hinv.2.2 k n n' hn hn' with ⟨hsub, -, -, hher, hpro⟩
  exact ⟨n, hn, hsub, hher, hpro⟩

/-- Unlinking preserves the lower bounds (edges only disappear). -/
theorem cotas_desenlazar {st st' : Diagrama} {p c : Nat}
    (h : eliminarEnlace st p c = some st') (hbf : BuenaForma st)
    (hc : CotasInferiores st) : CotasInferiores st' := by
  rcases eliminarEnlace_spec h hbf with
    ⟨padre, hijo, hp, hcl, ⟨-, hst⟩ | ⟨-, -, hst⟩⟩
  · rw [hst]
    exact hc
  have hbf' : BuenaForma st' := buenaForma_desenlazar h hbf
  refine cotas_transfer hbf'.clavesNodup ?_ hc
  intro k n' hn'
  rw [hst] at hn'
  rcases cotas_de_modifyReg hn' (fun n => ⟨fun x hx => hx, rfl, rfl⟩) with
    ⟨n1, hn1, hs1, hh1, hp1⟩
  rcases cotas_de_modifyReg hn1
    (fun n => ⟨fun x hx => List.mem_of_mem_erase hx, rfl, rfl⟩) with
    ⟨n0, hn0, hs0, hh0, hp0⟩
  exact ⟨n0, hn0, fun x hx => hs0 x (hs1 x hx),
    by rw [hh1, hh0], by rw [hp1, hp0]⟩

/-- Content updates preserve the lower bounds. -/
theorem cotas_contenido {st st' : Diagrama} {id : Nat}
    {cont git : Option String}
    (h : actualizarContenido st id cont git = some st')
    (hbf : BuenaForma st) (hc : CotasInferiores st) :
    CotasInferiores st' := by
  unfold actualizarContenido at h
  by_cases hi : (lookupN st id).isSome
  · rw [if_pos hi] at h
    cases h
    refine cotas_transfer ?_ ?_ hc
    · rw [claves_modifyReg]
      exact hbf.clavesNodup
    · intro k n' hn'
      exact cotas_de_modifyReg hn' (fun n => ⟨fun x hx => hx, rfl, rfl⟩)
  · rw [if_neg hi] at h
    cases h

/-- Renaming preserves the lower bounds. -/
theorem cotas_renombrar {st st' : Diagrama} {id : Nat} {nm : String}
    (h : renombrarNodo st id nm = some st')
    (hbf : BuenaForma st) (hc : CotasInferiores st) :
    CotasInferiores st' := by
  unfold renombrarNodo at h
  by_cases hi : (lookupN st id).isSome
  · rw [if_pos hi] at h
    cases h
    have hbf' := buenaForma_renombrar
      (show renombrarNodo st id nm = some _ by
        unfold renombrarNodo
        rw [if_pos hi]) hbf
    refine cotas_transfer hbf'.clavesNodup ?_ hc
    intro k n' hn'
    rcases cotas_de_sinHom (sinHom_actHom _ id nm k) hn' with
      ⟨n1, hn1, hs1, hh1, hp1⟩
    rcases cotas_de_modifyReg hn1 (fun n => ⟨fun x hx => hx, rfl, rfl⟩) with
      ⟨n0, hn0, hs0, hh0, hp0⟩
    exact ⟨n0, hn0, fun x hx => hs0 x (hs1 x hx),
      by rw [hh1, hh0], by rw [hp1, hp0]⟩
  · rw [if_neg hi] at h
    cases h

/-- Appending a fresh node under an optional parent, then refreshing its
homologs, preserves the lower bounds. -/
theorem cotas_extiende {st stM : Diagrama} {ni : Nodo} {nm : String}
    (hbf : BuenaForma st) (hc : CotasInferiores st)
    (hMk : claves stM = claves st)
    (hMm : ∀ p ∈ stM.nodos, ∃ p0 ∈ st.nodos, p.1 = p0.1 ∧
      (∀ x ∈ p.2.hijos, x ∈ p0.2.hijos ∨ x = st.siguiente_id) ∧
      p.2.restricciones_heredadas = p0.2.restricciones_heredadas ∧
      p.2.restricciones_propias = p0.2.restricciones_propias)
    (hni_h : ni.hijos = [])
    (hni_cap : ∀ p ∈ stM.nodos, st.siguiente_id ∈ p.2.hijos →
      cLE p.2.restricciones ni.restricciones_heredadas) :
    CotasInferiores (actualizarHomologos { stM with nodos := stM.nodos ++ [(st.siguiente_id, ni)], siguiente_id := st.siguiente_id + 1 } st.siguiente_id nm) := by
  have hfreshK := fresco_no_en_claves hbf
  have hfreshM : st.siguiente_id ∉ claves stM := by
    rw [hMk]
    exact hfreshK
  have hce : CotasInferiores { stM with nodos := stM.nodos ++ [(st.siguiente_id, ni)], siguiente_id := st.siguiente_id + 1 } := by
    intro p hp c hcm nc hnc
    have hp2 : p ∈ stM.nodos ++ [(st.siguiente_id, ni)] := hp
    have hlc := lookupN_extiende_spec st.siguiente_id ni
      (st.siguiente_id + 1) hfreshM c
    rcases List.mem_append.mp hp2 with h1 | h1
    · rcases hMm p h1 with ⟨p0, hp0, hk, hsub, hher, hpro⟩
      have hres : p.2.restricciones = p0.2.restricciones := by
        unfold Nodo.restricciones
        rw [hher, hpro]
      rcases hsub c hcm with hcold | hcfresh
      · have hcne : ¬ c = st.siguiente_id := by
          intro he
          rcases hbf.hijosBidir p0 hp0 c hcold with ⟨m, hm, -⟩
          apply hfreshK
          rw [← he]
          exact lookupN_isSome_iff.mp (by rw [hm]; rfl)
        rw [hlc, if_neg hcne] at hnc
        rcases hMm (c, nc) (lookupN_mem hnc) with ⟨c0, hc0, hkc, -, hherc, -⟩
        have hlsc : lookupN st c = some c0.2 := by
          have h2 := lookupN_of_mem hbf.clavesNodup hc0
          rw [← hkc] at h2
          exact h2
        rw [hres, hherc]
        exact hc p0 hp0 c hcold c0.2 hlsc
      · rw [hlc, if_pos hcfresh] at hnc
        have hnceq : nc = ni := (Option.some.inj hnc).symm
        rw [hnceq]
        exact hni_cap p h1 (by rw [← hcfresh]; exact hcm)
    · rw [List.mem_singleton] at h1
      rw [h1] at hcm
      have hcm2 : c ∈ ni.hijos := hcm
      rw [hni_h] at hcm2
      exact absurd hcm2 (List.not_mem_nil c)
  have hndE : (claves { stM with nodos := stM.nodos ++ [(st.siguiente_id, ni)], siguiente_id := st.siguiente_id + 1 }).Nodup := by
    rw [claves_extiende, hMk, List.nodup_append]
    refine ⟨hbf.clavesNodup, List.nodup_singleton _, ?_⟩
    intro a ha hb
    rw [List.mem_singleton] at hb
    rw [hb] at ha
    exact hfreshK ha
  refine cotas_transfer ?_ ?_ hce
  · rw [claves_actHom]
    exact hndE
  · intro k n' hn'
    exact cotas_de_sinHom (sinHom_actHom _ _ _ k) hn'

/-- Adding a node preserves the lower bounds. -/
theorem cotas_agregar {st : Diagrama} (nombre : String)
    (id_padre : Option Nat) (num_hijo : Option Int) (hbf : BuenaForma st)
    (hc : CotasInferiores st) :
    CotasInferiores (anadirNodo st nombre id_padre num_hijo).1 := by
  have hnofresh : ∀ p ∈ st.nodos, st.siguiente_id ∈ p.2.hijos → False := by
    intro p hp hmem
    rcases hbf.hijosBidir p hp _ hmem with ⟨m, hm, -⟩
    exact fresco_no_en_claves hbf
      (lookupN_isSome_iff.mp (by rw [hm]; rfl))
  unfold anadirNodo
  cases id_padre with
  | none =>
    refine cotas_extiende hbf hc rfl
      (fun p hp => ⟨p, hp, rfl, fun x hx => Or.inl hx, rfl, rfl⟩) ?_ ?_
    · rfl
    · exact fun p hp hmem => (hnofresh p hp hmem).elim
  | some pid =>
    cases hpp : lookupN st pid with
    | none =>
      simp only [hpp]
      refine cotas_extiende hbf hc rfl
        (fun p hp => ⟨p, hp, rfl, fun x hx => Or.inl hx, rfl, rfl⟩) ?_ ?_
      · rfl
      · exact fun p hp hmem => (hnofresh p hp hmem).elim
    | some padre =>
      simp only [hpp]
      refine cotas_extiende hbf hc (claves_modifyReg st pid _) ?_ ?_ ?_
      · intro p hp
        rcases mem_modifyReg_clasif hp with ⟨p0, hp0, hk, ⟨h2, -⟩ | h2⟩
        · refine ⟨p0, hp0, hk, ?_, by rw [h2], by rw [h2]⟩
          intro x hx
          rw [h2] at hx
          revert hx
          show x ∈ (match num_hijo with
            | some k =>
              if 0 ≤ k ∧ k ≤ (p0.2.hijos.length : Int)
              then p0.2.hijos.insertIdx k.toNat st.siguiente_id
              else p0.2.hijos ++ [st.siguiente_id]
            | none => p0.2.hijos ++ [st.siguiente_id]) →
            x ∈ p0.2.hijos ∨ x = st.siguiente_id
          cases num_hijo with
          | none =>
            intro hx
            have hx2 : x ∈ p0.2.hijos ++ [st.siguiente_id] := hx
            rcases List.mem_append.mp hx2 with h3 | h3
            · exact Or.inl h3
            · exact Or.inr (List.mem_singleton.mp h3)
          | some k2 =>
            intro hx
            have hx2 : x ∈ (if 0 ≤ k2 ∧ k2 ≤ (p0.2.hijos.length : Int)
                then p0.2.hijos.insertIdx k2.toNat st.siguiente_id
                else p0.2.hijos ++ [st.siguiente_id]) := hx
            by_cases hk2 : 0 ≤ k2 ∧ k2 ≤ (p0.2.hijos.length : Int)
            · rw [if_pos hk2] at hx2
              rcases (List.mem_insertIdx (Int.toNat_le.mpr hk2.2)).mp hx2 with
                h3 | h3
              · exact Or.inr h3
              · exact Or.inl h3
            · rw [if_neg hk2] at hx2
              rcases List.mem_append.mp hx2 with h3 | h3
              · exact Or.inl h3
              · exact Or.inr (List.mem_singleton.mp h3)
        · exact ⟨p0, hp0, hk, fun x hx => Or.inl (by rw [← h2]; exact hx),
            by rw [h2], by rw [h2]⟩
      · rfl
      · intro p hp hmem
        rcases mem_modifyReg_clasif hp with ⟨p0, hp0, hk, ⟨h2, hkey⟩ | h2⟩
        · have hp0l : lookupN st p0.1 = some p0.2 :=
            lookupN_of_mem hbf.clavesNodup hp0
          have hpadre : p0.2 = padre := by
            rw [hkey, hpp] at hp0l
            exact (Option.some.inj hp0l).symm
          have hres : p.2.restricciones = padre.restricciones := by
            rw [h2, ← hpadre]
            rfl
          rw [hres]
          exact cLE_refl _
        · rw [h2] at hmem
          exact (hnofresh p0 hp0 hmem).elim

/-- Linking preserves the lower bounds: the merged edge gets the parent
stack directly and the propagation re-establishes every bound below the
child. -/
theorem cotas_enlazar {fuel : Nat} {st st' : Diagrama} {p c : Nat} {b : Bool}
    (h : enlazarNodos fuel st p c = some (st', b)) (hbf : BuenaForma st)
    (hc : CotasInferiores st) : CotasInferiores st' := by
  rcases enlazarNodos_spec fuel st p c st' b h with
    ⟨-, padre, hijo, hp, hcl, hne, hcc, hpp⟩ | ⟨-, hst, -⟩
  swap
  · rw [hst]
    exact hc
  have hnr : ¬ Relation.ReflTransGen (Arista st) c p := by
    intro hr
    exact Bool.noConfusion ((creaCiclo_correcto fuel st p c false hcc).mpr hr)
  have hpc : ¬ p = c := by
    intro he
    exact hnr (by rw [he])
  have hbf' : BuenaForma st' := buenaForma_enlazar h hbf
  generalize hS : modifyReg (modifyReg (modifyReg st p
      (fun q => { q with hijos := q.hijos ++ [c] }))
    c (fun q => { q with padres := q.padres ++ [p] }))
    c (fun q => { q with restricciones_heredadas := unionZip padre.restricciones hijo.restricciones_heredadas }) = st3 at hpp
  have hsc := propagar_soloCrecen fuel st3 c st' hpp
  have hac3 : Aciclico st3 :=
    aciclico_subrel (fun a b2 hab => (arista_iff_soloCrecen hsc a b2).mpr hab)
      hbf'.aciclico
  have hpost : CotasDesde st' c := propagar_cotasDesde fuel st3 c st' hac3 hpp
  have hl3 : ∀ k, ¬ k = c → lookupN st3 k
      = if k = p then (lookupN st k).map
          (fun q => { q with hijos := q.hijos ++ [c] })
        else lookupN st k := by
    intro k hk
    rw [← hS, lookupN_modifyReg, if_neg hk, lookupN_modifyReg, if_neg hk,
      lookupN_modifyReg]
  have hl3c : lookupN st3 c = some { hijo with padres := hijo.padres ++ [p], restricciones_heredadas := unionZip padre.restricciones hijo.restricciones_heredadas } := by
    rw [← hS, lookupN_modifyReg, if_pos rfl, lookupN_modifyReg, if_pos rfl,
      lookupN_modifyReg, if_neg (fun he => hpc he.symm), hcl]
    rfl
  have hcapmon : ∀ k, cLE (capasEn st k) (capasEn st3 k) := by
    intro k
    by_cases hk : k = c
    · rw [hk, capasEn_eq hl3c, capasEn_eq hcl]
      exact cLE_unionZip_right _ _
    · have he : capasEn st3 k = capasEn st k := by
        unfold capasEn nodoEn
        rw [hl3 k hk]
        by_cases hkp : k = p
        · rw [if_pos hkp]
          cases lookupN st k with
          | none => rfl
          | some n => rfl
        · rw [if_neg hkp]
      rw [he]
      exact cLE_refl _
  have hcap : ∀ k, cLE (capasEn st k) (capasEn st' k) :=
    fun k => cLE_trans (hcapmon k) (hsc.2.1 k)
  intro q hq d hdm nd hnd
  by_cases hreach : Relation.ReflTransGen (Arista st') c q.1
  · exact hpost q.1 hreach q.2 (lookupN_of_mem hbf'.clavesNodup hq) d hdm
      nd hnd
  · have hq' : lookupN st' q.1 = some q.2 :=
      lookupN_of_mem hbf'.clavesNodup hq
    have hql : lookupN st3 q.1 = some q.2 := by
      rw [← propagar_local fuel st3 c st' hpp q.1
        (fun hr => hreach ((reach_iff_soloCrecen hsc c q.1).mpr hr))]
      exact hq'
    have hqc : ¬ q.1 = c := fun he => hreach (by rw [he])
    rw [hl3 q.1 hqc] at hql
    by_cases hqp : q.1 = p
    · rw [if_pos hqp] at hql
      cases hl0 : lookupN st q.1 with
      | none => rw [hl0] at hql; cases hql
      | some n0 =>
        rw [hl0] at hql
        have hq2 := Option.some.inj hql
        have hn0p : n0 = padre := by
          rw [hqp, hp] at hl0
          exact (Option.some.inj hl0).symm
        have hres : q.2.restricciones = n0.restricciones := by
          rw [← hq2]
          rfl
        have hdm2 : d ∈ n0.hijos ++ [c] := by
          have t : q.2.hijos = n0.hijos ++ [c] := by rw [← hq2]
          rw [← t]
          exact hdm
        rcases List.mem_append.mp hdm2 with hdold | hdc
        · rcases hbf.hijosBidir (q.1, n0) (lookupN_mem hl0) d hdold with
            ⟨m0, hm0, -⟩
          have hbound := hc (q.1, n0) (lookupN_mem hl0) d hdold m0 hm0
          have hgrow := hcap d
          rw [capasEn_eq hm0, capasEn_eq hnd] at hgrow
          rw [hres]
          exact cLE_trans hbound hgrow
        · rw [List.mem_singleton] at hdc
          rw [hdc] at hnd
          have hgrow := hsc.2.1 c
          rw [capasEn_eq hl3c, capasEn_eq hnd] at hgrow
          rw [hres, hn0p]
          exact cLE_trans (cLE_unionZip_left _ _) hgrow
    · rw [if_neg hqp] at hql
      rcases hbf.hijosBidir (q.1, q.2) (lookupN_mem hql) d hdm with
        ⟨m0, hm0, -⟩
      have hbound := hc (q.1, q.2) (lookupN_mem hql) d hdm m0 hm0
      have hgrow := hcap d
      rw [capasEn_eq hm0, capasEn_eq hnd] at hgrow
      exact cLE_trans hbound hgrow

end Capas

section Terminacion

/-- The set of vertices reachable from `v` is finite: it is contained in
`v` plus all children listed anywhere in the registry. -/
theorem reach_finito (st : Diagrama) (v : Nat) :
    {u | Relation.ReflTransGen (Arista st) v u}.Finite := by
  apply Set.Finite.subset
    (insert v ((st.nodos.map (fun p => p.2.hijos)).join.toFinset) :
      Finset Nat).finite_toSet
  intro u hu
  rcases Relation.ReflTransGen.cases_tail hu with he | ⟨c, _, hcu⟩
  · rw [he]
    exact Finset.mem_coe.mpr (Finset.mem_insert_self _ _)
  · rcases hcu with ⟨n, hn, hmem⟩
    apply Finset.mem_coe.mpr
    apply Finset.mem_insert_of_mem
    apply List.mem_toFinset.mpr
    apply List.mem_join.mpr
    exact ⟨n.hijos, List.mem_map_of_mem _ (lookupN_mem hn), hmem⟩

/-- On an acyclic registry, any fuel exceeding the size of the reachable
set makes `_propagarRestricciones` return. -/
theorem propagar_suficiente : ∀ N : Nat, ∀ st v, Aciclico st →
    ({u | Relation.ReflTransGen (Arista st) v u}).ncard < N →
    (propagarRestricciones N st v).isSome := by
  intro N
  induction N with
  | zero => intro st v _ hlt; exact absurd hlt (Nat.not_lt_zero _)
  | succ f ih =>
    intro st v hac hlt
    rw [propagarRestricciones_succ]
    cases hv : lookupN st v with
    | none => rfl
    | some nodo =>
      have hL : ∀ (l : List Nat) (s : Diagrama), Aciclico s →
          (∀ x ∈ l, {u | Relation.ReflTransGen (Arista s) x u}.ncard < f) →
          (propagarLista f s v l).isSome := by
        intro l
        induction l with
        | nil =>
          intro s _ _
          rw [propagarLista_nil]
          rfl
        | cons x t ihl =>
          intro s hacs hcard
          rw [propagarLista_cons]
          cases hsv : lookupN s v with
          | none =>
            show (propagarLista f s v t).isSome
            exact ihl s hacs (fun y hy => hcard y (List.mem_cons_of_mem x hy))
          | some nodoAct =>
            show ((propagarRestricciones f (modifyReg s x (fun hn => { hn with restricciones_heredadas := unionZip nodoAct.restricciones hn.restricciones_heredadas })) x).bind (fun s2 => propagarLista f s2 v t)).isSome
            generalize hM : modifyReg s x (fun hn => { hn with restricciones_heredadas := unionZip nodoAct.restricciones hn.restricciones_heredadas }) = M
            have hscm : SoloCrecen s M :=
              hM ▸ soloCrecen_merge s x nodoAct.restricciones
            have hacM : Aciclico M := aciclico_soloCrecen hscm hacs
            have hcardM :
                {u | Relation.ReflTransGen (Arista M) x u}.ncard < f := by
              have hsetEq : {u | Relation.ReflTransGen (Arista M) x u}
                  = {u | Relation.ReflTransGen (Arista s) x u} :=
                Set.ext (fun u => reach_iff_soloCrecen hscm x u)
              rw [hsetEq]
              exact hcard x (List.mem_cons_self x t)
            rcases Option.isSome_iff_exists.mp (ih M x hacM hcardM) with
              ⟨s2, hs2⟩
            rw [hs2]
            show (propagarLista f s2 v t).isSome
            have hsc2 := propagar_soloCrecen f M x s2 hs2
            have hsc := soloCrecen_trans hscm hsc2
            refine ihl s2 (aciclico_soloCrecen hsc2 hacM) ?_
            intro y hy
            have hsetEq : {u | Relation.ReflTransGen (Arista s2) y u}
                = {u | Relation.ReflTransGen (Arista s) y u} :=
              Set.ext (fun u => reach_iff_soloCrecen hsc y u)
            rw [hsetEq]
            exact hcard y (List.mem_cons_of_mem x hy)
      show (propagarLista f st v nodo.hijos).isSome
      refine hL nodo.hijos st hac ?_
      intro x hx
      have hsub : {u | Relation.ReflTransGen (Arista st) x u}
          ⊆ {u | Relation.ReflTransGen (Arista st) v u} := by
        intro u hu
        exact Relation.ReflTransGen.head ⟨nodo, hv, hx⟩ hu
      have hvnot : v ∉ {u | Relation.ReflTransGen (Arista st) x u} := by
        intro hu
        exact hac v (Relation.TransGen.head' ⟨nodo, hv, hx⟩ hu)
      have hss : {u | Relation.ReflTransGen (Arista st) x u}
          ⊂ {u | Relation.ReflTransGen (Arista st) v u} :=
        (Set.ssubset_iff_of_subset hsub).mpr
          ⟨v, Relation.ReflTransGen.refl, hvnot⟩
      exact Nat.lt_of_lt_of_le (Set.ncard_lt_ncard hss (reach_finito st v))
        (Nat.lt_succ_iff.mp hlt)

/-- A deletion only removes keys, only removes edges, and every removed key
was reachable from the deleted id (no structural hypotheses needed). -/
theorem eliminar_encoge : ∀ fuel : Nat, ∀ st id st' b,
    eliminarNodo fuel st id = some (st', b) →
    (∀ k, k ∈ claves st' → k ∈ claves st) ∧
    (∀ a b2, Arista st' a b2 → Arista st a b2) ∧
    (∀ k, k ∈ claves st → k ∉ claves st' →
      Relation.ReflTransGen (Arista st) id k) := by
  intro fuel
  induction fuel with
  | zero => intro st id st' b h; cases h
  | succ f ih =>
    have hLis : ∀ (l : List Nat) (st st' : Diagrama),
        eliminarLista f st l = some st' →
        (∀ k, k ∈ claves st' → k ∈ claves st) ∧
        (∀ a b2, Arista st' a b2 → Arista st a b2) ∧
        (∀ k, k ∈ claves st → k ∉ claves st' →
          ∃ h2 ∈ l, Relation.ReflTransGen (Arista st) h2 k) := by
      intro l
      induction l with
      | nil =>
        intro st st' h
        rw [eliminarLista_nil] at h
        cases h
        exact ⟨fun k hk => hk, fun a b2 ha => ha,
          fun k hk hk2 => absurd hk hk2⟩
      | cons x t ihl =>
        intro st st' h
        rw [eliminarLista_cons] at h
        cases hx : eliminarNodo f st x with
        | none => rw [hx] at h; cases h
        | some r =>
          rw [hx] at h
          have h2 : eliminarLista f r.1 t = some st' := h
          have hx2 : eliminarNodo f st x = some (r.1, r.2) := hx
          rcases ih st x r.1 r.2 hx2 with ⟨hk1, ha1, hd1⟩
          rcases ihl r.1 st' h2 with ⟨hk2, ha2, hd2⟩
          refine ⟨fun k hk => hk1 k (hk2 k hk),
            fun a b2 ha => ha1 a b2 (ha2 a b2 ha), ?_⟩
          intro k hk hk2'
          by_cases hmid : k ∈ claves r.1
          · rcases hd2 k hmid hk2' with ⟨h2x, hh2, hr⟩
            exact ⟨h2x, List.mem_cons_of_mem x hh2,
              Relation.ReflTransGen.mono ha1 hr⟩
          · exact ⟨x, List.mem_cons_self x t, hd1 k hk hmid⟩
    intro st id st' b h
    rw [eliminarNodo_succ] at h
    cases hl : lookupN st id with
    | none =>
      rw [hl] at h
      have h2 : some (st, false) = some (st', b) := h
      cases h2
      exact ⟨fun k hk => hk, fun a b2 ha => ha,
        fun k hk hk2 => absurd hk hk2⟩
    | some nodo =>
      rw [hl] at h
      have h3 : (match eliminarLista f st nodo.hijos with
        | none => (none : Option (Diagrama × Bool))
        | some st1 =>
          match lookupN st1 id with
          | none => none
          | some nodo1 =>
            some (limpiarHomologos (borrarReg
              (nodo1.padres.foldl (fun s2 pid =>
                if (lookupN s2 pid).isSome then
                  modifyReg s2 pid (fun p =>
                    { p with hijos := p.hijos.filter (fun h2 => h2 != id) })
                else s2) st1) id) nodo1.homologos id, true))
          = some (st', b) := h
      cases hLi : eliminarLista f st nodo.hijos with
      | none => rw [hLi] at h3; cases h3
      | some st1 =>
        rw [hLi] at h3
        have h4 : (match lookupN st1 id with
          | none => (none : Option (Diagrama × Bool))
          | some nodo1 =>
            some (limpiarHomologos (borrarReg
              (nodo1.padres.foldl (fun s2 pid =>
                if (lookupN s2 pid).isSome then
                  modifyReg s2 pid (fun p =>
                    { p with hijos := p.hijos.filter (fun h2 => h2 != id) })
                else s2) st1) id) nodo1.homologos id, true))
          = some (st', b) := h3
        cases hl1 : lookupN st1 id with
        | none => rw [hl1] at h4; cases h4
        | some nodo1 =>
          rw [hl1] at h4
          have h2 : some (limpiarHomologos (borrarReg
              (nodo1.padres.foldl (fun s2 pid =>
                if (lookupN s2 pid).isSome then
                  modifyReg s2 pid (fun p =>
                    { p with hijos := p.hijos.filter (fun h2 => h2 != id) })
                else s2) st1) id) nodo1.homologos id, true) = some (st', b) := h4
          cases h2
          rcases hLis nodo.hijos st st1 hLi with ⟨hk1, ha1, hd1⟩
          have hlook4 : ∀ k, lookupN (limpiarHomologos (borrarReg
              (nodo1.padres.foldl (fun s2 pid =>
                if (lookupN s2 pid).isSome then
                  modifyReg s2 pid (fun p =>
                    { p with hijos := p.hijos.filter (fun h2 => h2 != id) })
                else s2) st1) id) nodo1.homologos id) k
              = if k = id then none
                else (lookupN st1 k).map (fun n =>
                  let n2 := if k ∈ nodo1.padres then
                      { n with hijos := n.hijos.filter (fun h2 => h2 != id) }
                    else n
                  if k ∈ nodo1.homologos then
                    { n2 with homologos := n2.homologos.erase id }
                  else n2) := by
            intro k
            rw [lookupN_limpiarHomologos, lookupN_borrarReg]
            by_cases hk : k = id
            · rw [if_pos hk, if_pos hk]
              rfl
            · rw [if_neg hk, if_neg hk, lookupN_quitarHijo]
              by_cases hkp : k ∈ nodo1.padres
              · rw [if_pos hkp]
                cases lookupN st1 k with
                | none => rfl
                | some m =>
                  show some _ = some _
                  congr 1
                  simp only [if_pos hkp]
              · rw [if_neg hkp]
                cases lookupN st1 k with
                | none => rfl
                | some m =>
                  show some _ = some _
                  congr 1
                  simp only [if_neg hkp]
          have hclaves4 : claves (limpiarHomologos (borrarReg
              (nodo1.padres.foldl (fun s2 pid =>
                if (lookupN s2 pid).isSome then
                  modifyReg s2 pid (fun p =>
                    { p with hijos := p.hijos.filter (fun h2 => h2 != id) })
                else s2) st1) id) nodo1.homologos id)
              = (claves st1).filter (fun x => x != id) := by
            rw [claves_limpiarHomologos, claves_borrarReg, claves_quitarHijo]
          refine ⟨?_, ?_, ?_⟩
          · intro k hk
            rw [hclaves4] at hk
            exact hk1 k (List.mem_of_mem_filter hk)
          · intro a b2 ha
            rcases ha with ⟨n, hn, hb⟩
            rw [hlook4 a] at hn
            by_cases hai : a = id
            · rw [if_pos hai] at hn
              cases hn
            · rw [if_neg hai] at hn
              cases hma : lookupN st1 a with
              | none => rw [hma] at hn; cases hn
              | some m0 =>
                rw [hma] at hn
                have hmm := Option.some.inj hn
                apply ha1 a b2
                refine ⟨m0, hma, ?_⟩
                rw [← hmm] at hb
                revert hb
                show b2 ∈ (let n2 := if a ∈ nodo1.padres then
                    { m0 with hijos := m0.hijos.filter (fun h2 => h2 != id) }
                  else m0
                  if a ∈ nodo1.homologos then
                    { n2 with homologos := n2.homologos.erase id }
                  else n2).hijos → b2 ∈ m0.hijos
                intro hb
                by_cases ha2 : a ∈ nodo1.padres <;>
                  by_cases ha3 : a ∈ nodo1.homologos <;>
                    simp [ha2, ha3] at hb <;>
                      first
                        | exact hb
                        | exact hb.1
          · intro k hk hk4
            by_cases hmid : k ∈ claves st1
            · have hkid : k = id := by
                by_contra hne
                apply hk4
                rw [hclaves4]
                exact List.mem_filter.mpr ⟨hmid, by simpa using hne⟩
              rw [hkid]
            · rcases hd1 k hk hmid with ⟨h2x, hh2, hr⟩
              exact Relation.ReflTransGen.head ⟨nodo, hl, hh2⟩ hr

/-- List version of `eliminar_encoge` for the child-deletion loop. -/
theorem eliminarLista_encoge (f : Nat) : ∀ (l : List Nat) (st st' : Diagrama),
    eliminarLista f st l = some st' →
    (∀ k, k ∈ claves st' → k ∈ claves st) ∧
    (∀ a b2, Arista st' a b2 → Arista st a b2) ∧
    (∀ k, k ∈ claves st → k ∉ claves st' →
      ∃ h2 ∈ l, Relation.ReflTransGen (Arista st) h2 k) := by
  intro l
  induction l with
  | nil =>
    intro st st' h
    rw [eliminarLista_nil] at h
    cases h
    exact ⟨fun k hk => hk, fun a b2 ha => ha,
      fun k hk hk2 => absurd hk hk2⟩
  | cons x t ihl =>
    intro st st' h
    rw [eliminarLista_cons] at h
    cases hx : eliminarNodo f st x with
    | none => rw [hx] at h; cases h
    | some r =>
      rw [hx] at h
      have h2 : eliminarLista f r.1 t = some st' := h
      have hx2 : eliminarNodo f st x = some (r.1, r.2) := hx
      rcases eliminar_encoge f st x r.1 r.2 hx2 with ⟨hk1, ha1, hd1⟩
      rcases ihl r.1 st' h2 with ⟨hk2, ha2, hd2⟩
      refine ⟨fun k hk => hk1 k (hk2 k hk),
        fun a b2 ha => ha1 a b2 (ha2 a b2 ha), ?_⟩
      intro k hk hk2'
      by_cases hmid : k ∈ claves r.1
      · rcases hd2 k hmid hk2' with ⟨h2x, hh2, hr⟩
        exact ⟨h2x, List.mem_cons_of_mem x hh2,
          Relation.ReflTransGen.mono ha1 hr⟩
      · exact ⟨x, List.mem_cons_self x t, hd1 k hk hmid⟩

/-- On an acyclic registry, any fuel exceeding the size of the reachable
set makes `eliminarNodo` return. -/
theorem eliminar_suficiente : ∀ N : Nat, ∀ st id, Aciclico st →
    ({u | Relation.ReflTransGen (Arista st) id u}).ncard < N →
    (eliminarNodo N st id).isSome := by
  intro N
  induction N with
  | zero => intro st id _ hlt; exact absurd hlt (Nat.not_lt_zero _)
  | succ f ih =>
    intro st id hac hlt
    rw [eliminarNodo_succ]
    cases hl : lookupN st id with
    | none => rfl
    | some nodo =>
      have hL : ∀ (l : List Nat) (s : Diagrama), Aciclico s →
          (∀ x ∈ l, {u | Relation.ReflTransGen (Arista s) x u}.ncard < f) →
          (eliminarLista f s l).isSome := by
        intro l
        induction l with
        | nil =>
          intro s _ _
          rw [eliminarLista_nil]
          rfl
        | cons x t ihl =>
          intro s hacs hcard
          rw [eliminarLista_cons]
          rcases Option.isSome_iff_exists.mp
            (ih s x hacs (hcard x (List.mem_cons_self x t))) with ⟨r, hr⟩
          rw [hr]
          show (eliminarLista f r.1 t).isSome
          have hr2 : eliminarNodo f s x = some (r.1, r.2) := hr
          rcases eliminar_encoge f s x r.1 r.2 hr2 with ⟨-, hash, -⟩
          have hacr : Aciclico r.1 := aciclico_subrel hash hacs
          refine ihl r.1 hacr ?_
          intro y hy
          have hsub2 : {u | Relation.ReflTransGen (Arista r.1) y u}
              ⊆ {u | Relation.ReflTransGen (Arista s) y u} :=
            fun u hu => Relation.ReflTransGen.mono hash hu
          exact Nat.lt_of_le_of_lt
            (Set.ncard_le_ncard hsub2 (reach_finito s y))
            (hcard y (List.mem_cons_of_mem x hy))
      have hcards : ∀ x ∈ nodo.hijos,
          {u | Relation.ReflTransGen (Arista st) x u}.ncard < f := by
        intro x hx
        have hsub : {u | Relation.ReflTransGen (Arista st) x u}
            ⊆ {u | Relation.ReflTransGen (Arista st) id u} := by
          intro u hu
          exact Relation.ReflTransGen.head ⟨nodo, hl, hx⟩ hu
        have hvnot : id ∉ {u | Relation.ReflTransGen (Arista st) x u} := by
          intro hu
          exact hac id (Relation.TransGen.head' ⟨nodo, hl, hx⟩ hu)
        have hss : {u | Relation.ReflTransGen (Arista st) x u}
            ⊂ {u | Relation.ReflTransGen (Arista st) id u} :=
          (Set.ssubset_iff_of_subset hsub).mpr
            ⟨id, Relation.ReflTransGen.refl, hvnot⟩
        exact Nat.lt_of_lt_of_le
          (Set.ncard_lt_ncard hss (reach_finito st id))
          (Nat.lt_succ_iff.mp hlt)
      rcases Option.isSome_iff_exists.mp (hL nodo.hijos st hac hcards) with
        ⟨st1, hst1⟩
      show (match eliminarLista f st nodo.hijos with
        | none => (none : Option (Diagrama × Bool))
        | some st1 =>
          match lookupN st1 id with
          | none => none
          | some nodo1 =>
            some (limpiarHomologos (borrarReg
              (nodo1.padres.foldl (fun s2 pid =>
                if (lookupN s2 pid).isSome then
                  modifyReg s2 pid (fun p =>
                    { p with hijos := p.hijos.filter (fun h2 => h2 != id) })
                else s2) st1) id) nodo1.homologos id, true)).isSome
      rw [hst1]
      show (match lookupN st1 id with
        | none => (none : Option (Diagrama × Bool))
        | some nodo1 =>
          some (limpiarHomologos (borrarReg
            (nodo1.padres.foldl (fun s2 pid =>
              if (lookupN s2 pid).isSome then
                modifyReg s2 pid (fun p =>
                  { p with hijos := p.hijos.filter (fun h2 => h2 != id) })
              else s2) st1) id) nodo1.homologos id, true)).isSome
      have hid1 : id ∈ claves st1 := by
        by_contra hno
        have hidst : id ∈ claves st :=
          lookupN_isSome_iff.mp (by rw [hl]; rfl)
        rcases (eliminarLista_encoge f nodo.hijos st st1 hst1).2.2 id hidst
          hno with ⟨h2x, hh2, hr⟩
        exact hac id (Relation.TransGen.head' ⟨nodo, hl, hh2⟩ hr)
      cases hl1 : lookupN st1 id with
      | none => exact absurd (lookupN_eq_none_iff.mp hl1) (fun h5 => h5 hid1)
      | some nodo1 => rfl

end Terminacion

section Invariantes


/-- Every reachable state is well-formed: the registry keys are exactly the
node ids, they are below the counter, parent/child lists are mutually
consistent and duplicate-free, and the child relation is acyclic. -/
theorem alcanzable_buenaForma {r u : Bool} {st : Diagrama}
    (h : Alcanzable r u st) : BuenaForma st := by
  induction h with
  | crear r u nombre => exact buenaForma_inicial nombre
  | agregar nombre id_padre num_hijo _ ih =>
    exact buenaForma_agregar nombre id_padre num_hijo ih
  | eliminar _ he ih => exact buenaForma_eliminar he ih
  | enlazar _ he ih => exact buenaForma_enlazar he ih
  | renombrar _ he ih => exact buenaForma_renombrar he ih
  | desenlazar _ he ih => exact buenaForma_desenlazar he ih
  | contenido _ he ih => exact buenaForma_contenido he ih

/-- Every state reachable without a rename step keeps homolog bookkeeping
exact. -/
theorem alcanzable_exactos {r u : Bool} {st : Diagrama}
    (h : Alcanzable r u st) : r = false → HomologosExactos st := by
  induction h with
  | crear r u nombre => exact fun _ => homologosExactos_inicial nombre
  | agregar nombre id_padre num_hijo hprev ih =>
    intro hr
    exact homologosExactos_agregar nombre id_padre num_hijo
      (alcanzable_buenaForma hprev) (ih hr)
  | eliminar hprev he ih =>
    intro hr
    exact homologosExactos_eliminar he (alcanzable_buenaForma hprev) (ih hr)
  | enlazar hprev he ih =>
    intro hr
    exact homologosExactos_enlazar he (alcanzable_buenaForma hprev) (ih hr)
  | renombrar hprev he ih =>
    intro hr
    exact Bool.noConfusion hr
  | desenlazar hprev he ih =>
    intro hr
    exact homologosExactos_desenlazar he (alcanzable_buenaForma hprev) (ih hr)
  | contenido hprev he ih =>
    intro hr
    exact homologosExactos_contenido he (alcanzable_buenaForma hprev) (ih hr)

/-- Every reachable state satisfies the parent-stack lower bounds. -/
theorem alcanzable_cotas {r u : Bool} {st : Diagrama}
    (h : Alcanzable r u st) : CotasInferiores st := by
  induction h with
  | crear r u nombre => exact cotas_inicial nombre
  | agregar nombre id_padre num_hijo hprev ih =>
    exact cotas_agregar nombre id_padre num_hijo
      (alcanzable_buenaForma hprev) ih
  | eliminar hprev he ih =>
    exact cotas_eliminar he (alcanzable_buenaForma hprev) ih
  | enlazar hprev he ih =>
    exact cotas_enlazar he (alcanzable_buenaForma hprev) ih
  | renombrar hprev he ih =>
    exact cotas_renombrar he (alcanzable_buenaForma hprev) ih
  | desenlazar hprev he ih =>
    exact cotas_desenlazar he (alcanzable_buenaForma hprev) ih
  | contenido hprev he ih =>
    exact cotas_contenido he (alcanzable_buenaForma hprev) ih

end Invariantes

/-- C3: after any sequence of core operations (addNode with or without a
parent, link, unlink, deleteNode — and also rename and content updates),
the graph is acyclic: no registered node is reachable from itself via one
or more children edges. -/
theorem grafo_aciclico {r u : Bool} {st : Diagrama}
    (h : Alcanzable r u st) : Aciclico st :=
  (alcanzable_buenaForma h).aciclico

theorem grafo_aciclico_testigo : Aciclico escEnl :=
  grafo_aciclico
    (Alcanzable.enlazar
      (Alcanzable.agregar "A" none none (Alcanzable.crear true true "D"))
      (rfl : enlazarNodos 10 escSuelto 1 2 = some (escEnl, true)))

/-- C6: after any sequence of core operations, for every pair of registered
nodes P and C, P lists C among its children iff C lists P among its
parents (bidirectional consistency, preserved in particular by deletion). -/
theorem padres_hijos_bidireccional {r u : Bool} {st : Diagrama}
    (h : Alcanzable r u st) :
    ∀ p c, p ∈ claves st → c ∈ claves st →
      (c ∈ (nodoEn st p).hijos ↔ p ∈ (nodoEn st c).padres) := by
  have hbf := alcanzable_buenaForma h
  intro p c hp hc
  rcases Option.isSome_iff_exists.mp (lookupN_isSome_iff.mpr hp) with ⟨np, hnp⟩
  rcases Option.isSome_iff_exists.mp (lookupN_isSome_iff.mpr hc) with ⟨nc, hnc⟩
  have hep : nodoEn st p = np := by rw [nodoEn, hnp]; rfl
  have hec : nodoEn st c = nc := by rw [nodoEn, hnc]; rfl
  rw [hep, hec]
  constructor
  · intro hch
    rcases hbf.hijosBidir (p, np) (lookupN_mem hnp) c hch with ⟨m, hm, hmem⟩
    rw [hnc] at hm
    rw [Option.some.inj hm]
    exact hmem
  · intro hpa
    rcases hbf.padresBidir (c, nc) (lookupN_mem hnc) p hpa with ⟨m, hm, hmem⟩
    rw [hnp] at hm
    rw [Option.some.inj hm]
    exact hmem

/-- C2 (amended): in every state reachable without rename, the homolog
relation is symmetric and holds exactly between distinct same-named
registered nodes. -/
theorem homologos_simetricos {u : Bool} {st : Diagrama}
    (h : Alcanzable false u st) :
    ∀ a b na nb, lookupN st a = some na → lookupN st b = some nb →
      ((b ∈ na.homologos ↔ a ∈ nb.homologos) ∧
       (b ∈ na.homologos ↔ (na.nombre = nb.nombre ∧ ¬ a = b))) := by
  have he := alcanzable_exactos h rfl
  intro a b na nb ha hb
  have h1 := he.2 (a, na) (lookupN_mem ha) (b, nb) (lookupN_mem hb)
  have h2 := he.2 (b, nb) (lookupN_mem hb) (a, na) (lookupN_mem ha)
  refine ⟨?_, h1⟩
  rw [h1, h2]
  constructor
  · rintro ⟨hn, hne⟩
    exact ⟨hn.symm, fun e => hne e.symm⟩
  · rintro ⟨hn, hne⟩
    exact ⟨hn.symm, fun e => hne e.symm⟩

theorem homologos_simetricos_testigo :
    ((3 ∈ (nodoEn escX2 2).homologos ↔ 2 ∈ (nodoEn escX2 3).homologos) ∧
     (3 ∈ (nodoEn escX2 2).homologos ↔
       ((nodoEn escX2 2).nombre = (nodoEn escX2 3).nombre ∧
        ¬ (2 : Nat) = 3))) :=
  homologos_simetricos
    (Alcanzable.agregar "X" none none
      (Alcanzable.agregar "X" none none (Alcanzable.crear false true "D")))
    2 3 (nodoEn escX2 2) (nodoEn escX2 3) rfl rfl

/-- C5 (amended): the inherited layers are not derivable from the current
edges (see the recorded counterexample), but at every reachable state —
including states reached through unlink and through deletion of a parent —
they bound them from above: for every registered node and each of its
current parents, the parent's full constraint stack (inherited layers with
the own constraints appended) is contained, layer by layer, in the node's
inherited layers. -/
theorem capas_acotan {r u : Bool} {st : Diagrama}
    (h : Alcanzable r u st) :
    ∀ k n, lookupN st k = some n → ∀ p ∈ n.padres,
      ∀ np, lookupN st p = some np →
        cLE np.restricciones n.restricciones_heredadas := by
  have hbf := alcanzable_buenaForma h
  have hco := alcanzable_cotas h
  intro k n hk p hp np hnp
  rcases hbf.padresBidir (k, n) (lookupN_mem hk) p hp with ⟨m, hm, hkin⟩
  rw [hnp] at hm
  rw [Option.some.inj hm]
  exact hco (p, m) (lookupN_mem (hnp.trans hm)) k hkin n hk

theorem capas_acotan_testigo :
    1 ∈ (nodoEn escEnl 2).padres ∧
    cLE (nodoEn escEnl 1).restricciones
      (nodoEn escEnl 2).restricciones_heredadas :=
  ⟨by decide,
    capas_acotan
      (Alcanzable.enlazar
        (Alcanzable.agregar "A" none none (Alcanzable.crear true true "D"))
        (rfl : enlazarNodos 10 escSuelto 1 2 = some (escEnl, true)))
      2 (nodoEn escEnl 2) rfl 1 (by decide) (nodoEn escEnl 1) rfl⟩

/-- C4 (amended): in every state reachable without rename, deletion fails
exactly on unregistered ids leaving the state unchanged, and a successful
deletion unregisters the id and its children and purges it from every
surviving child list, parent list and homolog set. -/
theorem eliminar_correcto {u : Bool} {st : Diagrama} {fuel id : Nat}
    {st' : Diagrama} {b : Bool}
    (hra : Alcanzable false u st)
    (h : eliminarNodo fuel st id = some (st', b)) :
    (b = false → st' = st ∧ lookupN st id = none) ∧
    (b = true → lookupN st' id = none ∧
      (∀ nodo, lookupN st id = some nodo →
        ∀ c ∈ nodo.hijos, lookupN st' c = none) ∧
      (∀ k n, lookupN st' k = some n →
        id ∉ n.hijos ∧ id ∉ n.padres ∧ id ∉ n.homologos)) := by
  have hbf := alcanzable_buenaForma hra
  have hex := alcanzable_exactos hra rfl
  rcases eliminar_buenaForma_aux fuel st id st' b hbf h with
    ⟨hbf', hinv, htrue, hfalse, hhe⟩
  refine ⟨hfalse, ?_⟩
  intro hb
  have hid' : id ∉ claves st' := htrue hb
  have hpur : ∀ k n, lookupN st' k = some n →
      id ∉ n.hijos ∧ id ∉ n.padres ∧ id ∉ n.homologos := by
    intro k n hk
    have hkmem := lookupN_mem hk
    refine ⟨?_, ?_, ?_⟩
    · intro hmem
      rcases hbf'.hijosBidir (k, n) hkmem id hmem with ⟨m, hm, -⟩
      exact hid' (lookupN_isSome_iff.mp (by rw [hm]; rfl))
    · intro hmem
      rcases hbf'.padresBidir (k, n) hkmem id hmem with ⟨m, hm, -⟩
      exact hid' (lookupN_isSome_iff.mp (by rw [hm]; rfl))
    · intro hmem
      have h2 := (hhe hex).1 (k, n) hkmem id hmem
      rw [lookupN_isSome_iff] at h2
      exact hid' h2
  refine ⟨lookupN_eq_none_iff.mpr hid', ?_, hpur⟩
  intro nodo hnodo c hc
  cases hl : lookupN st' c with
  | none => rfl
  | some m =>
    rcases hbf.hijosBidir (id, nodo) (lookupN_mem hnodo) c hc with
      ⟨nc, hnc, hpadc⟩
    rcases hinv.2.2 c nc m hnc hl with ⟨-, hpad, -, -, -⟩
    have : id ∈ m.padres := by rw [hpad]; exact hpadc
    exact absurd this (hpur c m hl).2.1

theorem eliminar_correcto_prueba :
    (escDelX.2 = false → escDelX.1 = escX2 ∧ lookupN escX2 3 = none) ∧
    (escDelX.2 = true → lookupN escDelX.1 3 = none ∧
      (∀ nodo, lookupN escX2 3 = some nodo →
        ∀ c ∈ nodo.hijos, lookupN escDelX.1 c = none) ∧
      (∀ k n, lookupN escDelX.1 k = some n →
        3 ∉ n.hijos ∧ 3 ∉ n.padres ∧ 3 ∉ n.homologos)) :=
  @eliminar_correcto true escX2 10 3 escDelX.1 escDelX.2
    (Alcanzable.agregar "X" none none
      (Alcanzable.agregar "X" none none (Alcanzable.crear false true "D")))
    rfl

/-- C10: on every acyclic registry, the children-before-self recursion of
`deleteNode` and the visited-set-free recursion of the constraint
propagation triggered by a successful link both reach a fixed depth bounded
by the DAG and return: some recursion-depth budget suffices. -/
theorem terminacion_aciclica {st : Diagrama} (hac : Aciclico st)
    (v id : Nat) :
    (∃ f, (propagarRestricciones f st v).isSome) ∧
    (∃ f, (eliminarNodo f st id).isSome) :=
  ⟨⟨{u | Relation.ReflTransGen (Arista st) v u}.ncard + 1,
      propagar_suficiente _ st v hac (Nat.lt_succ_self _)⟩,
   ⟨{u | Relation.ReflTransGen (Arista st) id u}.ncard + 1,
      eliminar_suficiente _ st id hac (Nat.lt_succ_self _)⟩⟩

theorem terminacion_aciclica_testigo :
    (∃ f, (propagarRestricciones f escHijo 1).isSome) ∧
    (∃ f, (eliminarNodo f escHijo 1).isSome) :=
  terminacion_aciclica
    ((alcanzable_buenaForma
      (Alcanzable.agregar "A" (some 1) none
        (Alcanzable.crear true true "D"))).aciclico) 1 1

theorem padres_hijos_bidireccional_testigo :
    2 ∈ claves escHijo ∧
    (2 ∈ (nodoEn escHijo 1).hijos ↔ 1 ∈ (nodoEn escHijo 2).padres) :=
  ⟨by decide,
    padres_hijos_bidireccional
      (Alcanzable.agregar "A" (some 1) none (Alcanzable.crear true true "D"))
      1 2 (by decide) (by decide)⟩

end VisualizadorDiagrama
